import Mathlib

/-!
# eventlog: session-activity log analyser

Shallow embedding of `src/eventLog.h` / `src/eventLog.cpp`.

Modelling conventions.

* `time_t` and the `double` returned by `difftime` are modelled by `Int`: the values are
  whole numbers of seconds, far below `2^53`.  The counters of type `int` of
  `getMostDistinctLoginsIp` and `getHighestPeakSessionsUser` are modelled by `Int` as
  well; their absolute value is at most the number of events.
* The two totals of type `int` of `calcAvgSessionLengthForIp` are modelled twice.
  `pairLoop32`, `calcAvgSessionLengthForIp32` and `getAvgSessionLengthPerIp32` pass the
  exact result of every operation on them through a parameter `conv`, of which only what
  the language defines is assumed: a result inside the range of `int` is stored as it is
  (`IsIntConv`).  They also take the library's `mktime` as a parameter `mk`, since its
  values depend on the time zone of the process.  `pairLoop`,
  `calcAvgSessionLengthForIp` and `getAvgSessionLengthPerIp` are the same functions with
  exact totals and `mktime` in UTC (`getAvgSessionLengthPerIp32_id`); they are used where
  the values of the totals do not matter.
* `std::unordered_map<std::string, T>` is an association list with distinct keys
  (`UMap T`).  The order in which a range-`for`/iterator loop visits the entries is
  unspecified by the language, so every loop over a map takes the enumeration as a
  parameter `iter`; the only fact assumed about it is that it lists the entries of the
  map, each once (`IsIterationOrder`).
* `std::sort` is library code.  It is a parameter as well, constrained by the contract
  the C++ standard gives it (`StdSortContract`): the result is a permutation of the
  input and is ordered with respect to the comparison, provided the comparison is a
  strict weak ordering.
* The C library calls of the validators and of the tokenizer (`sscanf`, `inet_pton`,
  `isalnum`) are the fields of a parameter `lib : CLib`; the properties of the setters
  and builders hold for every value of it.  `cLib` is a model of these calls, used to
  evaluate the builders on concrete lines.
* `tokenizeLogLine` lets `sscanf` store the fields of a line in four buffers of fixed
  size, without field widths.  A field longer than its buffer is written past the end of
  the buffer, and from there on the behaviour of the program is undefined:
  `tokenizeLogLine`, the constructor of `EventBuilder` and `EventLogBuilder` have the
  value `none` on such a line.
* `mktime` is the library call in UTC: on the zeroed date it is linear in hours, minutes
  and seconds.  It serves in the comparison of events and as an instance of the
  parameter `mk`.
-/

namespace EventLogRepo

/-! ## Time -/

/-- The fields of `struct tm` that `Event::setTime` fills in; every other field is zero
(`struct tm timeInfo = {0}`). -/
structure Tm where
  tm_sec : Int
  tm_min : Int
  tm_hour : Int
deriving DecidableEq

/-- Seconds since the epoch of the calendar day that a zeroed `struct tm` denotes
(`tm_year = 0`, `tm_mon = 0`, `tm_mday = 0`, that is 1899-12-31 00:00:00), here in UTC.
No result below depends on its value. -/
def zeroDateEpoch : Int := -2209075200

/-- Library `mktime` on a `struct tm` whose date fields are zero, in UTC: out-of-range
hours, minutes and seconds are carried over, so the result is linear in the three fields.
In a time zone whose offset changes, the library's values differ from these for the times
carried past the change. -/
def mktime (t : Tm) : Int :=
  zeroDateEpoch + (t.tm_hour * 3600 + t.tm_min * 60 + t.tm_sec)

/-- Library `difftime(t1, t0)`: the difference `t1 - t0` in seconds. -/
def difftime (t1 t0 : Int) : Int := t1 - t0

/-! ## Event -/

/-- The enumeration `Event::EventType`. -/
inductive EventType where
  | EVENT_LOGIN
  | EVENT_LOGOUT
  | EVENT_INVALID
deriving DecidableEq

/-- The class `Event`: its four private members. -/
structure Event where
  eventTime : Tm
  eventType : EventType
  ip : String
  user : String
deriving DecidableEq

/-- `Event::getTime`. -/
def Event.getTime (e : Event) : Tm := e.eventTime

/-- `Event::getType`. -/
def Event.getType (e : Event) : EventType := e.eventType

/-- `Event::getIp`. -/
def Event.getIp (e : Event) : String := e.ip

/-- `Event::getUser`. -/
def Event.getUser (e : Event) : String := e.user

/-- Time of day of an event in seconds: `hh * 3600 + mm * 60 + ss`. -/
def Event.secs (e : Event) : Int :=
  e.getTime.tm_hour * 3600 + e.getTime.tm_min * 60 + e.getTime.tm_sec

/-- The helper `compareEventsByTime`: `difftime(mktime(a), mktime(b)) < 0`. -/
def compareEventsByTime (eventA eventB : Event) : Bool :=
  let tm1 := eventA.getTime
  let tm2 := eventB.getTime
  let t1 := mktime tm1
  let t2 := mktime tm2
  let diffSecs := difftime t1 t2
  decide (diffSecs < 0)

/-! ## `std::unordered_map` with `std::string` keys -/

/-- An unordered map from strings: an association list whose keys are distinct. -/
abbrev UMap (β : Type) := List (String × β)

namespace UMap

/-- The keys of a map. -/
def keys {β : Type} (m : UMap β) : List String := m.map Prod.fst

/-- Lookup without insertion (`find`). -/
def find {β : Type} : UMap β → String → Option β
  | [], _ => none
  | (k', v) :: m, k => if k' = k then some v else find m k

/-- The statement `m[k] = f (m[k])`: `operator[]` inserts the value-initialised `d`
when `k` is absent, then the referenced value is updated in place. -/
def update {β : Type} (d : β) (f : β → β) : UMap β → String → UMap β
  | [], k => [(k, f d)]
  | (k', v) :: m, k => if k' = k then (k', f v) :: m else (k', v) :: update d f m k

/-- The expression `m[k]` used as a value: the mapped value (`d` when absent) together
with the map afterwards, into which an absent key has been inserted. -/
def index {β : Type} (d : β) (m : UMap β) (k : String) : β × UMap β :=
  ((m.find k).getD d, update d id m k)

end UMap

/-- An enumeration of the entries of unordered maps (the visiting order of an iterator
loop), one for every mapped type. -/
abbrev MapOrder := (β : Type) → UMap β → UMap β

/-- What the language guarantees about an iterator loop over an unordered map: it visits
exactly the entries of the map, each once. -/
def IsIterationOrder (iter : MapOrder) : Prop :=
  ∀ (β : Type) (m : UMap β), List.Perm (iter β m) m

/-- The enumeration that visits entries in order of first insertion. -/
def insertionOrder : MapOrder := fun _ m => m

/-- The enumeration that visits the most recently inserted key first. -/
def reverseOrder : MapOrder := fun _ m => m.reverse

/-! ## EventLog -/

/-- The class `EventLog`: the private vector `events`. -/
structure EventLog where
  events : List Event
deriving DecidableEq

/-- `EventLog::addEvent`. -/
def EventLog.addEvent (log : EventLog) (e : Event) : EventLog :=
  { events := log.events ++ [e] }

/-- First loop of `getMostDistinctLoginsIp`: `loginsPerIp[ip]++` for every login. -/
def loginsPerIp (events : List Event) : UMap Int :=
  events.foldl
    (fun m it => if it.getType = EventType.EVENT_LOGIN then m.update 0 (· + 1) it.getIp else m)
    []

/-- Second loop of `getMostDistinctLoginsIp`, over the entries in visiting order: the
state is `(mostDistinctLoginsIp, mostDistinctLogins)`. -/
def mostLoginsScan (entries : UMap Int) : String × Int :=
  entries.foldl (fun best it => if it.2 > best.2 then (it.1, it.2) else best) ("", 0)

/-- `EventLog::getMostDistinctLoginsIp`. -/
def EventLog.getMostDistinctLoginsIp (iter : MapOrder) (log : EventLog) : String :=
  (mostLoginsScan (iter Int (loginsPerIp log.events))).1

/-- The struct `EventLog::UserSessionsStats`. -/
structure UserSessionsStats where
  currentSessions : Int
  maxSessions : Int
deriving DecidableEq

/-- Body of the first loop of `getHighestPeakSessionsUser`, applied to the entry
`userMap[user]` that `stats` points to. -/
def updateStats (eventType : EventType) (stats : UserSessionsStats) : UserSessionsStats :=
  let stats1 : UserSessionsStats :=
    if eventType = EventType.EVENT_LOGIN then
      { stats with currentSessions := stats.currentSessions + 1 }
    else if eventType = EventType.EVENT_LOGOUT then
      { stats with currentSessions := stats.currentSessions - 1 }
    else stats
  if stats1.currentSessions > stats1.maxSessions then
    { stats1 with maxSessions := stats1.currentSessions }
  else stats1

/-- First loop of `getHighestPeakSessionsUser`: `operator[]` value-initialises the stats
of a user seen for the first time to `{0, 0}`. -/
def userMapScan (events : List Event) : UMap UserSessionsStats :=
  events.foldl (fun userMap it => userMap.update ⟨0, 0⟩ (updateStats it.getType) it.getUser) []

/-- Second loop of `getHighestPeakSessionsUser`, over the entries in visiting order: the
state is `(userWithMaxSessions, maxSessions)`. -/
def peakUserScan (entries : UMap UserSessionsStats) : String × Int :=
  entries.foldl
    (fun best it => if it.2.maxSessions > best.2 then (it.1, it.2.maxSessions) else best)
    ("", 0)

/-- `EventLog::getHighestPeakSessionsUser`. -/
def EventLog.getHighestPeakSessionsUser (iter : MapOrder) (log : EventLog) : String :=
  (peakUserScan (iter UserSessionsStats (userMapScan log.events))).1

/-- The typedef `EventLog::LogTimes`. -/
abbrev LogTimes := List Tm

/-- The typedef `EventLog::UserLogTimesMap`. -/
abbrev UserLogTimesMap := UMap LogTimes

/-- The typedef `EventLog::IpLogTimesMap`. -/
abbrev IpLogTimesMap := UMap UserLogTimesMap

/-- The typedef `EventLog::IpMap`. -/
abbrev IpMap := UMap Int

/-- The statement `timesMap[ip][user].push_back(eventTime)`. -/
def pushTime (timesMap : IpLogTimesMap) (ip user : String) (eventTime : Tm) : IpLogTimesMap :=
  timesMap.update [] (fun users => users.update [] (fun times => times ++ [eventTime]) user) ip

/-- First loop of `getAvgSessionLengthPerIp`: the state is
`(loginTimesMap, logoutTimesMap)`. -/
def classifyEvents (events : List Event) : IpLogTimesMap × IpLogTimesMap :=
  events.foldl
    (fun st it =>
      if it.getType = EventType.EVENT_LOGIN then
        (pushTime st.1 it.getIp it.getUser it.getTime, st.2)
      else if it.getType = EventType.EVENT_LOGOUT then
        (st.1, pushTime st.2 it.getIp it.getUser it.getTime)
      else st)
    ([], [])

/-- The `while (i < loginTimes.size() && i < logoutTimes.size())` loop of
`calcAvgSessionLengthForIp`, with exact totals and `mktime` in UTC (`pairLoop32` has the
`int` totals); the state is `(lengthSum, sessions)`.  The first argument bounds the
number of iterations; `loginTimes.length` is always enough (`pairLoop_fuel`). -/
def pairLoop (loginTimes logoutTimes : LogTimes) : Nat → Nat → Int × Int → Int × Int
  | 0, _, st => st
  | fuel + 1, i, st =>
    if h : i < loginTimes.length ∧ i < logoutTimes.length then
      let t1 := mktime (loginTimes.get ⟨i, h.1⟩)
      let t2 := mktime (logoutTimes.get ⟨i, h.2⟩)
      let sessionLength := difftime t2 t1
      pairLoop loginTimes logoutTimes fuel (i + 1) (st.1 + sessionLength, st.2 + 1)
    else st

/-- `EventLog::calcAvgSessionLengthForIp`, with exact totals and `mktime` in UTC
(`calcAvgSessionLengthForIp32` has the `int` totals).  Both maps are passed by reference;
the second component of the result is `logoutTimesMap` on return (`logoutTimesMap[user]`
inserts an empty vector for a user that has none).  `mktime` also normalises the stored
`struct tm` it is given; each stored value is read once, so that is not observed. -/
def calcAvgSessionLengthForIp (iter : MapOrder) (loginTimesMap logoutTimesMap : UserLogTimesMap) :
    Int × UserLogTimesMap :=
  let st := (iter LogTimes loginTimesMap).foldl
    (fun (st : (Int × Int) × UserLogTimesMap) it =>
      let loginTimes := it.2
      let ref := UMap.index [] st.2 it.1
      let logoutTimes := ref.1
      (pairLoop loginTimes logoutTimes loginTimes.length 0 st.1, ref.2))
    ((0, 0), logoutTimesMap)
  let lengthSum := st.1.1
  let sessions := st.1.2
  (if sessions = 0 then -1 else Int.tdiv lengthSum sessions, st.2)

/-- `EventLog::getAvgSessionLengthPerIp`, with the exact totals of
`calcAvgSessionLengthForIp` (`getAvgSessionLengthPerIp32` has the `int` totals): the
result is the map `avgSessionLengths` on return. -/
def EventLog.getAvgSessionLengthPerIp (iter : MapOrder) (log : EventLog)
    (avgSessionLengths : IpMap) : IpMap :=
  let maps := classifyEvents log.events
  let loginTimesMap := maps.1
  let logoutTimesMap := maps.2
  ((iter UserLogTimesMap loginTimesMap).foldl
    (fun (st : IpMap × IpLogTimesMap) it =>
      let ip := it.1
      let loginTimes := it.2
      let ref := UMap.index [] st.2 ip
      let res := calcAvgSessionLengthForIp iter loginTimes ref.1
      (st.1.update 0 (fun _ => res.1) ip, ref.2.update [] (fun _ => res.2) ip))
    (avgSessionLengths, logoutTimesMap)).1

/-! ### The same functions with the arithmetic of the machine

`calcAvgSessionLengthForIp` keeps its two totals in variables of type `int`, and the
session lengths come from the library's `mktime`, whose values depend on the time zone
of the process.  The three functions above fix both: the totals are exact whole numbers
and `mktime` is that of UTC.  The three functions below leave both open. -/

/-- The least value of `int` (32 bits). -/
def INT_MIN : Int := -2147483648

/-- The greatest value of `int`. -/
def INT_MAX : Int := 2147483647

/-- Whether a whole number is a value of `int`. -/
def InIntRange (x : Int) : Prop := INT_MIN ≤ x ∧ x ≤ INT_MAX

instance (x : Int) : Decidable (InIntRange x) := by
  unfold InIntRange
  infer_instance

/-- What an operation on `int` stores, as a function of its exact result: the statement
`lengthSum += sessionLength` adds in `double` (exactly, the values being far below
`2^53`) and converts the sum to `int`, `sessions++` increments an `int`, and
`lengthSum / sessions` divides two of them. -/
abbrev IntConv := Int → Int

/-- What the language guarantees about these operations: an exact result that is a value
of `int` is the value stored.  For any other exact result the behaviour of the program is
undefined, and what a given build stores is left to the parameter. -/
def IsIntConv (conv : IntConv) : Prop := ∀ x, InIntRange x → conv x = x

/-- The operations of an x86-64 build: the conversion instruction `cvttsd2si` delivers
`INT_MIN` for a `double` outside the range of `int`, and the increment of `INT_MAX`
wraps around to `INT_MIN`. -/
def x86Conv : IntConv := fun x => if InIntRange x then x else INT_MIN

/-- The `while (i < loginTimes.size() && i < logoutTimes.size())` loop of
`calcAvgSessionLengthForIp` with `int` totals; the state is `(lengthSum, sessions)`, and
`mk` is the library's `mktime`.  The first argument bounds the number of iterations;
`loginTimes.length` is always enough (`pairLoop32_eq`).  The index `i` is an
`unsigned int`; it does not wrap around before `sessions`, which grows with it, has left
the range of `int`. -/
def pairLoop32 (conv : IntConv) (mk : Tm → Int) (loginTimes logoutTimes : LogTimes) :
    Nat → Nat → Int × Int → Int × Int
  | 0, _, st => st
  | fuel + 1, i, st =>
    if h : i < loginTimes.length ∧ i < logoutTimes.length then
      let t1 := mk (loginTimes.get ⟨i, h.1⟩)
      let t2 := mk (logoutTimes.get ⟨i, h.2⟩)
      let sessionLength := difftime t2 t1
      let sessions := conv (st.2 + 1)
      let lengthSum := conv (st.1 + sessionLength)
      pairLoop32 conv mk loginTimes logoutTimes fuel (i + 1) (lengthSum, sessions)
    else st

/-- `EventLog::calcAvgSessionLengthForIp` with `int` totals.  Both maps are passed by
reference; the second component of the result is `logoutTimesMap` on return. -/
def calcAvgSessionLengthForIp32 (conv : IntConv) (mk : Tm → Int) (iter : MapOrder)
    (loginTimesMap logoutTimesMap : UserLogTimesMap) : Int × UserLogTimesMap :=
  let st := (iter LogTimes loginTimesMap).foldl
    (fun (st : (Int × Int) × UserLogTimesMap) it =>
      let loginTimes := it.2
      let ref := UMap.index [] st.2 it.1
      let logoutTimes := ref.1
      (pairLoop32 conv mk loginTimes logoutTimes loginTimes.length 0 st.1, ref.2))
    ((0, 0), logoutTimesMap)
  let lengthSum := st.1.1
  let sessions := st.1.2
  (if sessions = 0 then -1 else conv (Int.tdiv lengthSum sessions), st.2)

/-- `EventLog::getAvgSessionLengthPerIp` with the `int` totals of
`calcAvgSessionLengthForIp`: the result is the map `avgSessionLengths` on return. -/
def EventLog.getAvgSessionLengthPerIp32 (conv : IntConv) (mk : Tm → Int) (iter : MapOrder)
    (log : EventLog) (avgSessionLengths : IpMap) : IpMap :=
  let maps := classifyEvents log.events
  let loginTimesMap := maps.1
  let logoutTimesMap := maps.2
  ((iter UserLogTimesMap loginTimesMap).foldl
    (fun (st : IpMap × IpLogTimesMap) it =>
      let ip := it.1
      let loginTimes := it.2
      let ref := UMap.index [] st.2 ip
      let res := calcAvgSessionLengthForIp32 conv mk iter loginTimes ref.1
      (st.1.update 0 (fun _ => res.1) ip, ref.2.update [] (fun _ => res.2) ip))
    (avgSessionLengths, logoutTimesMap)).1

/-! ## Sorting -/

/-- The requirements the C++ standard places on the comparison given to `std::sort`:
a strict weak ordering. -/
structure IsStrictWeakOrdering (comp : Event → Event → Bool) : Prop where
  irrefl : ∀ a, comp a a = false
  trans : ∀ a b c, comp a b = true → comp b c = true → comp a c = true
  incomp_trans : ∀ a b c, comp a b = false → comp b a = false →
    comp b c = false → comp c b = false → comp a c = false ∧ comp c a = false

/-- A sorting routine over events, given the comparison. -/
abbrev SortFn := (Event → Event → Bool) → List Event → List Event

/-- The contract of `std::sort(first, last, comp)`: for a strict weak ordering `comp` the
range afterwards is a permutation of the range before and is sorted with respect to
`comp`, that is, `comp(later, earlier)` is false for every two positions.  The order of
equivalent elements is not part of the contract (that is what `std::stable_sort` adds). -/
def StdSortContract (sort : SortFn) : Prop :=
  ∀ comp, IsStrictWeakOrdering comp → ∀ l : List Event,
    List.Perm (sort comp l) l ∧ List.Pairwise (fun a b => comp b a = false) (sort comp l)

/-- `EventLog::sortEvents`. -/
def EventLog.sortEvents (sort : SortFn) (log : EventLog) : EventLog :=
  { events := sort compareEventsByTime log.events }

/-- A sorting routine that keeps equivalent elements in input order: insertion sort. -/
def insertionSortFn : SortFn :=
  fun comp l => List.insertionSort (fun a b => comp b a = false) l

/-- A sorting routine that does not: insertion sort run over the range back to front. -/
def backwardInsertionSortFn : SortFn :=
  fun comp l => List.insertionSort (fun a b => comp b a = false) l.reverse

/-! ## Building events from log lines -/

/-- The C library calls made by the validators and by the tokenizer, whose code is not
part of the repository.  Every property below holds for every value of these four. -/
structure CLib where
  /-- The call `sscanf(s, "%02d:%02d:%02d", &hour, &min, &sec)`: the three numbers when
  the call returns 3. -/
  scanTime : String → Option (Int × Int × Int)
  /-- The value of `inet_pton(AF_INET, s, &addr)`. -/
  inet_pton : String → Int
  /-- The test `std::isalnum(c)`. -/
  isalnum : Char → Bool
  /-- The call `sscanf(line, "%[^,], %[^,], %[^,], %s", timeChar, typeChar, ipChar,
  userChar)`: the strings it stores, in this order, one for every conversion that
  succeeds before the first that fails; the call returns 4 exactly when there are four. -/
  scanLine : String → List String

/-- The helper `isValidIpV4Address`: `inet_pton` returned non-zero. -/
def isValidIpV4Address (lib : CLib) (ipAddress : String) : Bool :=
  let result := lib.inet_pton ipAddress
  decide (result ≠ 0)

/-- The loop of `isStringAlphaNumeric` from a position on, over the characters left. -/
def alnumLoop (lib : CLib) : List Char → Bool
  | [] => true
  | c :: rest => if !lib.isalnum c then false else alnumLoop lib rest

/-- The helper `isStringAlphaNumeric`. -/
def isStringAlphaNumeric (lib : CLib) (str : String) : Bool :=
  alnumLoop lib str.toList

/-- The helper `validateTime`: `mktime` did not return -1. -/
def validateTime (timeInfo : Tm) : Bool :=
  let rawTime := mktime timeInfo
  decide (rawTime ≠ -1)

/-- `Event::setTime`: the success indicator and the event afterwards. -/
def Event.setTime (lib : CLib) (e : Event) (timeStr : String) : Bool × Event :=
  match lib.scanTime timeStr with
  | none => (false, e)
  | some (hour, min, sec) =>
    let timeInfo : Tm := { tm_sec := sec, tm_min := min, tm_hour := hour }
    if validateTime timeInfo then (true, { e with eventTime := timeInfo }) else (false, e)

/-- `Event::setType`: the success indicator and the event afterwards. -/
def Event.setType (e : Event) (typeStr : String) : Bool × Event :=
  if typeStr = "LOGIN" then (true, { e with eventType := EventType.EVENT_LOGIN })
  else if typeStr = "LOGOUT" then (true, { e with eventType := EventType.EVENT_LOGOUT })
  else (false, e)

/-- `Event::setIp`: the success indicator and the event afterwards. -/
def Event.setIp (lib : CLib) (e : Event) (ipStr : String) : Bool × Event :=
  if isValidIpV4Address lib ipStr then (true, { e with ip := ipStr }) else (false, e)

/-- `Event::setUser`: the success indicator and the event afterwards. -/
def Event.setUser (lib : CLib) (e : Event) (userStr : String) : Bool × Event :=
  if isStringAlphaNumeric lib userStr then (true, { e with user := userStr }) else (false, e)

/-- The struct `EventBuilder::EventLogLineTokens`. -/
structure EventLogLineTokens where
  timeStr : String
  typeStr : String
  ip : String
  user : String
deriving DecidableEq

/-- The constant `TimeStrLen`, the size of the buffer `timeChar`. -/
def TimeStrLen : Nat := 8 + 1

/-- The constant `TypeStrLen`, the size of the buffer `typeChar`. -/
def TypeStrLen : Nat := 6 + 1

/-- The constant `IpStrLen`, the size of the buffer `ipChar`. -/
def IpStrLen : Nat := 15 + 1

/-- The constant `UserStrLen`, the size of the buffer `userChar`. -/
def UserStrLen : Nat := 20 + 1

/-- Whether the strings that `sscanf` stores, each with its terminating zero, stay inside
the buffers `timeChar`, `typeChar`, `ipChar` and `userChar`.  The format has no field
widths, so `sscanf` stores a string of any length; the length counts the `char`s, that
is the bytes of the string in the encoding of the file (UTF-8). -/
def fieldsFit (stored : List String) : Bool :=
  (List.zipWith (fun (field : String) (size : Nat) => decide (field.utf8ByteSize < size)) stored
    [TimeStrLen, TypeStrLen, IpStrLen, UserStrLen]).all id

/-- `EventBuilder::tokenizeLogLine`: the success indicator and `tokens` afterwards, which
is written only on success.  The result is `none` when `sscanf` writes past the end of
one of the four buffers, also on a line that it then fails to split: from there on the
behaviour of the program is undefined. -/
def tokenizeLogLine (lib : CLib) (logLine : String) (tokens : EventLogLineTokens) :
    Option (Bool × EventLogLineTokens) :=
  let stored := lib.scanLine logLine
  if fieldsFit stored then
    match stored with
    | [timeChar, typeChar, ipChar, userChar] =>
      some (true, { timeStr := timeChar, typeStr := typeChar, ip := ipChar, user := userChar })
    | _ => some (false, tokens)
  else none

/-- The class `EventBuilder`: its two private members. -/
structure EventBuilder where
  event : Event
  isEventValid : Bool
deriving DecidableEq

/-- The constructor `EventBuilder::EventBuilder`.  `fresh` stands for a default-constructed
`Event` (the local `newEvent` and the member `event`), whose time and type are
indeterminate.  The four setters run also after a failed tokenization, on the empty
strings of the default-constructed `tokens`.  The result is `none` when the tokenizer
overruns a buffer. -/
def EventBuilder.new (lib : CLib) (fresh : Event) (eventLogLine : String) :
    Option EventBuilder :=
  let newEvent := fresh
  let tokens0 : EventLogLineTokens := { timeStr := "", typeStr := "", ip := "", user := "" }
  match tokenizeLogLine lib eventLogLine tokens0 with
  | none => none
  | some tk =>
    let tokens := tk.2
    let valid0 := if !tk.1 then false else true
    let r1 := newEvent.setTime lib tokens.timeStr
    let valid1 := if !r1.1 then false else valid0
    let r2 := r1.2.setType tokens.typeStr
    let valid2 := if !r2.1 then false else valid1
    let r3 := r2.2.setIp lib tokens.ip
    let valid3 := if !r3.1 then false else valid2
    let r4 := r3.2.setUser lib tokens.user
    let valid4 := if !r4.1 then false else valid3
    some { event := if valid4 then r4.2 else fresh, isEventValid := valid4 }

/-- `EventBuilder::getEvent`: the value returned and the caller's event `e` afterwards. -/
def EventBuilder.getEvent (b : EventBuilder) (e : Event) : Bool × Event :=
  if b.isEventValid then (true, b.event) else (false, e)

/-- The test `isspace` in the "C" locale: space, and the control characters 9 to 13. -/
def isspaceC (c : Char) : Bool :=
  c.toNat = 32 || (9 ≤ c.toNat && c.toNat ≤ 13)

/-- A decimal digit. -/
def isdigitC (c : Char) : Bool := 48 ≤ c.toNat && c.toNat ≤ 57

/-- The value of a decimal digit. -/
def digitVal (c : Char) : Nat := c.toNat - 48

/-- The test `isalnum` in the "C" locale. -/
def isalnumC (c : Char) : Bool :=
  isdigitC c || (65 ≤ c.toNat && c.toNat ≤ 90) || (97 ≤ c.toNat && c.toNat ≤ 122)

/-- The conversion `%02d` of `sscanf`: white space is skipped, then at most two
characters are read, an optional sign included; the number and the input left. -/
def scanD2 (input : List Char) : Option (Int × List Char) :=
  match input.dropWhile isspaceC with
  | [] => none
  | [c] => if isdigitC c then some ((digitVal c : Int), []) else none
  | c :: d :: rest =>
    if c = '-' then (if isdigitC d then some (-(digitVal d : Int), rest) else none)
    else if c = '+' then (if isdigitC d then some ((digitVal d : Int), rest) else none)
    else if isdigitC c then
      (if isdigitC d then some ((10 * digitVal c + digitVal d : Nat), rest)
       else some ((digitVal c : Int), d :: rest))
    else none

/-- A literal character of a `sscanf` format: it must be the next character of the
input. -/
def scanLiteral (ch : Char) : List Char → Option (List Char)
  | [] => none
  | c :: rest => if c = ch then some rest else none

/-- The call `sscanf(s, "%02d:%02d:%02d", ...)`; input after the third number is ignored. -/
def scanTimeC (s : String) : Option (Int × Int × Int) :=
  match scanD2 s.toList with
  | none => none
  | some (hour, r1) =>
    match scanLiteral ':' r1 with
    | none => none
    | some r2 =>
      match scanD2 r2 with
      | none => none
      | some (min, r3) =>
        match scanLiteral ':' r3 with
        | none => none
        | some r4 =>
          match scanD2 r4 with
          | none => none
          | some (sec, _) => some (hour, min, sec)

/-- The conversion `%[^,]` of `sscanf`: the longest run of characters other than a
comma, which must not be empty; the run and the input left. -/
def scanField (input : List Char) : Option (List Char × List Char) :=
  let field := input.takeWhile (fun c => !decide (c = ','))
  if field.isEmpty then none else some (field, input.dropWhile (fun c => !decide (c = ',')))

/-- The part `", "` of the format: a comma, then any white space. -/
def scanSeparator (input : List Char) : Option (List Char) :=
  match scanLiteral ',' input with
  | none => none
  | some rest => some (rest.dropWhile isspaceC)

/-- The conversion `%s` of `sscanf`: white space is skipped, then the longest run of
characters other than white space is read, which must not be empty. -/
def scanWord (input : List Char) : Option (List Char) :=
  let word := (input.dropWhile isspaceC).takeWhile (fun c => !isspaceC c)
  if word.isEmpty then none else some word

/-- The call `sscanf(line, "%[^,], %[^,], %[^,], %s", ...)`: the strings stored up to
the first conversion or literal that fails. -/
def scanLineC (line : String) : List String :=
  match scanField line.toList with
  | none => []
  | some (timeChar, r1) =>
    match scanSeparator r1 with
    | none => [String.mk timeChar]
    | some r2 =>
      match scanField r2 with
      | none => [String.mk timeChar]
      | some (typeChar, r3) =>
        match scanSeparator r3 with
        | none => [String.mk timeChar, String.mk typeChar]
        | some r4 =>
          match scanField r4 with
          | none => [String.mk timeChar, String.mk typeChar]
          | some (ipChar, r5) =>
            match scanSeparator r5 with
            | none => [String.mk timeChar, String.mk typeChar, String.mk ipChar]
            | some r6 =>
              match scanWord r6 with
              | none => [String.mk timeChar, String.mk typeChar, String.mk ipChar]
              | some userChar =>
                [String.mk timeChar, String.mk typeChar, String.mk ipChar,
                  String.mk userChar]

/-- The loop of `inet_pton` for `AF_INET` over the characters left; the state is
whether a digit of the current octet was seen, the number of octets begun and the value
of the current octet.  Four octets of at most 255, without a leading zero, separated by
single dots. -/
def inetPtonLoop : List Char → Bool → Nat → Nat → Bool
  | [], _, octets, _ => decide (4 ≤ octets)
  | ch :: rest, sawDigit, octets, cur =>
    if isdigitC ch then
      if sawDigit && cur = 0 then false
      else if 255 < cur * 10 + digitVal ch then false
      else if sawDigit then inetPtonLoop rest true octets (cur * 10 + digitVal ch)
      else if 4 < octets + 1 then false
      else inetPtonLoop rest true (octets + 1) (cur * 10 + digitVal ch)
    else if ch = '.' && sawDigit then
      if octets = 4 then false else inetPtonLoop rest false octets 0
    else false

/-- The call `inet_pton(AF_INET, s, &addr)`: 1 for a dotted-decimal address, 0
otherwise. -/
def inetPtonC (s : String) : Int :=
  if inetPtonLoop s.toList false 0 0 then 1 else 0

/-- The library calls as the C library performs them. -/
def cLib : CLib :=
  { scanTime := scanTimeC, inet_pton := inetPtonC, isalnum := isalnumC, scanLine := scanLineC }

/-- A default-constructed event, its indeterminate members given some value. -/
def freshEvent : Event :=
  { eventTime := { tm_sec := 0, tm_min := 0, tm_hour := 0 },
    eventType := EventType.EVENT_INVALID, ip := "", user := "" }

/-- A well-formed line whose user has 104 letters. -/
def longUserLine : String :=
  "09:00:00, LOGIN, 192.168.1.1, " ++ String.mk (List.replicate 104 'a')

/-- Number of `Login` events of `ip` in the sequence. -/
def loginCount (ip : String) (events : List Event) : Nat :=
  events.countP (fun e => decide (e.getType = EventType.EVENT_LOGIN ∧ e.getIp = ip))

/-- Lexicographic comparison of strings by character code (`std::string::operator<`). -/
def lexLt (a b : String) : Prop := a.toList < b.toList

instance (a b : String) : Decidable (lexLt a b) := by
  unfold lexLt
  infer_instance

/-- Number of `Login` events of user `u` minus number of `Logout` events of `u`. -/
def runningCount (u : String) (events : List Event) : Int :=
  (events.countP (fun e => decide (e.getUser = u ∧ e.getType = EventType.EVENT_LOGIN)) : Int)
    - (events.countP (fun e => decide (e.getUser = u ∧ e.getType = EventType.EVENT_LOGOUT)) : Int)

/-- The peak of user `u`: the maximum of `runningCount u` over all initial segments of
the sequence, the empty one included. -/
def peak (u : String) (events : List Event) : Int :=
  ((List.inits events).map (runningCount u)).foldr max 0

/-- Times of day, in sequence order, of the events of the given type, IP and user. -/
def secsOf (ty : EventType) (ip user : String) (events : List Event) : List Int :=
  (events.filter (fun e => decide (e.getType = ty ∧ e.getIp = ip ∧ e.getUser = user))).map
    Event.secs

/-- Number of positional login/logout pairs of `(ip, user)`:
`min(loginCount, logoutCount)`. -/
def pairedCount (ip user : String) (events : List Event) : Nat :=
  min (secsOf EventType.EVENT_LOGIN ip user events).length
    (secsOf EventType.EVENT_LOGOUT ip user events).length

/-- Sum over `i < min(loginCount, logoutCount)` of the `i`-th logout time minus the
`i`-th login time of `(ip, user)`, in seconds. -/
def pairedSeconds (ip user : String) (events : List Event) : Int :=
  ((List.range (pairedCount ip user events)).map (fun i =>
    (secsOf EventType.EVENT_LOGOUT ip user events).getD i 0
      - (secsOf EventType.EVENT_LOGIN ip user events).getD i 0)).sum

/-- The users that occur together with `ip`, each once. -/
def usersOfIp (ip : String) (events : List Event) : List String :=
  ((events.filter (fun e => decide (e.getIp = ip))).map Event.getUser).dedup

/-- The number `N` of paired sessions of `ip`, over all its users. -/
def sessionsOfIp (ip : String) (events : List Event) : Nat :=
  ((usersOfIp ip events).map (fun u => pairedCount ip u events)).sum

/-- The sum `S` of the paired durations of `ip`, over all its users. -/
def secondsOfIp (ip : String) (events : List Event) : Int :=
  ((usersOfIp ip events).map (fun u => pairedSeconds ip u events)).sum

/-- Library times (`mk` is the library's `mktime`), in sequence order, of the events of
the given type, IP and user. -/
def libSecsOf (mk : Tm → Int) (ty : EventType) (ip user : String) (events : List Event) :
    List Int :=
  (events.filter (fun e => decide (e.getType = ty ∧ e.getIp = ip ∧ e.getUser = user))).map
    (fun e => mk e.getTime)

/-- Sum over `i < min(loginCount, logoutCount)` of the `i`-th logout time minus the
`i`-th login time of `(ip, user)`, in seconds of the library's `mktime`. -/
def pairedSecondsBy (mk : Tm → Int) (ip user : String) (events : List Event) : Int :=
  ((List.range (pairedCount ip user events)).map (fun i =>
    (libSecsOf mk EventType.EVENT_LOGOUT ip user events).getD i 0
      - (libSecsOf mk EventType.EVENT_LOGIN ip user events).getD i 0)).sum

/-- The sum `S` of the paired durations of `ip`, over all its users, in seconds of the
library's `mktime`. -/
def secondsOfIpBy (mk : Tm → Int) (ip : String) (events : List Event) : Int :=
  ((usersOfIp ip events).map (fun u => pairedSecondsBy mk ip u events)).sum

/-- Whether `ip` occurs in the sequence, in an event of any type. -/
def ipOccurs (ip : String) (events : List Event) : Prop := ∃ e ∈ events, e.getIp = ip

/-- The running-maximum loop common to both selections: a new entry replaces the best one
so far only when its value is strictly larger. -/
def strictMaxScan {β : Type} (val : β → Int) (l : UMap β) (best : String × Int) : String × Int :=
  l.foldl (fun best it => if val it.2 > best.2 then (it.1, val it.2) else best) best

/-- The vector `timesMap[ip][user]`, read without inserting: empty when absent. -/
def timesAt (timesMap : IpLogTimesMap) (ip user : String) : LogTimes :=
  (UMap.find ((UMap.find timesMap ip).getD []) user).getD []

/-- The `struct tm` values, in sequence order, of the events of the given type, IP and
user. -/
def timesOf (ty : EventType) (ip user : String) (events : List Event) : LogTimes :=
  (events.filter (fun e => decide (e.getType = ty ∧ e.getIp = ip ∧ e.getUser = user))).map
    Event.getTime

/-- One of the two maps built by the first loop of `getAvgSessionLengthPerIp`, taken on
its own: the events of type `ty` pushed into `timesMap`. -/
def timesMapOf (ty : EventType) (events : List Event) (timesMap : IpLogTimesMap) :
    IpLogTimesMap :=
  events.foldl
    (fun m it => if it.getType = ty then pushTime m it.getIp it.getUser it.getTime else m)
    timesMap

/-- The session lengths of the positional pairs of two vectors of times. -/
def pairLengths (loginTimes logoutTimes : LogTimes) : List Int :=
  List.zipWith (fun t1 t2 => difftime (mktime t2) (mktime t1)) loginTimes logoutTimes

/-- The totals `(lengthSum, sessions)` that the loop of `calcAvgSessionLengthForIp`
accumulates over the given entries of the login map, the logout times being read from
`logoutTimesMap`. -/
def pairTotals (entries logoutTimesMap : UserLogTimesMap) : Int × Int :=
  ((entries.map (fun it => (pairLengths it.2 ((UMap.find logoutTimesMap it.1).getD [])).sum)).sum,
    (entries.map (fun it =>
      ((pairLengths it.2 ((UMap.find logoutTimesMap it.1).getD [])).length : Int))).sum)

/-- The value `calcAvgSessionLengthForIp` returns for the totals `(lengthSum, sessions)`. -/
def avgOfTotals (totals : Int × Int) : Int :=
  if totals.2 = 0 then -1 else Int.tdiv totals.1 totals.2

/-- The session lengths of the positional pairs of two vectors of times, in seconds of
the library's `mktime`. -/
def pairLengthsBy (mk : Tm → Int) (loginTimes logoutTimes : LogTimes) : List Int :=
  List.zipWith (fun t1 t2 => difftime (mk t2) (mk t1)) loginTimes logoutTimes

/-- The state `(lengthSum, sessions)` after the given session lengths have been added
one after the other, each with one `sessions++` and one `lengthSum += sessionLength`. -/
def addLengths (conv : IntConv) (lengths : List Int) (st : Int × Int) : Int × Int :=
  lengths.foldl (fun st sessionLength => (conv (st.1 + sessionLength), conv (st.2 + 1))) st

/-- The session lengths that the loops of `calcAvgSessionLengthForIp` add over the given
entries of the login map, in the order in which they add them: entry after entry, and
within one entry by position. -/
def entryLengths (mk : Tm → Int) (entries logoutTimesMap : UserLogTimesMap) : List Int :=
  entries.flatMap (fun it => pairLengthsBy mk it.2 ((UMap.find logoutTimesMap it.1).getD []))

/-- The session lengths that `getAvgSessionLengthPerIp` adds for `ip`, in the order in
which it adds them: the users of `ip` in the order in which the loop visits the login map
of `ip`, and the pairs of one user by position. -/
def addedLengths (mk : Tm → Int) (iter : MapOrder) (ip : String) (events : List Event) :
    List Int :=
  entryLengths mk (iter LogTimes ((UMap.find (classifyEvents events).1 ip).getD []))
    ((UMap.find (classifyEvents events).2 ip).getD [])

/-- The value `calcAvgSessionLengthForIp` returns for the `int` totals
`(lengthSum, sessions)`. -/
def avgOfTotals32 (conv : IntConv) (totals : Int × Int) : Int :=
  if totals.2 = 0 then -1 else conv (Int.tdiv totals.1 totals.2)

/-- Builds an event from its fields. -/
def mkEvent (h m s : Int) (ty : EventType) (ip user : String) : Event :=
  { eventTime := { tm_sec := s, tm_min := m, tm_hour := h }, eventType := ty, ip := ip,
    user := user }

/-- The four-line end-to-end example of the specification, in input order. -/
def exampleLog : EventLog :=
  { events :=
      [ mkEvent 9 0 0 EventType.EVENT_LOGIN "192.168.1.1" "alice",
        mkEvent 9 10 0 EventType.EVENT_LOGOUT "192.168.1.1" "alice",
        mkEvent 9 5 0 EventType.EVENT_LOGIN "192.168.1.1" "bob",
        mkEvent 9 20 0 EventType.EVENT_LOGOUT "192.168.1.1" "bob" ] }

/-- Two logins from two IPs, the lexicographically larger IP first. -/
def tieLog : EventLog :=
  { events :=
      [ mkEvent 9 0 0 EventType.EVENT_LOGIN "2.2.2.2" "bob",
        mkEvent 9 5 0 EventType.EVENT_LOGIN "1.1.1.1" "alice" ] }

/-- Two events with the same time of day, from different users. -/
def sameTimeLog : EventLog :=
  { events :=
      [ mkEvent 9 0 0 EventType.EVENT_LOGIN "1.1.1.1" "alice",
        mkEvent 9 0 0 EventType.EVENT_LOGIN "1.1.1.1" "bob" ] }

/-- Two sessions of one IP: the first ends three seconds before it starts, the second
has length zero. -/
def backwardLog : EventLog :=
  { events :=
      [ mkEvent 10 0 3 EventType.EVENT_LOGIN "1.1.1.1" "alice",
        mkEvent 10 0 0 EventType.EVENT_LOGOUT "1.1.1.1" "alice",
        mkEvent 10 0 0 EventType.EVENT_LOGIN "1.1.1.1" "bob",
        mkEvent 10 0 0 EventType.EVENT_LOGOUT "1.1.1.1" "bob" ] }

/-- A login without logout. -/
def loginOnlyLog : EventLog :=
  { events := [ mkEvent 9 0 0 EventType.EVENT_LOGIN "1.1.1.1" "alice" ] }

/-- Two unmatched logouts of alice, then a login. -/
def unmatchedLog : EventLog :=
  { events :=
      [ mkEvent 9 0 0 EventType.EVENT_LOGOUT "1.1.1.1" "alice",
        mkEvent 9 1 0 EventType.EVENT_LOGOUT "1.1.1.1" "alice",
        mkEvent 9 2 0 EventType.EVENT_LOGIN "1.1.1.1" "alice" ] }

/-- A login from one IP and a logout from another. -/
def mixedLog : EventLog :=
  { events :=
      [ mkEvent 9 0 0 EventType.EVENT_LOGIN "1.1.1.1" "alice",
        mkEvent 9 5 0 EventType.EVENT_LOGOUT "2.2.2.2" "bob" ] }

/-- A login at 10:00:00 and a logout at 10:02:00 of the same IP and user. -/
def pairLog : EventLog :=
  { events :=
      [ mkEvent 10 0 0 EventType.EVENT_LOGIN "1.1.1.1" "alice",
        mkEvent 10 2 0 EventType.EVENT_LOGOUT "1.1.1.1" "alice" ] }

/-- A logout at 10:00:00 followed by a login of the same IP and user at 10:00:01. -/
def earlyLogoutLog : EventLog :=
  { events :=
      [ mkEvent 10 0 0 EventType.EVENT_LOGOUT "1.1.1.1" "alice",
        mkEvent 10 0 1 EventType.EVENT_LOGIN "1.1.1.1" "alice" ] }

/-- A sequence of `Logout` events only. -/
def logoutOnlyLog : EventLog :=
  { events :=
      [ mkEvent 9 0 0 EventType.EVENT_LOGOUT "1.1.1.1" "alice",
        mkEvent 9 5 0 EventType.EVENT_LOGOUT "2.2.2.2" "bob" ] }

/-- As many logins of one user from one IP, all at the time `login`, followed by as many
logouts, all at the time `logout`. -/
def sessionsLog (n : Nat) (login logout : Tm) : EventLog :=
  { events :=
      List.replicate n
          { eventTime := login, eventType := EventType.EVENT_LOGIN, ip := "1.1.1.1",
            user := "alice" } ++
        List.replicate n
          { eventTime := logout, eventType := EventType.EVENT_LOGOUT, ip := "1.1.1.1",
            user := "alice" } }

/-- The events of 5439 lines `-9:00:00, LOGIN, 1.1.1.1, alice` followed by 5439 lines
`99:99:99, LOGOUT, 1.1.1.1, alice`: 5439 sessions of 394839 seconds each. -/
def overflowLog : EventLog :=
  sessionsLog 5439 { tm_sec := 0, tm_min := 0, tm_hour := -9 }
    { tm_sec := 99, tm_min := 99, tm_hour := 99 }

/-! # Properties -/

/-! ## Lemmas on maps -/

namespace UMap

theorem find_update {β : Type} (d : β) (f : β → β) (m : UMap β) (k k' : String) :
    find (update d f m k) k' =
      if k = k' then some (f ((find m k).getD d)) else find m k' := by
  induction m with
  | nil =>
    by_cases h : k = k' <;> simp [update, find, h]
  | cons kv m ih =>
    obtain ⟨k0, v0⟩ := kv
    by_cases h0 : k0 = k
    · subst h0
      by_cases h : k0 = k' <;> simp [update, find, h]
    · by_cases h : k = k'
      · subst h
        simp [update, find, h0, ih]
      · simp [update, find, h0, h, ih]

theorem keys_update {β : Type} (d : β) (f : β → β) (m : UMap β) (k : String) :
    keys (update d f m k) = if k ∈ keys m then keys m else keys m ++ [k] := by
  induction m with
  | nil => simp [update, keys]
  | cons kv m ih =>
    obtain ⟨k0, v0⟩ := kv
    by_cases h0 : k0 = k
    · subst h0
      simp [update, keys]
    · have h0' : ¬ k = k0 := fun h => h0 h.symm
      simp only [keys] at ih
      by_cases hk : k ∈ List.map Prod.fst m
      · simp [update, keys, h0, h0', hk, ih]
      · simp [update, keys, h0, h0', hk, ih]

theorem nodup_keys_update {β : Type} (d : β) (f : β → β) (m : UMap β) (k : String)
    (h : (keys m).Nodup) : (keys (update d f m k)).Nodup := by
  rw [keys_update]
  split
  · exact h
  · rename_i hk
    exact List.Nodup.append h (List.nodup_singleton k) (by simpa using hk)

theorem find_eq_none_iff {β : Type} (m : UMap β) (k : String) :
    find m k = none ↔ k ∉ keys m := by
  induction m with
  | nil => simp [find, keys]
  | cons kv m ih =>
    obtain ⟨k0, v0⟩ := kv
    simp only [keys] at ih
    by_cases h0 : k0 = k
    · simp [find, keys, h0]
    · have h0' : ¬ k = k0 := fun h => h0 h.symm
      simp [find, keys, h0, h0', ih]

theorem mem_of_find_eq_some {β : Type} (m : UMap β) (k : String) (v : β)
    (h : find m k = some v) : (k, v) ∈ m := by
  induction m with
  | nil => simp [find] at h
  | cons kv m ih =>
    obtain ⟨k0, v0⟩ := kv
    by_cases h0 : k0 = k
    · simp [find, h0] at h
      simp [h0, h]
    · simp [find, h0] at h
      exact List.mem_cons_of_mem _ (ih h)

theorem find_eq_some_of_mem {β : Type} (m : UMap β) (k : String) (v : β)
    (hnd : (keys m).Nodup) (h : (k, v) ∈ m) : find m k = some v := by
  induction m with
  | nil => simp at h
  | cons kv m ih =>
    obtain ⟨k0, v0⟩ := kv
    simp only [keys, List.map_cons, List.nodup_cons] at hnd
    rcases List.mem_cons.1 h with h1 | h1
    · simp only [Prod.mk.injEq] at h1
      simp [find, h1.1, h1.2]
    · have hk : k ∈ List.map Prod.fst m := List.mem_map.2 ⟨(k, v), h1, rfl⟩
      have h0 : ¬ k0 = k := fun e => hnd.1 (e ▸ hk)
      simp [find, h0]
      exact ih hnd.2 h1

end UMap

/-! ## Selection of the largest entry -/

theorem loginCount_cons (ip : String) (e : Event) (events : List Event) :
    loginCount ip (e :: events) = loginCount ip events +
      (if e.getType = EventType.EVENT_LOGIN ∧ e.getIp = ip then 1 else 0) := by
  simp [loginCount, List.countP_cons]

theorem strictMaxScan_cons {β : Type} (val : β → Int) (kv : String × β) (l : UMap β)
    (best : String × Int) :
    strictMaxScan val (kv :: l) best =
      strictMaxScan val l (if val kv.2 > best.2 then (kv.1, val kv.2) else best) := rfl

theorem strictMaxScan_spec {β : Type} (val : β → Int) (l : UMap β) (best : String × Int) :
    (strictMaxScan val l best = best ∧ ∀ kv ∈ l, val kv.2 ≤ best.2) ∨
    (∃ l1 w l2, l = l1 ++ ((strictMaxScan val l best).1, w) :: l2 ∧
      val w = (strictMaxScan val l best).2 ∧ best.2 < (strictMaxScan val l best).2 ∧
      (∀ kv ∈ l1, val kv.2 < (strictMaxScan val l best).2) ∧
      ∀ kv ∈ l2, val kv.2 ≤ (strictMaxScan val l best).2) := by
  induction l generalizing best with
  | nil => left; exact ⟨rfl, by simp⟩
  | cons kv l ih =>
    rw [strictMaxScan_cons]
    by_cases hgt : val kv.2 > best.2
    · rw [if_pos hgt]
      rcases ih (kv.1, val kv.2) with ⟨hr, hall⟩ | ⟨l1, w, l2, hl, hw, hlt, h1, h2⟩
      · right
        rw [hr]
        exact ⟨[], kv.2, l, rfl, rfl, hgt, by simp, hall⟩
      · right
        refine ⟨kv :: l1, w, l2, congrArg (List.cons kv) hl, hw, ?_, ?_, h2⟩
        · exact lt_trans hgt hlt
        · intro x hx
          rcases List.mem_cons.1 hx with rfl | hx
          · exact hlt
          · exact h1 x hx
    · rw [if_neg hgt]
      rcases ih best with ⟨hr, hall⟩ | ⟨l1, w, l2, hl, hw, hlt, h1, h2⟩
      · left
        refine ⟨hr, ?_⟩
        intro x hx
        rcases List.mem_cons.1 hx with rfl | hx
        · exact not_lt.1 hgt
        · exact hall x hx
      · right
        refine ⟨kv :: l1, w, l2, congrArg (List.cons kv) hl, hw, hlt, ?_, h2⟩
        intro x hx
        rcases List.mem_cons.1 hx with rfl | hx
        · exact lt_of_le_of_lt (not_lt.1 hgt) hlt
        · exact h1 x hx

theorem find_loginsFold (ip : String) (events : List Event) (m : UMap Int) :
    UMap.find (events.foldl
      (fun m it => if it.getType = EventType.EVENT_LOGIN then m.update 0 (· + 1) it.getIp else m) m) ip
    = if loginCount ip events = 0 then UMap.find m ip
      else some (((UMap.find m ip).getD 0) + (loginCount ip events : Int)) := by
  induction events generalizing m with
  | nil => simp [loginCount]
  | cons e events ih =>
    rw [List.foldl_cons, ih, loginCount_cons]
    by_cases ht : e.getType = EventType.EVENT_LOGIN
    · by_cases hip : e.getIp = ip
      · simp only [ht, if_true, UMap.find_update, hip, and_self, Option.getD_some]
        by_cases h0 : loginCount ip events = 0
        · simp [h0]
        · simp [h0]
          omega
      · simp [ht, UMap.find_update, hip]
    · simp [ht]

theorem nodup_keys_loginsFold (events : List Event) (m : UMap Int) (h : (UMap.keys m).Nodup) :
    (UMap.keys (events.foldl
      (fun m it => if it.getType = EventType.EVENT_LOGIN then m.update 0 (· + 1) it.getIp else m) m)).Nodup := by
  induction events generalizing m with
  | nil => simpa using h
  | cons e events ih =>
    simp only [List.foldl_cons]
    apply ih
    split
    · exact UMap.nodup_keys_update _ _ _ _ h
    · exact h

theorem find_loginsPerIp (ip : String) (events : List Event) :
    UMap.find (loginsPerIp events) ip
      = if loginCount ip events = 0 then none else some (loginCount ip events : Int) := by
  unfold loginsPerIp
  rw [find_loginsFold]
  simp [UMap.find]

theorem nodup_keys_loginsPerIp (events : List Event) : (UMap.keys (loginsPerIp events)).Nodup :=
  nodup_keys_loginsFold events [] (by simp [UMap.keys])

theorem mostLoginsScan_eq (entries : UMap Int) :
    mostLoginsScan entries = strictMaxScan id entries ("", 0) := rfl

theorem mem_iter_loginsPerIp (iter : MapOrder) (hiter : IsIterationOrder iter)
    (events : List Event) (k : String) (v : Int) :
    (k, v) ∈ iter Int (loginsPerIp events) ↔
      loginCount k events ≠ 0 ∧ v = (loginCount k events : Int) := by
  rw [(hiter Int (loginsPerIp events)).mem_iff]
  constructor
  · intro h
    have := UMap.find_eq_some_of_mem _ _ _ (nodup_keys_loginsPerIp events) h
    rw [find_loginsPerIp] at this
    by_cases h0 : loginCount k events = 0
    · simp [h0] at this
    · simp only [h0, if_false, Option.some.injEq] at this
      exact ⟨h0, this.symm⟩
  · rintro ⟨h0, rfl⟩
    apply UMap.mem_of_find_eq_some
    rw [find_loginsPerIp]
    simp [h0]

theorem mostLogins_cases (iter : MapOrder) (hiter : IsIterationOrder iter) (events : List Event) :
    ((∀ ip, loginCount ip events = 0) ∧
        mostLoginsScan (iter Int (loginsPerIp events)) = ("", 0)) ∨
    (∃ l1 l2, iter Int (loginsPerIp events)
          = l1 ++ mostLoginsScan (iter Int (loginsPerIp events)) :: l2 ∧
        (mostLoginsScan (iter Int (loginsPerIp events))).2
          = (loginCount (mostLoginsScan (iter Int (loginsPerIp events))).1 events : Int) ∧
        0 < loginCount (mostLoginsScan (iter Int (loginsPerIp events))).1 events ∧
        (∀ kv ∈ l1, kv.2 < (mostLoginsScan (iter Int (loginsPerIp events))).2) ∧
        ∀ ip, loginCount ip events
          ≤ loginCount (mostLoginsScan (iter Int (loginsPerIp events))).1 events) := by
  rw [mostLoginsScan_eq]
  rcases strictMaxScan_spec id (iter Int (loginsPerIp events)) ("", 0) with
    ⟨hr, hall⟩ | ⟨l1, w, l2, hl, hw, hlt, h1, h2⟩
  · left
    refine ⟨fun ip => ?_, hr⟩
    by_contra h0
    have hmem := (mem_iter_loginsPerIp iter hiter events ip _).2 ⟨h0, rfl⟩
    have := hall _ hmem
    simp only [id] at this
    omega
  · right
    generalize strictMaxScan id (iter Int (loginsPerIp events)) ("", 0) = r at *
    obtain ⟨rk, rv⟩ := r
    simp only [id] at hw hlt h1 h2 hl
    subst hw
    have hmem : (rk, w) ∈ iter Int (loginsPerIp events) := by rw [hl]; simp
    obtain ⟨hne, hv⟩ := (mem_iter_loginsPerIp iter hiter events rk w).1 hmem
    refine ⟨l1, l2, hl, hv, Nat.pos_of_ne_zero hne, h1, fun ip => ?_⟩
    by_cases h0 : loginCount ip events = 0
    · omega
    · have hm := (mem_iter_loginsPerIp iter hiter events ip _).2 ⟨h0, rfl⟩
      rw [hl] at hm
      have hle : (loginCount ip events : Int) ≤ w := by
        rcases List.mem_append.1 hm with hm | hm
        · exact le_of_lt (h1 _ hm)
        · rcases List.mem_cons.1 hm with hm | hm
          · simp only [Prod.mk.injEq] at hm
            omega
          · exact h2 _ hm
      show loginCount ip events ≤ loginCount rk events
      omega

theorem loginCount_pos_iff (ip : String) (events : List Event) :
    0 < loginCount ip events ↔
      ∃ e ∈ events, e.getType = EventType.EVENT_LOGIN ∧ e.getIp = ip := by
  simp [loginCount, List.countP_pos_iff]

/-- C3: when the sequence holds a `Login` event, `getMostDistinctLoginsIp` returns an IP
that occurs in a `Login` event and whose number of `Login` events is at least that of
every IP, whatever the visiting order of the map. -/
theorem getMostDistinctLoginsIp_max (iter : MapOrder) (hiter : IsIterationOrder iter)
    (log : EventLog) (hlogin : ∃ e ∈ log.events, e.getType = EventType.EVENT_LOGIN) :
    (∃ e ∈ log.events, e.getType = EventType.EVENT_LOGIN ∧
        e.getIp = log.getMostDistinctLoginsIp iter) ∧
    ∀ ip, loginCount ip log.events ≤ loginCount (log.getMostDistinctLoginsIp iter) log.events := by
  unfold EventLog.getMostDistinctLoginsIp
  rcases mostLogins_cases iter hiter log.events with ⟨hall, _⟩ | ⟨l1, l2, _, _, hpos, _, hmax⟩
  · obtain ⟨e, he, hty⟩ := hlogin
    have : 0 < loginCount e.getIp log.events :=
      (loginCount_pos_iff _ _).2 ⟨e, he, hty, rfl⟩
    have := hall e.getIp
    omega
  · exact ⟨(loginCount_pos_iff _ _).1 hpos, hmax⟩

/-- C3, at the end-to-end example: the result is `192.168.1.1`, with two logins. -/
theorem getMostDistinctLoginsIp_max_example :
    exampleLog.getMostDistinctLoginsIp insertionOrder = "192.168.1.1" ∧
    loginCount "192.168.1.1" exampleLog.events = 2 ∧
    (∃ e ∈ exampleLog.events, e.getType = EventType.EVENT_LOGIN ∧
        e.getIp = exampleLog.getMostDistinctLoginsIp insertionOrder) ∧
    ∀ ip, loginCount ip exampleLog.events
      ≤ loginCount (exampleLog.getMostDistinctLoginsIp insertionOrder) exampleLog.events :=
  ⟨by decide, by decide,
    getMostDistinctLoginsIp_max insertionOrder (fun _ _ => List.Perm.refl _) exampleLog
      ⟨mkEvent 9 0 0 EventType.EVENT_LOGIN "192.168.1.1" "alice", by decide, by decide⟩⟩

/-- C7: on a sequence without `Login` events, the empty one included,
`getMostDistinctLoginsIp` returns the empty string. -/
theorem getMostDistinctLoginsIp_no_login (iter : MapOrder) (hiter : IsIterationOrder iter)
    (log : EventLog) (hnone : ∀ e ∈ log.events, e.getType ≠ EventType.EVENT_LOGIN) :
    log.getMostDistinctLoginsIp iter = "" := by
  unfold EventLog.getMostDistinctLoginsIp
  rcases mostLogins_cases iter hiter log.events with ⟨_, hr⟩ | ⟨l1, l2, _, _, hpos, _, _⟩
  · rw [hr]
  · obtain ⟨e, he, hty, _⟩ := (loginCount_pos_iff _ _).1 hpos
    exact absurd hty (hnone e he)

theorem le_foldr_max (xs : List Int) (b : Int) : ∀ x ∈ xs, x ≤ xs.foldr max b := by
  induction xs with
  | nil => simp
  | cons y ys ih =>
    intro x hx
    rcases List.mem_cons.1 hx with rfl | hx
    · exact le_max_left _ _
    · exact le_trans (ih x hx) (le_max_right _ _)

theorem base_le_foldr_max (xs : List Int) (b : Int) : b ≤ xs.foldr max b := by
  induction xs with
  | nil => simp
  | cons y ys ih => exact le_trans ih (le_max_right _ _)

theorem foldr_max_mem (xs : List Int) (b : Int) : xs.foldr max b = b ∨ xs.foldr max b ∈ xs := by
  induction xs with
  | nil => simp
  | cons y ys ih =>
    simp only [List.foldr_cons, List.mem_cons]
    rcases max_choice y (ys.foldr max b) with h | h
    · right; left; exact h
    · rw [h]
      rcases ih with h' | h'
      · left; exact h'
      · right; right; exact h'

theorem foldr_max_snoc (xs : List Int) (y : Int) :
    (xs ++ [y]).foldr max 0 = max (xs.foldr max 0) y := by
  induction xs with
  | nil => simp [max_comm]
  | cons x xs ih =>
    simp only [List.cons_append, List.foldr_cons, ih]
    exact (max_assoc _ _ _).symm

theorem runningCount_nil (u : String) : runningCount u [] = 0 := by
  simp [runningCount]

/-- The effect of one event on the running counter of `u`. -/
theorem runningCount_snoc (u : String) (l : List Event) (a : Event) :
    runningCount u (l ++ [a]) = runningCount u l +
      (if a.getUser = u then
        (if a.getType = EventType.EVENT_LOGIN then 1
         else if a.getType = EventType.EVENT_LOGOUT then -1 else 0)
       else 0) := by
  unfold runningCount
  rw [List.countP_append, List.countP_append]
  by_cases hu : a.getUser = u
  · by_cases h1 : a.getType = EventType.EVENT_LOGIN
    · simp [List.countP_cons, hu, h1]
      omega
    · by_cases h2 : a.getType = EventType.EVENT_LOGOUT
      · simp [List.countP_cons, hu, h2]
        omega
      · simp [List.countP_cons, hu, h1, h2]
  · simp [List.countP_cons, hu]

theorem peak_snoc (u : String) (l : List Event) (a : Event) :
    peak u (l ++ [a]) = max (peak u l) (runningCount u (l ++ [a])) := by
  unfold peak
  rw [List.inits_append]
  simp only [List.inits, List.map_cons, List.map_nil, List.tail_cons, List.map_append]
  exact foldr_max_snoc _ _

/-- The peak is attained on an initial segment and bounds the counter on every initial
segment. -/
theorem peak_spec (u : String) (events : List Event) :
    (∃ p, p <+: events ∧ runningCount u p = peak u events) ∧
    ∀ p, p <+: events → runningCount u p ≤ peak u events := by
  constructor
  · rcases foldr_max_mem ((List.inits events).map (runningCount u)) 0 with h | h
    · exact ⟨[], List.nil_prefix, by rw [runningCount_nil]; exact h.symm⟩
    · obtain ⟨p, hp, hpe⟩ := List.mem_map.1 h
      exact ⟨p, (List.mem_inits p events).1 hp, hpe⟩
  · intro p hp
    exact le_foldr_max _ 0 _ (List.mem_map.2 ⟨p, (List.mem_inits p events).2 hp, rfl⟩)

theorem runningCount_le_peak (u : String) (events : List Event) :
    runningCount u events ≤ peak u events :=
  (peak_spec u events).2 events (List.prefix_refl _)

theorem peak_nonneg (u : String) (events : List Event) : 0 ≤ peak u events :=
  base_le_foldr_max _ 0

theorem updateStats_eq (ty : EventType) (s : UserSessionsStats) :
    updateStats ty s =
      ⟨s.currentSessions + (if ty = EventType.EVENT_LOGIN then 1
          else if ty = EventType.EVENT_LOGOUT then -1 else 0),
        max s.maxSessions (s.currentSessions + (if ty = EventType.EVENT_LOGIN then 1
          else if ty = EventType.EVENT_LOGOUT then -1 else 0))⟩ := by
  obtain ⟨c, p⟩ := s
  cases ty <;> simp only [updateStats, reduceCtorEq, if_true, if_false, max_def] <;>
    split_ifs <;> first | rfl | (rw [UserSessionsStats.mk.injEq]; constructor <;> omega)

theorem getD_find_update {β : Type} (d : β) (f : β → β) (m : UMap β) (k u : String) :
    ((UMap.find (UMap.update d f m k) u).getD d) =
      if k = u then f ((UMap.find m k).getD d) else (UMap.find m u).getD d := by
  rw [UMap.find_update]
  split <;> rfl

/-- After the first loop the entry of every user holds the running counter and the peak of
that user; a user without entry has both equal to zero. -/
theorem userMapScan_stats (u : String) (events : List Event) :
    (UMap.find (userMapScan events) u).getD ⟨0, 0⟩ = ⟨runningCount u events, peak u events⟩ := by
  induction events using List.reverseRecOn with
  | nil => simp [userMapScan, UMap.find, runningCount_nil, peak]
  | append_singleton l a ih =>
    unfold userMapScan at ih ⊢
    rw [List.foldl_append, List.foldl_cons, List.foldl_nil, getD_find_update]
    by_cases hu : a.getUser = u
    · subst hu
      rw [if_pos rfl, ih, updateStats_eq, peak_snoc, runningCount_snoc]
      simp
    · rw [if_neg hu, ih, peak_snoc, runningCount_snoc, if_neg hu]
      have := runningCount_le_peak u l
      simp [this]

theorem nodup_keys_userMapScan (events : List Event) : (UMap.keys (userMapScan events)).Nodup := by
  unfold userMapScan
  suffices h : ∀ m : UMap UserSessionsStats, (UMap.keys m).Nodup →
      (UMap.keys (events.foldl
        (fun userMap it => userMap.update ⟨0, 0⟩ (updateStats it.getType) it.getUser) m)).Nodup from
    h [] (by simp [UMap.keys])
  induction events with
  | nil => intro m h; simpa using h
  | cons e events ih =>
    intro m h
    rw [List.foldl_cons]
    exact ih _ (UMap.nodup_keys_update _ _ _ _ h)

theorem peakUserScan_eq (entries : UMap UserSessionsStats) :
    peakUserScan entries = strictMaxScan UserSessionsStats.maxSessions entries ("", 0) := rfl

theorem maxSessions_of_mem (iter : MapOrder) (hiter : IsIterationOrder iter)
    (events : List Event) (k : String) (s : UserSessionsStats)
    (h : (k, s) ∈ iter UserSessionsStats (userMapScan events)) :
    s.maxSessions = peak k events := by
  rw [(hiter _ (userMapScan events)).mem_iff] at h
  have hf := UMap.find_eq_some_of_mem _ _ _ (nodup_keys_userMapScan events) h
  have := userMapScan_stats k events
  rw [hf] at this
  simp only [Option.getD_some] at this
  rw [this]

theorem peak_le_of_entries_le (iter : MapOrder) (hiter : IsIterationOrder iter)
    (events : List Event) (b : Int) (hb : 0 ≤ b)
    (hall : ∀ kv ∈ iter UserSessionsStats (userMapScan events), kv.2.maxSessions ≤ b)
    (v : String) : peak v events ≤ b := by
  cases hf : UMap.find (userMapScan events) v with
  | none =>
    have := userMapScan_stats v events
    rw [hf] at this
    simp only [Option.getD_none, UserSessionsStats.mk.injEq] at this
    omega
  | some s =>
    have hmem : (v, s) ∈ iter UserSessionsStats (userMapScan events) :=
      (hiter _ _).mem_iff.2 (UMap.mem_of_find_eq_some _ _ _ hf)
    have := maxSessions_of_mem iter hiter events v s hmem
    have := hall _ hmem
    simp only at this
    omega

/-- What the second loop of `getHighestPeakSessionsUser` returns: nothing when no user
has a positive peak, otherwise the first visited entry whose peak is the largest. -/
theorem peakUser_cases (iter : MapOrder) (hiter : IsIterationOrder iter) (events : List Event) :
    ((∀ v, peak v events ≤ 0) ∧
        peakUserScan (iter UserSessionsStats (userMapScan events)) = ("", 0)) ∨
    (∃ l1 w l2, iter UserSessionsStats (userMapScan events)
          = l1 ++ ((peakUserScan (iter UserSessionsStats (userMapScan events))).1, w) :: l2 ∧
        0 < peak (peakUserScan (iter UserSessionsStats (userMapScan events))).1 events ∧
        (∀ kv ∈ l1, peak kv.1 events
          < peak (peakUserScan (iter UserSessionsStats (userMapScan events))).1 events) ∧
        ∀ v, peak v events
          ≤ peak (peakUserScan (iter UserSessionsStats (userMapScan events))).1 events) := by
  rw [peakUserScan_eq]
  rcases strictMaxScan_spec UserSessionsStats.maxSessions
      (iter UserSessionsStats (userMapScan events)) ("", 0) with
    ⟨hr, hall⟩ | ⟨l1, w, l2, hl, hw, hlt, h1, h2⟩
  · left
    exact ⟨peak_le_of_entries_le iter hiter events 0 (le_refl _) hall, hr⟩
  · right
    generalize strictMaxScan UserSessionsStats.maxSessions
      (iter UserSessionsStats (userMapScan events)) ("", 0) = r at *
    obtain ⟨rk, rv⟩ := r
    simp only at hw hlt h1 h2 hl
    have hmem : (rk, w) ∈ iter UserSessionsStats (userMapScan events) := by rw [hl]; simp
    have hpk := maxSessions_of_mem iter hiter events rk w hmem
    have hl1 : ∀ kv ∈ l1, kv ∈ iter UserSessionsStats (userMapScan events) := by
      intro kv hkv; rw [hl]; exact List.mem_append_left _ hkv
    refine ⟨l1, w, l2, hl, ?_, ?_, ?_⟩
    · show 0 < peak rk events
      omega
    · intro kv hkv
      show peak kv.1 events < peak rk events
      have := maxSessions_of_mem iter hiter events kv.1 kv.2 (hl1 kv hkv)
      have := h1 kv hkv
      omega
    · intro v
      show peak v events ≤ peak rk events
      rw [← hpk, hw]
      apply peak_le_of_entries_le iter hiter events rv (le_of_lt hlt)
      intro kv hkv
      rw [hl] at hkv
      rcases List.mem_append.1 hkv with hm | hm
      · exact le_of_lt (h1 _ hm)
      · rcases List.mem_cons.1 hm with hm | hm
        · rw [hm]; exact le_of_eq hw
        · exact h2 _ hm

/-- C4: with `peak u` the maximum over all initial segments of the sequence of the number
of `Login` events of `u` minus the number of `Logout` events of `u`: when some user has a
positive peak, `getHighestPeakSessionsUser` returns a user whose peak is positive and at
least the peak of every user; otherwise it returns the empty string. -/
theorem getHighestPeakSessionsUser_peak (iter : MapOrder) (hiter : IsIterationOrder iter)
    (log : EventLog) :
    ((∃ v, 0 < peak v log.events) →
      0 < peak (log.getHighestPeakSessionsUser iter) log.events ∧
      ∀ v, peak v log.events ≤ peak (log.getHighestPeakSessionsUser iter) log.events) ∧
    ((¬ ∃ v, 0 < peak v log.events) → log.getHighestPeakSessionsUser iter = "") := by
  unfold EventLog.getHighestPeakSessionsUser
  rcases peakUser_cases iter hiter log.events with ⟨hall, hr⟩ | ⟨l1, w, l2, _, hpos, _, hmax⟩
  · refine ⟨?_, fun _ => by rw [hr]⟩
    rintro ⟨v, hv⟩
    have := hall v
    omega
  · refine ⟨fun _ => ⟨hpos, hmax⟩, fun hno => ?_⟩
    exact absurd ⟨_, hpos⟩ hno

/-- C8: `getHighestPeakSessionsUser` returns the empty string on the empty sequence, and
on every sequence on which the running counter of no user ever exceeds 0. -/
theorem getHighestPeakSessionsUser_none (iter : MapOrder) (hiter : IsIterationOrder iter) :
    EventLog.getHighestPeakSessionsUser iter { events := [] } = "" ∧
    ∀ log : EventLog,
      (∀ u p, p <+: log.events → runningCount u p ≤ 0) →
      log.getHighestPeakSessionsUser iter = "" := by
  have key : ∀ log : EventLog, (∀ u p, p <+: log.events → runningCount u p ≤ 0) →
      log.getHighestPeakSessionsUser iter = "" := by
    intro log hle
    unfold EventLog.getHighestPeakSessionsUser
    rcases peakUser_cases iter hiter log.events with ⟨_, hr⟩ | ⟨l1, w, l2, _, hpos, _, _⟩
    · rw [hr]
    · obtain ⟨p, hp, hpe⟩ := (peak_spec
        (peakUserScan (iter UserSessionsStats (userMapScan log.events))).1 log.events).1
      have := hle (peakUserScan (iter UserSessionsStats (userMapScan log.events))).1 p hp
      omega
  refine ⟨key _ ?_, key⟩
  intro u p hp
  have : p = [] := List.prefix_nil.1 hp
  rw [this, runningCount_nil]

theorem insertionOrder_isIterationOrder : IsIterationOrder insertionOrder :=
  fun _ _ => List.Perm.refl _

theorem reverseOrder_isIterationOrder : IsIterationOrder reverseOrder :=
  fun _ m => List.reverse_perm m

/-- C7, on a sequence of `Logout` events: the hypothesis holds and the result is the empty
string. -/
theorem getMostDistinctLoginsIp_no_login_example :
    (∀ e ∈ logoutOnlyLog.events, e.getType ≠ EventType.EVENT_LOGIN) ∧
    logoutOnlyLog.getMostDistinctLoginsIp reverseOrder = "" :=
  ⟨by decide,
    getMostDistinctLoginsIp_no_login reverseOrder reverseOrder_isIterationOrder logoutOnlyLog
      (by decide)⟩

/-- C4, at the end-to-end example: alice has peak 1, so the user returned has a positive
peak that no user exceeds. -/
theorem getHighestPeakSessionsUser_peak_example :
    peak "alice" exampleLog.events = 1 ∧
    0 < peak (exampleLog.getHighestPeakSessionsUser insertionOrder) exampleLog.events ∧
    ∀ v, peak v exampleLog.events
      ≤ peak (exampleLog.getHighestPeakSessionsUser insertionOrder) exampleLog.events :=
  ⟨by decide,
    (getHighestPeakSessionsUser_peak insertionOrder insertionOrder_isIterationOrder
      exampleLog).1 ⟨"alice", by decide⟩⟩

theorem runningCount_logoutOnly (u : String) (p : List Event)
    (hp : p <+: logoutOnlyLog.events) : runningCount u p ≤ 0 := by
  have hnl : ∀ e ∈ p, e.getType ≠ EventType.EVENT_LOGIN := by
    intro e he
    have hall : ∀ e ∈ logoutOnlyLog.events, e.getType ≠ EventType.EVENT_LOGIN := by decide
    exact hall e (hp.subset he)
  unfold runningCount
  have h0 : p.countP (fun e => decide (e.getUser = u ∧ e.getType = EventType.EVENT_LOGIN)) = 0 := by
    rw [List.countP_eq_zero]
    intro e he
    simp [hnl e he]
  rw [h0]
  omega

/-- C8, on a sequence of `Logout` events: no running counter exceeds 0 and the result is
the empty string. -/
theorem getHighestPeakSessionsUser_none_example :
    (∀ u p, p <+: logoutOnlyLog.events → runningCount u p ≤ 0) ∧
    EventLog.getHighestPeakSessionsUser insertionOrder { events := [] } = "" ∧
    logoutOnlyLog.getHighestPeakSessionsUser insertionOrder = "" :=
  ⟨runningCount_logoutOnly,
    (getHighestPeakSessionsUser_none insertionOrder insertionOrder_isIterationOrder).1,
    (getHighestPeakSessionsUser_none insertionOrder insertionOrder_isIterationOrder).2
      logoutOnlyLog runningCount_logoutOnly⟩

theorem loginCount_tieLog_le (ip : String) : loginCount ip tieLog.events ≤ 1 := by
  by_cases h1 : ip = "2.2.2.2"
  · subst h1; decide
  · by_cases h2 : ip = "1.1.1.1"
    · subst h2; decide
    · have h1' : ¬ "2.2.2.2" = ip := fun h => h1 h.symm
      have h2' : ¬ "1.1.1.1" = ip := fun h => h2 h.symm
      simp [loginCount, tieLog, mkEvent, Event.getIp, Event.getType, List.countP_cons, h1', h2']

/-- C9 fails as stated: in `tieLog` the IPs `1.1.1.1` and `2.2.2.2` share the maximum login
count 1; visiting the map in insertion order returns `2.2.2.2`, which is not the
lexicographically smallest, and visiting it in the reverse order returns `1.1.1.1`, so
the result depends on the visiting order. -/
theorem getMostDistinctLoginsIp_tie_depends_on_order :
    IsIterationOrder insertionOrder ∧ IsIterationOrder reverseOrder ∧
    loginCount "1.1.1.1" tieLog.events = 1 ∧ loginCount "2.2.2.2" tieLog.events = 1 ∧
    (∀ ip, loginCount ip tieLog.events ≤ 1) ∧
    lexLt "1.1.1.1" "2.2.2.2" ∧
    tieLog.getMostDistinctLoginsIp insertionOrder = "2.2.2.2" ∧
    tieLog.getMostDistinctLoginsIp reverseOrder = "1.1.1.1" :=
  ⟨insertionOrder_isIterationOrder, reverseOrder_isIterationOrder, by decide, by decide,
    loginCount_tieLog_le, by decide, by decide, by decide⟩

/-- C9, amended: when the sequence holds a `Login` event (in particular when several IPs
share the maximum login count), `getMostDistinctLoginsIp` returns the first IP in the
visiting order of the map `loginsPerIp` whose login count is the maximum: every entry
visited before it has strictly fewer logins and every entry visited after it has no
more. -/
theorem getMostDistinctLoginsIp_first_visited (iter : MapOrder) (hiter : IsIterationOrder iter)
    (log : EventLog) (hlogin : ∃ e ∈ log.events, e.getType = EventType.EVENT_LOGIN) :
    ∃ l1 l2,
      iter Int (loginsPerIp log.events)
        = l1 ++ (log.getMostDistinctLoginsIp iter,
            (loginCount (log.getMostDistinctLoginsIp iter) log.events : Int)) :: l2 ∧
      (∀ kv ∈ l1, loginCount kv.1 log.events
        < loginCount (log.getMostDistinctLoginsIp iter) log.events) ∧
      (∀ kv ∈ l2, loginCount kv.1 log.events
        ≤ loginCount (log.getMostDistinctLoginsIp iter) log.events) := by
  unfold EventLog.getMostDistinctLoginsIp
  rcases mostLogins_cases iter hiter log.events with ⟨hall, _⟩ | ⟨l1, l2, hl, hv, _, h1, hmax⟩
  · obtain ⟨e, he, hty⟩ := hlogin
    have : 0 < loginCount e.getIp log.events :=
      (loginCount_pos_iff _ _).2 ⟨e, he, hty, rfl⟩
    have := hall e.getIp
    omega
  · refine ⟨l1, l2, ?_, ?_, fun kv _ => hmax kv.1⟩
    · rw [← hv]
      exact hl
    · intro kv hkv
      have hmem : (kv.1, kv.2) ∈ iter Int (loginsPerIp log.events) := by
        rw [hl]; exact List.mem_append_left _ hkv
      have hkv2 := ((mem_iter_loginsPerIp iter hiter log.events kv.1 kv.2).1 hmem).2
      have := h1 kv hkv
      omega

/-- C9, amended, at `tieLog` in insertion order: `2.2.2.2` is visited first and is the
result. -/
theorem getMostDistinctLoginsIp_first_visited_example :
    tieLog.getMostDistinctLoginsIp insertionOrder = "2.2.2.2" ∧
    ∃ l1 l2,
      insertionOrder Int (loginsPerIp tieLog.events)
        = l1 ++ (tieLog.getMostDistinctLoginsIp insertionOrder,
            (loginCount (tieLog.getMostDistinctLoginsIp insertionOrder) tieLog.events : Int))
              :: l2 ∧
      (∀ kv ∈ l1, loginCount kv.1 tieLog.events
        < loginCount (tieLog.getMostDistinctLoginsIp insertionOrder) tieLog.events) ∧
      (∀ kv ∈ l2, loginCount kv.1 tieLog.events
        ≤ loginCount (tieLog.getMostDistinctLoginsIp insertionOrder) tieLog.events) :=
  ⟨by decide,
    getMostDistinctLoginsIp_first_visited insertionOrder insertionOrder_isIterationOrder tieLog
      ⟨mkEvent 9 0 0 EventType.EVENT_LOGIN "2.2.2.2" "bob", by decide, by decide⟩⟩

theorem peak_exampleLog_le (v : String) : peak v exampleLog.events ≤ 1 := by
  by_cases h1 : v = "alice"
  · subst h1; decide
  · by_cases h2 : v = "bob"
    · subst h2; decide
    · have h1' : ¬ "alice" = v := fun h => h1 h.symm
      have h2' : ¬ "bob" = v := fun h => h2 h.symm
      simp [peak, runningCount, exampleLog, mkEvent, Event.getUser, Event.getType,
        List.inits, List.countP_cons, h1', h2']

/-- C10 fails as stated: in the end-to-end example alice and bob share the maximum peak 1;
visiting the map most-recent-first returns bob, who is not the lexicographically
smallest, and visiting it in insertion order returns alice, so the result depends on the
visiting order.  Sorting the example first does not change this. -/
theorem getHighestPeakSessionsUser_tie_depends_on_order :
    IsIterationOrder insertionOrder ∧ IsIterationOrder reverseOrder ∧
    peak "alice" exampleLog.events = 1 ∧ peak "bob" exampleLog.events = 1 ∧
    (∀ v, peak v exampleLog.events ≤ 1) ∧
    lexLt "alice" "bob" ∧
    exampleLog.getHighestPeakSessionsUser reverseOrder = "bob" ∧
    exampleLog.getHighestPeakSessionsUser insertionOrder = "alice" ∧
    (exampleLog.sortEvents insertionSortFn).getHighestPeakSessionsUser reverseOrder = "bob" :=
  ⟨insertionOrder_isIterationOrder, reverseOrder_isIterationOrder, by decide, by decide,
    peak_exampleLog_le, by decide, by decide, by decide, by decide⟩

/-- C10, amended: when some user has a positive peak (in particular when several users
share the maximum positive peak), `getHighestPeakSessionsUser` returns the first user in
the visiting order of the map `userMap` whose peak is the maximum: every user visited
before has a strictly smaller peak, and no user has a larger one. -/
theorem getHighestPeakSessionsUser_first_visited (iter : MapOrder)
    (hiter : IsIterationOrder iter) (log : EventLog) (hpos : ∃ v, 0 < peak v log.events) :
    ∃ l1 w l2,
      iter UserSessionsStats (userMapScan log.events)
        = l1 ++ (log.getHighestPeakSessionsUser iter, w) :: l2 ∧
      (∀ kv ∈ l1, peak kv.1 log.events
        < peak (log.getHighestPeakSessionsUser iter) log.events) ∧
      (∀ v, peak v log.events ≤ peak (log.getHighestPeakSessionsUser iter) log.events) := by
  unfold EventLog.getHighestPeakSessionsUser
  rcases peakUser_cases iter hiter log.events with ⟨hall, _⟩ | ⟨l1, w, l2, hl, _, h1, hmax⟩
  · obtain ⟨v, hv⟩ := hpos
    have := hall v
    omega
  · exact ⟨l1, w, l2, hl, h1, hmax⟩

/-- C10, amended, at the end-to-end example visited most-recent-first: bob is visited
first and is the result. -/
theorem getHighestPeakSessionsUser_first_visited_example :
    exampleLog.getHighestPeakSessionsUser reverseOrder = "bob" ∧
    ∃ l1 w l2,
      reverseOrder UserSessionsStats (userMapScan exampleLog.events)
        = l1 ++ (exampleLog.getHighestPeakSessionsUser reverseOrder, w) :: l2 ∧
      (∀ kv ∈ l1, peak kv.1 exampleLog.events
        < peak (exampleLog.getHighestPeakSessionsUser reverseOrder) exampleLog.events) ∧
      (∀ v, peak v exampleLog.events
        ≤ peak (exampleLog.getHighestPeakSessionsUser reverseOrder) exampleLog.events) :=
  ⟨by decide,
    getHighestPeakSessionsUser_first_visited reverseOrder reverseOrder_isIterationOrder
      exampleLog ⟨"alice", by decide⟩⟩

theorem mktime_getTime (e : Event) : mktime e.getTime = zeroDateEpoch + e.secs := rfl

theorem compareEventsByTime_iff (a b : Event) :
    compareEventsByTime a b = true ↔ a.secs < b.secs := by
  simp only [compareEventsByTime, difftime, mktime_getTime, decide_eq_true_eq]
  omega

theorem compareEventsByTime_eq_false_iff (a b : Event) :
    compareEventsByTime b a = false ↔ a.secs ≤ b.secs := by
  rw [← Bool.not_eq_true, compareEventsByTime_iff]
  omega

/-- `compareEventsByTime` meets the requirements of `std::sort` on its comparison. -/
theorem compareEventsByTime_strictWeak : IsStrictWeakOrdering compareEventsByTime where
  irrefl a := by
    rw [compareEventsByTime_eq_false_iff]
  trans a b c := by
    simp only [compareEventsByTime_iff]
    omega
  incomp_trans a b c := by
    simp only [compareEventsByTime_eq_false_iff]
    omega

theorem IsStrictWeakOrdering.asymm {comp : Event → Event → Bool}
    (h : IsStrictWeakOrdering comp) (a b : Event) (hab : comp a b = true) : comp b a = false := by
  by_contra hba
  have := h.trans a b a hab (by simpa using hba)
  rw [h.irrefl a] at this
  exact Bool.false_ne_true this

theorem IsStrictWeakOrdering.total_not {comp : Event → Event → Bool}
    (h : IsStrictWeakOrdering comp) (a b : Event) : comp b a = false ∨ comp a b = false := by
  cases hab : comp a b with
  | false => right; rfl
  | true => left; exact h.asymm a b hab

theorem IsStrictWeakOrdering.not_trans {comp : Event → Event → Bool}
    (h : IsStrictWeakOrdering comp) (a b c : Event)
    (hba : comp b a = false) (hcb : comp c b = false) : comp c a = false := by
  by_contra hca
  have hca : comp c a = true := by simpa using hca
  cases hab : comp a b with
  | true =>
    have := h.trans c a b hca hab
    rw [hcb] at this
    exact Bool.false_ne_true this
  | false =>
    cases hbc : comp b c with
    | true =>
      have := h.trans b c a hbc hca
      rw [hba] at this
      exact Bool.false_ne_true this
    | false =>
      have := (h.incomp_trans a b c hab hba hbc hcb).2
      rw [hca] at this
      exact Bool.false_ne_true this.symm

theorem insertionSort_contract (comp : Event → Event → Bool) (h : IsStrictWeakOrdering comp)
    (l : List Event) :
    List.Perm (List.insertionSort (fun a b => comp b a = false) l) l ∧
    List.Pairwise (fun a b => comp b a = false)
      (List.insertionSort (fun a b => comp b a = false) l) := by
  haveI : IsTotal Event (fun a b => comp b a = false) := ⟨fun a b => h.total_not a b⟩
  haveI : IsTrans Event (fun a b => comp b a = false) :=
    ⟨fun a b c hab hbc => h.not_trans a b c hab hbc⟩
  exact ⟨List.perm_insertionSort _ l, List.sorted_insertionSort _ l⟩

/-- Insertion sort meets the contract of `std::sort`. -/
theorem insertionSortFn_contract : StdSortContract insertionSortFn :=
  fun comp h l => insertionSort_contract comp h l

/-- Insertion sort over the reversed range meets the contract of `std::sort` as well. -/
theorem backwardInsertionSortFn_contract : StdSortContract backwardInsertionSortFn :=
  fun comp h l =>
    ⟨(insertionSort_contract comp h l.reverse).1.trans (List.reverse_perm l),
      (insertionSort_contract comp h l.reverse).2⟩

theorem sortEvents_pairwise (sort : SortFn) (hsort : StdSortContract sort) (log : EventLog) :
    List.Pairwise (fun a b => a.secs ≤ b.secs) (log.sortEvents sort).events := by
  have := (hsort compareEventsByTime compareEventsByTime_strictWeak log.events).2
  exact this.imp (fun {a b} hab => (compareEventsByTime_eq_false_iff a b).1 hab)

/-- C5: after `sortEvents` every adjacent pair of events satisfies
`earlier.time ≤ later.time`, the time being the time of day in seconds. -/
theorem sortEvents_adjacent_le (sort : SortFn) (hsort : StdSortContract sort) (log : EventLog) :
    List.Chain' (fun earlier later => earlier.secs ≤ later.secs) (log.sortEvents sort).events :=
  (sortEvents_pairwise sort hsort log).chain'

/-- C5, at the end-to-end example: the events come out in the order 09:00:00, 09:05:00,
09:10:00, 09:20:00. -/
theorem sortEvents_adjacent_le_example :
    (exampleLog.sortEvents insertionSortFn).events.map Event.secs = [32400, 32700, 33000, 33600] ∧
    List.Chain' (fun earlier later => earlier.secs ≤ later.secs)
      (exampleLog.sortEvents insertionSortFn).events :=
  ⟨by decide, sortEvents_adjacent_le insertionSortFn insertionSortFn_contract exampleLog⟩

/-- A list sorted by time of day splits, at any time `t`, into the events before `t`, the
events at `t` and the events after `t`. -/
theorem sorted_split (t : Int) (l : List Event)
    (h : List.Pairwise (fun a b => a.secs ≤ b.secs) l) :
    l = l.filter (fun e => decide (e.secs < t)) ++
      (l.filter (fun e => decide (e.secs = t)) ++ l.filter (fun e => decide (t < e.secs))) := by
  induction l with
  | nil => rfl
  | cons a l ih =>
    rw [List.pairwise_cons] at h
    have ih' := ih h.2
    have hge : ¬ a.secs < t → l.filter (fun e => decide (e.secs < t)) = [] := by
      intro hnot
      rw [List.filter_eq_nil_iff]
      intro b hb
      have := h.1 b hb
      simp only [decide_eq_true_eq]
      omega
    have hgt' : t < a.secs → l.filter (fun e => decide (e.secs = t)) = [] := by
      intro hnot
      rw [List.filter_eq_nil_iff]
      intro b hb
      have := h.1 b hb
      simp only [decide_eq_true_eq]
      omega
    rcases lt_trichotomy a.secs t with hlt | heq | hgt
    · rw [List.filter_cons_of_pos (by simpa using hlt),
        List.filter_cons_of_neg (by simp only [decide_eq_true_eq]; omega),
        List.filter_cons_of_neg (by simp only [decide_eq_true_eq]; omega)]
      exact congrArg (List.cons a) ih'
    · rw [List.filter_cons_of_neg (by simp only [decide_eq_true_eq]; omega),
        List.filter_cons_of_pos (by simpa using heq),
        List.filter_cons_of_neg (by simp only [decide_eq_true_eq]; omega),
        hge (by omega)]
      rw [hge (by omega)] at ih'
      exact congrArg (List.cons a) ih'
    · rw [List.filter_cons_of_neg (by simp only [decide_eq_true_eq]; omega),
        List.filter_cons_of_neg (by simp only [decide_eq_true_eq]; omega),
        List.filter_cons_of_pos (by simpa using hgt),
        hge (by omega), hgt' hgt]
      rw [hge (by omega), hgt' hgt] at ih'
      exact congrArg (List.cons a) ih'

/-- C6 fails as stated: `sameTimeLog` holds alice's event and then bob's, both at 09:00:00;
a sorting routine that meets the contract of `std::sort` returns bob's event first. -/
theorem sortEvents_not_stable :
    StdSortContract backwardInsertionSortFn ∧
    sameTimeLog.events.map Event.getUser = ["alice", "bob"] ∧
    sameTimeLog.events.map Event.secs = [32400, 32400] ∧
    (sameTimeLog.sortEvents backwardInsertionSortFn).events.map Event.getUser
      = ["bob", "alice"] :=
  ⟨backwardInsertionSortFn_contract, by decide, by decide, by decide⟩

/-- C6, amended: for every time of day `t`, the events at `t` stand together after
`sortEvents`, behind every earlier event and ahead of every later one, and they are the
events that were at `t` before, each as often; their order among themselves is whatever
the sorting routine leaves. -/
theorem sortEvents_same_time_group (sort : SortFn) (hsort : StdSortContract sort)
    (log : EventLog) (t : Int) :
    (∃ earlier later,
      (log.sortEvents sort).events
        = earlier ++ ((log.sortEvents sort).events.filter (fun e => decide (e.secs = t))
            ++ later) ∧
      (∀ e ∈ earlier, e.secs < t) ∧ (∀ e ∈ later, t < e.secs)) ∧
    List.Perm ((log.sortEvents sort).events.filter (fun e => decide (e.secs = t)))
      (log.events.filter (fun e => decide (e.secs = t))) := by
  constructor
  · refine ⟨_, _, sorted_split t _ (sortEvents_pairwise sort hsort log), ?_, ?_⟩
    · intro e he
      simpa using (List.mem_filter.1 he).2
    · intro e he
      simpa using (List.mem_filter.1 he).2
  · exact (hsort compareEventsByTime compareEventsByTime_strictWeak log.events).1.filter _

/-- C6, amended, at `sameTimeLog`: both events at 09:00:00 are kept, bob's first. -/
theorem sortEvents_same_time_group_example :
    ((sameTimeLog.sortEvents backwardInsertionSortFn).events.filter
        (fun e => decide (e.secs = 32400))).map Event.getUser = ["bob", "alice"] ∧
    ((∃ earlier later,
      (sameTimeLog.sortEvents backwardInsertionSortFn).events
        = earlier ++ ((sameTimeLog.sortEvents backwardInsertionSortFn).events.filter
            (fun e => decide (e.secs = 32400)) ++ later) ∧
      (∀ e ∈ earlier, e.secs < 32400) ∧ (∀ e ∈ later, 32400 < e.secs)) ∧
    List.Perm ((sameTimeLog.sortEvents backwardInsertionSortFn).events.filter
        (fun e => decide (e.secs = 32400)))
      (sameTimeLog.events.filter (fun e => decide (e.secs = 32400)))) :=
  ⟨by decide,
    sortEvents_same_time_group backwardInsertionSortFn backwardInsertionSortFn_contract
      sameTimeLog 32400⟩

theorem UMap.mem_keys_update {β : Type} (d : β) (f : β → β) (m : UMap β) (k k' : String) :
    k' ∈ UMap.keys (UMap.update d f m k) ↔ k' ∈ UMap.keys m ∨ k' = k := by
  rw [UMap.keys_update]
  split
  · rename_i h
    constructor
    · exact Or.inl
    · rintro (h' | rfl)
      · exact h'
      · exact h
  · simp

/-! ## The maps of login and logout times -/

theorem classifyEvents_eq (events : List Event) :
    classifyEvents events =
      (timesMapOf EventType.EVENT_LOGIN events [], timesMapOf EventType.EVENT_LOGOUT events []) := by
  unfold classifyEvents timesMapOf
  suffices h : ∀ st : IpLogTimesMap × IpLogTimesMap,
      events.foldl
        (fun st it =>
          if it.getType = EventType.EVENT_LOGIN then
            (pushTime st.1 it.getIp it.getUser it.getTime, st.2)
          else if it.getType = EventType.EVENT_LOGOUT then
            (st.1, pushTime st.2 it.getIp it.getUser it.getTime)
          else st) st =
      (events.foldl (fun m it => if it.getType = EventType.EVENT_LOGIN then
          pushTime m it.getIp it.getUser it.getTime else m) st.1,
        events.foldl (fun m it => if it.getType = EventType.EVENT_LOGOUT then
          pushTime m it.getIp it.getUser it.getTime else m) st.2) from h ([], [])
  induction events with
  | nil => intro st; rfl
  | cons e events ih =>
    intro st
    rw [List.foldl_cons, List.foldl_cons, List.foldl_cons, ih]
    cases hty : e.getType <;> simp

theorem timesAt_pushTime (m : IpLogTimesMap) (ip user : String) (t : Tm) (ip' user' : String) :
    timesAt (pushTime m ip user t) ip' user' =
      if ip = ip' ∧ user = user' then timesAt m ip' user' ++ [t] else timesAt m ip' user' := by
  unfold timesAt pushTime
  rw [getD_find_update]
  by_cases hip : ip = ip'
  · subst hip
    rw [if_pos rfl, getD_find_update]
    by_cases hu : user = user'
    · subst hu; simp
    · simp [hu]
  · simp [hip]

theorem timesOf_cons (ty : EventType) (ip user : String) (e : Event) (events : List Event) :
    timesOf ty ip user (e :: events) =
      if e.getType = ty ∧ e.getIp = ip ∧ e.getUser = user then
        e.getTime :: timesOf ty ip user events
      else timesOf ty ip user events := by
  unfold timesOf
  by_cases h : e.getType = ty ∧ e.getIp = ip ∧ e.getUser = user
  · rw [List.filter_cons_of_pos (by simpa using h), if_pos h]
    rfl
  · rw [List.filter_cons_of_neg (by simpa using h), if_neg h]

/-- The vector stored for `(ip, user)` holds the times of the events of that type, IP and
user, in sequence order. -/
theorem timesAt_timesMapOf (ty : EventType) (ip user : String) (events : List Event)
    (m : IpLogTimesMap) :
    timesAt (timesMapOf ty events m) ip user = timesAt m ip user ++ timesOf ty ip user events := by
  unfold timesMapOf
  induction events generalizing m with
  | nil => simp [timesOf]
  | cons e events ih =>
    rw [List.foldl_cons, ih, timesOf_cons]
    by_cases hty : e.getType = ty
    · rw [if_pos hty, timesAt_pushTime]
      by_cases h : e.getIp = ip ∧ e.getUser = user
      · rw [if_pos h, if_pos ⟨hty, h⟩]
        simp
      · rw [if_neg h, if_neg (fun h' => h h'.2)]
    · rw [if_neg hty, if_neg (fun h' => hty h'.1)]

theorem mem_keys_timesMapOf (ty : EventType) (ip : String) (events : List Event)
    (m : IpLogTimesMap) :
    ip ∈ UMap.keys (timesMapOf ty events m) ↔
      ip ∈ UMap.keys m ∨ ∃ e ∈ events, e.getType = ty ∧ e.getIp = ip := by
  unfold timesMapOf
  induction events generalizing m with
  | nil => simp
  | cons e events ih =>
    rw [List.foldl_cons, ih]
    by_cases hty : e.getType = ty
    · rw [if_pos hty]
      unfold pushTime
      rw [UMap.mem_keys_update]
      constructor
      · rintro ((h | h) | ⟨e', he', h⟩)
        · exact Or.inl h
        · exact Or.inr ⟨e, List.mem_cons_self _ _, hty, h.symm⟩
        · exact Or.inr ⟨e', List.mem_cons_of_mem _ he', h⟩
      · rintro (h | ⟨e', he', h⟩)
        · exact Or.inl (Or.inl h)
        · rcases List.mem_cons.1 he' with rfl | he'
          · exact Or.inl (Or.inr h.2.symm)
          · exact Or.inr ⟨e', he', h⟩
    · rw [if_neg hty]
      constructor
      · rintro (h | ⟨e', he', h⟩)
        · exact Or.inl h
        · exact Or.inr ⟨e', List.mem_cons_of_mem _ he', h⟩
      · rintro (h | ⟨e', he', h⟩)
        · exact Or.inl h
        · rcases List.mem_cons.1 he' with rfl | he'
          · exact absurd h.1 hty
          · exact Or.inr ⟨e', he', h⟩

theorem nodup_keys_timesMapOf (ty : EventType) (events : List Event) (m : IpLogTimesMap)
    (h : (UMap.keys m).Nodup) : (UMap.keys (timesMapOf ty events m)).Nodup := by
  unfold timesMapOf
  induction events generalizing m with
  | nil => simpa using h
  | cons e events ih =>
    rw [List.foldl_cons]
    apply ih
    split
    · exact UMap.nodup_keys_update _ _ _ _ h
    · exact h

/-- Every inner map has distinct keys, and its keys are users that occur with the IP. -/
theorem inner_timesMapOf (ty : EventType) (ip : String) (events : List Event)
    (m : IpLogTimesMap)
    (hm : (UMap.keys ((UMap.find m ip).getD [])).Nodup) :
    (UMap.keys ((UMap.find (timesMapOf ty events m) ip).getD [])).Nodup ∧
    ∀ u ∈ UMap.keys ((UMap.find (timesMapOf ty events m) ip).getD []),
      u ∈ UMap.keys ((UMap.find m ip).getD []) ∨
        ∃ e ∈ events, e.getType = ty ∧ e.getIp = ip ∧ e.getUser = u := by
  unfold timesMapOf
  induction events generalizing m with
  | nil => exact ⟨by simpa using hm, fun u hu => Or.inl (by simpa using hu)⟩
  | cons e events ih =>
    rw [List.foldl_cons]
    by_cases hty : e.getType = ty
    · rw [if_pos hty]
      have hstep : (UMap.find (pushTime m e.getIp e.getUser e.getTime) ip).getD [] =
          if e.getIp = ip then
            UMap.update [] (fun times => times ++ [e.getTime]) ((UMap.find m e.getIp).getD [])
              e.getUser
          else (UMap.find m ip).getD [] := by
        unfold pushTime
        rw [getD_find_update]
      have hnd : (UMap.keys ((UMap.find (pushTime m e.getIp e.getUser e.getTime) ip).getD
          [])).Nodup := by
        rw [hstep]
        split
        · rename_i hip
          subst hip
          exact UMap.nodup_keys_update _ _ _ _ hm
        · exact hm
      obtain ⟨h1, h2⟩ := ih _ hnd
      refine ⟨h1, fun u hu => ?_⟩
      rcases h2 u hu with h | ⟨e', he', h⟩
      · rw [hstep] at h
        split at h
        · rename_i hip
          subst hip
          rcases (UMap.mem_keys_update _ _ _ _ _).1 h with h | h
          · exact Or.inl h
          · exact Or.inr ⟨e, List.mem_cons_self _ _, hty, rfl, h.symm⟩
        · exact Or.inl h
      · exact Or.inr ⟨e', List.mem_cons_of_mem _ he', h⟩
    · rw [if_neg hty]
      obtain ⟨h1, h2⟩ := ih _ hm
      refine ⟨h1, fun u hu => ?_⟩
      rcases h2 u hu with h | ⟨e', he', h⟩
      · exact Or.inl h
      · exact Or.inr ⟨e', List.mem_cons_of_mem _ he', h⟩

/-! ## The pairing loop -/

/-- With enough iterations allowed, the `while` loop adds the lengths of the positional
pairs from position `i` on to `lengthSum`, and their number to `sessions`. -/
theorem pairLoop_eq (a b : LogTimes) (fuel i : Nat) (st : Int × Int)
    (hfuel : a.length - i ≤ fuel) :
    pairLoop a b fuel i st =
      (st.1 + (pairLengths (a.drop i) (b.drop i)).sum,
        st.2 + ((pairLengths (a.drop i) (b.drop i)).length : Int)) := by
  induction fuel generalizing i st with
  | zero =>
    have : a.drop i = [] := List.drop_eq_nil_of_le (by omega)
    simp [pairLoop, pairLengths, this]
  | succ fuel ih =>
    unfold pairLoop
    by_cases h : i < a.length ∧ i < b.length
    · rw [dif_pos h, ih (i + 1) _ (by omega)]
      have ha : a.drop i = a.get ⟨i, h.1⟩ :: a.drop (i + 1) := by
        simp
      have hb : b.drop i = b.get ⟨i, h.2⟩ :: b.drop (i + 1) := by
        simp
      rw [ha, hb]
      simp only [pairLengths, List.zipWith_cons_cons, List.sum_cons, List.length_cons,
        Nat.cast_add, Nat.cast_one]
      refine Prod.ext ?_ ?_ <;> simp only <;> omega
    · rw [dif_neg h]
      have : pairLengths (a.drop i) (b.drop i) = [] := by
        unfold pairLengths
        rcases not_and_or.1 h with h | h
        · have ha : a.drop i = [] := List.drop_eq_nil_of_le (by omega)
          rw [ha]; simp
        · have hb : b.drop i = [] := List.drop_eq_nil_of_le (by omega)
          rw [hb]; simp
      simp [this]

/-- The bound `loginTimes.length` on the iterations of the `while` loop is never reached
before the loop condition fails: a larger bound gives the same result. -/
theorem pairLoop_fuel (a b : LogTimes) (fuel : Nat) (st : Int × Int) (h : a.length ≤ fuel) :
    pairLoop a b fuel 0 st = pairLoop a b a.length 0 st := by
  rw [pairLoop_eq a b fuel 0 st (by omega), pairLoop_eq a b a.length 0 st (by omega)]

theorem pairLoop_zero (a b : LogTimes) (st : Int × Int) :
    pairLoop a b a.length 0 st =
      (st.1 + (pairLengths a b).sum, st.2 + ((pairLengths a b).length : Int)) := by
  rw [pairLoop_eq a b a.length 0 st (by omega)]
  simp

theorem sum_range_getD_sub (xs ys : List Int) :
    ((List.range (min xs.length ys.length)).map (fun i => ys.getD i 0 - xs.getD i 0)).sum
      = (List.zipWith (fun x y => y - x) xs ys).sum := by
  induction xs generalizing ys with
  | nil => simp
  | cons x xs ih =>
    cases ys with
    | nil => simp
    | cons y ys =>
      have hmin : min (x :: xs).length (y :: ys).length = min xs.length ys.length + 1 := by
        simp only [List.length_cons]
        omega
      rw [hmin, List.range_succ_eq_map, List.map_cons, List.map_map, List.sum_cons,
        List.zipWith_cons_cons, List.sum_cons, ← ih ys]
      rfl

theorem secsOf_eq (ty : EventType) (ip user : String) (events : List Event) :
    secsOf ty ip user events =
      (timesOf ty ip user events).map (fun t => t.tm_hour * 3600 + t.tm_min * 60 + t.tm_sec) := by
  unfold secsOf timesOf
  rw [List.map_map]
  rfl

/-- The pairs formed by the loop for `(ip, user)` are as many as `pairedCount` says and
their lengths add up to `pairedSeconds`. -/
theorem pairLengths_timesOf (ip user : String) (events : List Event) :
    ((pairLengths (timesOf EventType.EVENT_LOGIN ip user events)
        (timesOf EventType.EVENT_LOGOUT ip user events)).length = pairedCount ip user events) ∧
    (pairLengths (timesOf EventType.EVENT_LOGIN ip user events)
        (timesOf EventType.EVENT_LOGOUT ip user events)).sum = pairedSeconds ip user events := by
  constructor
  · simp [pairLengths, pairedCount, secsOf_eq]
  · unfold pairedSeconds pairedCount
    rw [sum_range_getD_sub, secsOf_eq, secsOf_eq, List.zipWith_map]
    unfold pairLengths
    congr 1
    apply congrArg (fun f => List.zipWith f _ _)
    funext t1 t2
    simp only [difftime, mktime]
    omega

/-! ## `calcAvgSessionLengthForIp` -/

theorem calc_fold (l : UserLogTimesMap) (lo : UserLogTimesMap) :
    ∀ (st : Int × Int) (lo' : UserLogTimesMap),
      (∀ u, (UMap.find lo' u).getD [] = (UMap.find lo u).getD []) →
      (l.foldl
        (fun (st : (Int × Int) × UserLogTimesMap) it =>
          (pairLoop it.2 (UMap.index [] st.2 it.1).1 it.2.length 0 st.1,
            (UMap.index [] st.2 it.1).2))
        (st, lo')).1 = (st.1 + (pairTotals l lo).1, st.2 + (pairTotals l lo).2) ∧
      ∀ u, (UMap.find (l.foldl
        (fun (st : (Int × Int) × UserLogTimesMap) it =>
          (pairLoop it.2 (UMap.index [] st.2 it.1).1 it.2.length 0 st.1,
            (UMap.index [] st.2 it.1).2))
        (st, lo')).2 u).getD [] = (UMap.find lo u).getD [] := by
  induction l with
  | nil =>
    intro st lo' h
    exact ⟨by simp [pairTotals], h⟩
  | cons kv l ih =>
    intro st lo' h
    rw [List.foldl_cons]
    have hequiv : ∀ u, (UMap.find (UMap.index [] lo' kv.1).2 u).getD [] =
        (UMap.find lo u).getD [] := by
      intro u
      unfold UMap.index
      rw [getD_find_update]
      split
      · rename_i hk
        subst hk
        exact h _
      · exact h u
    obtain ⟨h1, h2⟩ := ih (pairLoop kv.2 (UMap.index [] lo' kv.1).1 kv.2.length 0 st) _ hequiv
    refine ⟨?_, h2⟩
    rw [h1, pairLoop_zero]
    have hval : (UMap.index [] lo' kv.1).1 = (UMap.find lo kv.1).getD [] := h kv.1
    rw [hval]
    simp only [pairTotals, List.map_cons, List.sum_cons]
    refine Prod.ext ?_ ?_ <;> simp only <;> omega

theorem pairTotals_perm (l l' lo : UserLogTimesMap) (h : List.Perm l l') :
    pairTotals l lo = pairTotals l' lo := by
  unfold pairTotals
  rw [(h.map _).sum_eq, (h.map _).sum_eq]

/-- `calcAvgSessionLengthForIp` returns the sentinel or the truncated quotient of the
totals over the entries of the login map, and leaves every lookup in the logout map as
it was. -/
theorem calcAvgSessionLengthForIp_eq (iter : MapOrder) (hiter : IsIterationOrder iter)
    (loginU lo lo' : UserLogTimesMap)
    (h : ∀ u, (UMap.find lo' u).getD [] = (UMap.find lo u).getD []) :
    (calcAvgSessionLengthForIp iter loginU lo').1 = avgOfTotals (pairTotals loginU lo) ∧
    ∀ u, (UMap.find (calcAvgSessionLengthForIp iter loginU lo').2 u).getD []
      = (UMap.find lo u).getD [] := by
  unfold calcAvgSessionLengthForIp
  obtain ⟨h1, h2⟩ := calc_fold (iter LogTimes loginU) lo (0, 0) lo' h
  refine ⟨?_, h2⟩
  simp only
  rw [h1, pairTotals_perm _ _ lo (hiter LogTimes loginU)]
  simp [avgOfTotals]

theorem UMap.find_perm {β : Type} (l l' : UMap β) (h : List.Perm l l')
    (hnd : (UMap.keys l).Nodup) (k : String) : UMap.find l k = UMap.find l' k := by
  have hnd' : (UMap.keys l').Nodup := (h.map Prod.fst).nodup_iff.1 hnd
  cases hf : UMap.find l k with
  | none =>
    have hk := (UMap.find_eq_none_iff l k).1 hf
    have hk' : k ∉ UMap.keys l' := fun hmem => hk ((h.map Prod.fst).mem_iff.2 hmem)
    exact ((UMap.find_eq_none_iff l' k).2 hk').symm
  | some v =>
    have hm := UMap.mem_of_find_eq_some l k v hf
    exact (UMap.find_eq_some_of_mem l' k v hnd' (h.mem_iff.1 hm)).symm

/-! ## `getAvgSessionLengthPerIp` -/

theorem avg_fold (iter : MapOrder) (hiter : IsIterationOrder iter) (LO : IpLogTimesMap)
    (l : IpLogTimesMap) (hnd : (UMap.keys l).Nodup) :
    ∀ (out : IpMap) (LO' : IpLogTimesMap),
      (∀ ip u, timesAt LO' ip u = timesAt LO ip u) →
      ∀ ip₀, UMap.find (l.foldl
        (fun (st : IpMap × IpLogTimesMap) it =>
          (st.1.update 0 (fun _ => (calcAvgSessionLengthForIp iter it.2
              (UMap.index [] st.2 it.1).1).1) it.1,
            (UMap.index [] st.2 it.1).2.update []
              (fun _ => (calcAvgSessionLengthForIp iter it.2 (UMap.index [] st.2 it.1).1).2)
              it.1))
        (out, LO')).1 ip₀ =
      match UMap.find l ip₀ with
      | some U => some (avgOfTotals (pairTotals U ((UMap.find LO ip₀).getD [])))
      | none => UMap.find out ip₀ := by
  induction l with
  | nil => intro out LO' _ ip₀; rfl
  | cons kv l ih =>
    intro out LO' h ip₀
    obtain ⟨ip, U⟩ := kv
    simp only [UMap.keys, List.map_cons, List.nodup_cons] at hnd
    rw [List.foldl_cons]
    have hlo : ∀ u, (UMap.find (UMap.index [] LO' ip).1 u).getD []
        = (UMap.find ((UMap.find LO ip).getD []) u).getD [] := fun u => h ip u
    obtain ⟨hres1, hres2⟩ := calcAvgSessionLengthForIp_eq iter hiter U
      ((UMap.find LO ip).getD []) (UMap.index [] LO' ip).1 hlo
    have hequiv : ∀ ip' u, timesAt ((UMap.index [] LO' ip).2.update []
        (fun _ => (calcAvgSessionLengthForIp iter U (UMap.index [] LO' ip).1).2) ip) ip' u
          = timesAt LO ip' u := by
      intro ip' u
      unfold timesAt
      rw [getD_find_update]
      by_cases hip : ip = ip'
      · subst hip
        rw [if_pos rfl]
        exact hres2 u
      · rw [if_neg hip]
        unfold UMap.index
        simp only
        rw [getD_find_update, if_neg hip]
        exact h ip' u
    rw [ih hnd.2 _ _ hequiv ip₀]
    by_cases hip : ip = ip₀
    · subst hip
      have hnone : UMap.find l ip = none := (UMap.find_eq_none_iff l ip).2 hnd.1
      rw [hnone]
      simp [UMap.find, UMap.find_update, hres1]
    · simp [UMap.find, UMap.find_update, hip]

theorem mem_usersOfIp (ip u : String) (events : List Event) :
    u ∈ usersOfIp ip events ↔ ∃ e ∈ events, e.getIp = ip ∧ e.getUser = u := by
  simp [usersOfIp, List.mem_dedup, and_assoc]

theorem sum_map_eq_of_subset {M : Type} [AddCommMonoid M] (f : String → M) (l1 l2 : List String)
    (h1 : l1.Nodup) (h2 : l2.Nodup) (hsub : ∀ x ∈ l1, x ∈ l2)
    (hzero : ∀ x ∈ l2, x ∉ l1 → f x = 0) : (l1.map f).sum = (l2.map f).sum := by
  rw [← List.sum_toFinset f h1, ← List.sum_toFinset f h2]
  apply Finset.sum_subset
  · intro x hx
    exact List.mem_toFinset.2 (hsub x (List.mem_toFinset.1 hx))
  · intro x hx hnx
    exact hzero x (List.mem_toFinset.1 hx) (fun h => hnx (List.mem_toFinset.2 h))

theorem timesOf_nil_of_no_key (ip u : String) (events : List Event)
    (h : u ∉ UMap.keys ((UMap.find (timesMapOf EventType.EVENT_LOGIN events []) ip).getD [])) :
    timesOf EventType.EVENT_LOGIN ip u events = [] := by
  have := timesAt_timesMapOf EventType.EVENT_LOGIN ip u events []
  rw [timesAt, (UMap.find_eq_none_iff _ u).2 h] at this
  simpa [timesAt, UMap.find] using this.symm

/-- The totals accumulated for `ip` are the sum `S` and the number `N` of its paired
sessions. -/
theorem pairTotals_eq (ip : String) (events : List Event) :
    pairTotals ((UMap.find (timesMapOf EventType.EVENT_LOGIN events []) ip).getD [])
        ((UMap.find (timesMapOf EventType.EVENT_LOGOUT events []) ip).getD [])
      = (secondsOfIp ip events, (sessionsOfIp ip events : Int)) := by
  obtain ⟨hnd, hkeys⟩ := inner_timesMapOf EventType.EVENT_LOGIN ip events []
    (by simp [UMap.find, UMap.keys])
  have hentry : ∀ kv ∈ (UMap.find (timesMapOf EventType.EVENT_LOGIN events []) ip).getD [],
      pairLengths kv.2 ((UMap.find ((UMap.find (timesMapOf EventType.EVENT_LOGOUT events [])
          ip).getD []) kv.1).getD [])
        = pairLengths (timesOf EventType.EVENT_LOGIN ip kv.1 events)
            (timesOf EventType.EVENT_LOGOUT ip kv.1 events) := by
    intro kv hkv
    have h1 := timesAt_timesMapOf EventType.EVENT_LOGIN ip kv.1 events []
    have h2 := timesAt_timesMapOf EventType.EVENT_LOGOUT ip kv.1 events []
    have hf := UMap.find_eq_some_of_mem _ kv.1 kv.2 hnd hkv
    simp only [timesAt, UMap.find, Option.getD_none, List.nil_append] at h1 h2
    rw [hf] at h1
    simp only [Option.getD_some] at h1
    rw [h1, h2]
  have hsub : ∀ u ∈ UMap.keys ((UMap.find (timesMapOf EventType.EVENT_LOGIN events []) ip).getD []),
      u ∈ usersOfIp ip events := by
    intro u hu
    rcases hkeys u hu with h | ⟨e, he, _, hip, hu'⟩
    · simp [UMap.find, UMap.keys] at h
    · exact (mem_usersOfIp ip u events).2 ⟨e, he, hip, hu'⟩
  have hnd2 : (usersOfIp ip events).Nodup := List.nodup_dedup _
  unfold pairTotals secondsOfIp sessionsOfIp
  refine Prod.ext ?_ ?_
  · simp only
    rw [List.map_congr_left (fun kv hkv => by rw [hentry kv hkv, (pairLengths_timesOf ip kv.1 events).2])]
    have : List.map (fun kv : String × LogTimes => pairedSeconds ip kv.1 events)
        ((UMap.find (timesMapOf EventType.EVENT_LOGIN events []) ip).getD [])
        = List.map (fun u => pairedSeconds ip u events)
          (UMap.keys ((UMap.find (timesMapOf EventType.EVENT_LOGIN events []) ip).getD [])) := by
      simp [UMap.keys, List.map_map, Function.comp_def]
    rw [this]
    apply sum_map_eq_of_subset _ _ _ hnd hnd2 hsub
    intro u _ hnu
    have h0 := timesOf_nil_of_no_key ip u events hnu
    simp [pairedSeconds, pairedCount, secsOf_eq, h0]
  · simp only
    rw [List.map_congr_left (fun kv hkv => by rw [hentry kv hkv, (pairLengths_timesOf ip kv.1 events).1])]
    have : List.map (fun kv : String × LogTimes => (pairedCount ip kv.1 events : Int))
        ((UMap.find (timesMapOf EventType.EVENT_LOGIN events []) ip).getD [])
        = List.map (fun u => (pairedCount ip u events : Int))
          (UMap.keys ((UMap.find (timesMapOf EventType.EVENT_LOGIN events []) ip).getD [])) := by
      simp [UMap.keys, List.map_map, Function.comp_def]
    rw [this, Nat.cast_list_sum, List.map_map]
    apply sum_map_eq_of_subset _ _ _ hnd hnd2 hsub
    intro u _ hnu
    have h0 := timesOf_nil_of_no_key ip u events hnu
    simp [pairedCount, secsOf_eq, h0]

/-- What `getAvgSessionLengthPerIp` leaves in the output map for any IP: the entry is
untouched when the IP has no `Login` event; otherwise it is the sentinel when the IP has
no paired session and the truncated quotient `S / N` when it has. -/
theorem find_getAvgSessionLengthPerIp (iter : MapOrder) (hiter : IsIterationOrder iter)
    (log : EventLog) (out : IpMap) (ip : String) :
    UMap.find (log.getAvgSessionLengthPerIp iter out) ip =
      if loginCount ip log.events = 0 then UMap.find out ip
      else some (if sessionsOfIp ip log.events = 0 then -1
        else Int.tdiv (secondsOfIp ip log.events) (sessionsOfIp ip log.events)) := by
  unfold EventLog.getAvgSessionLengthPerIp
  simp only
  rw [classifyEvents_eq]
  simp only
  have hnd0 := nodup_keys_timesMapOf EventType.EVENT_LOGIN log.events [] (by simp [UMap.keys])
  have hperm := hiter UserLogTimesMap (timesMapOf EventType.EVENT_LOGIN log.events [])
  have hnd : (UMap.keys (iter UserLogTimesMap
      (timesMapOf EventType.EVENT_LOGIN log.events []))).Nodup :=
    (hperm.map Prod.fst).nodup_iff.2 hnd0
  rw [avg_fold iter hiter (timesMapOf EventType.EVENT_LOGOUT log.events []) _ hnd out _
    (fun _ _ => rfl) ip]
  rw [← UMap.find_perm _ _ hperm.symm hnd0 ip]
  have hkey := mem_keys_timesMapOf EventType.EVENT_LOGIN ip log.events []
  by_cases h0 : loginCount ip log.events = 0
  · rw [if_pos h0]
    have hnone : UMap.find (timesMapOf EventType.EVENT_LOGIN log.events []) ip = none := by
      rw [UMap.find_eq_none_iff, hkey]
      rintro (h | ⟨e, he, hty, hip⟩)
      · simp [UMap.keys] at h
      · have := (loginCount_pos_iff ip log.events).2 ⟨e, he, hty, hip⟩
        omega
    rw [hnone]
  · rw [if_neg h0]
    have hmem : ip ∈ UMap.keys (timesMapOf EventType.EVENT_LOGIN log.events []) := by
      rw [hkey]
      exact Or.inr ((loginCount_pos_iff ip log.events).1 (Nat.pos_of_ne_zero h0))
    cases hf : UMap.find (timesMapOf EventType.EVENT_LOGIN log.events []) ip with
    | none => exact absurd hmem ((UMap.find_eq_none_iff _ ip).1 hf)
    | some U =>
      have hU : U = (UMap.find (timesMapOf EventType.EVENT_LOGIN log.events []) ip).getD [] := by
        rw [hf]; rfl
      simp only
      rw [hU, pairTotals_eq ip log.events]
      simp [avgOfTotals]

theorem sessionsOfIp_eq_zero_of_no_login (ip : String) (events : List Event)
    (h : loginCount ip events = 0) : sessionsOfIp ip events = 0 := by
  have hnil : ∀ u, secsOf EventType.EVENT_LOGIN ip u events = [] := by
    intro u
    unfold secsOf
    rw [List.map_eq_nil_iff, List.filter_eq_nil_iff]
    intro e he
    have := (List.countP_eq_zero.1 h) e he
    simp only [decide_eq_true_eq, not_and] at this ⊢
    intro hty hip
    exact absurd hip (this hty)
  unfold sessionsOfIp
  apply List.sum_eq_zero
  intro n hn
  obtain ⟨u, _, rfl⟩ := List.mem_map.1 hn
  simp [pairedCount, hnil u]

/-- C2 at an IP that occurs only in `Logout` events: `1.1.1.1` occurs in `logoutOnlyLog`
and has no paired session, and the map produced from the empty map has no entry for it,
where the claim asks for the entry `-1`. -/
theorem getAvgSessionLengthPerIp_logout_only_missing :
    ipOccurs "1.1.1.1" logoutOnlyLog.events ∧
    sessionsOfIp "1.1.1.1" logoutOnlyLog.events = 0 ∧
    UMap.find (logoutOnlyLog.getAvgSessionLengthPerIp insertionOrder []) "1.1.1.1" = none ∧
    logoutOnlyLog.getAvgSessionLengthPerIp insertionOrder [] = [] ∧
    logoutOnlyLog.getAvgSessionLengthPerIp reverseOrder [] = [] :=
  ⟨⟨mkEvent 9 0 0 EventType.EVENT_LOGOUT "1.1.1.1" "alice", by decide, by decide⟩,
    by decide, by decide, by decide, by decide⟩

/-- The sentinel: an IP that occurs in a `Login` event and has no paired session gets the
entry `-1`. -/
theorem getAvgSessionLengthPerIp_sentinel (iter : MapOrder) (hiter : IsIterationOrder iter)
    (log : EventLog) (avgSessionLengths : IpMap) (ip : String)
    (hlogin : ∃ e ∈ log.events, e.getType = EventType.EVENT_LOGIN ∧ e.getIp = ip)
    (hnone : sessionsOfIp ip log.events = 0) :
    UMap.find (log.getAvgSessionLengthPerIp iter avgSessionLengths) ip = some (-1) := by
  rw [find_getAvgSessionLengthPerIp iter hiter]
  have h0 : loginCount ip log.events ≠ 0 := by
    have := (loginCount_pos_iff ip log.events).2 hlogin
    omega
  rw [if_neg h0, if_pos hnone]

/-- The sentinel at a login without logout. -/
theorem getAvgSessionLengthPerIp_sentinel_example :
    UMap.find (loginOnlyLog.getAvgSessionLengthPerIp insertionOrder []) "1.1.1.1" = some (-1) :=
  getAvgSessionLengthPerIp_sentinel insertionOrder insertionOrder_isIterationOrder loginOnlyLog []
    "1.1.1.1" ⟨mkEvent 9 0 0 EventType.EVENT_LOGIN "1.1.1.1" "alice", by decide, by decide⟩
    (by decide)

/-! ## Setters, `EventBuilder` and `EventLogBuilder` -/

theorem setTime_fst_indep (lib : CLib) (e e' : Event) (s : String) :
    (e.setTime lib s).1 = (e'.setTime lib s).1 := by
  unfold Event.setTime
  cases lib.scanTime s with
  | none => rfl
  | some t =>
    obtain ⟨hour, min, sec⟩ := t
    simp only
    split <;> rfl

theorem setType_fst_indep (e e' : Event) (s : String) :
    (e.setType s).1 = (e'.setType s).1 := by
  unfold Event.setType
  split
  · rfl
  · split <;> rfl

theorem setIp_fst_indep (lib : CLib) (e e' : Event) (s : String) :
    (e.setIp lib s).1 = (e'.setIp lib s).1 := by
  unfold Event.setIp
  split <;> rfl

theorem setUser_fst_indep (lib : CLib) (e e' : Event) (s : String) :
    (e.setUser lib s).1 = (e'.setUser lib s).1 := by
  unfold Event.setUser
  split <;> rfl

theorem setTime_frame (lib : CLib) (e : Event) (s : String) (h : (e.setTime lib s).1 = false) :
    (e.setTime lib s).2 = e := by
  unfold Event.setTime at h ⊢
  cases hs : lib.scanTime s with
  | none => rfl
  | some t =>
    obtain ⟨hour, min, sec⟩ := t
    rw [hs] at h
    simp only at h ⊢
    split
    · rename_i hv
      rw [if_pos hv] at h
      exact absurd h (by simp)
    · rfl

theorem setType_frame (e : Event) (s : String) (h : (e.setType s).1 = false) :
    (e.setType s).2 = e := by
  unfold Event.setType at h ⊢
  by_cases h1 : s = "LOGIN"
  · rw [if_pos h1] at h
    exact absurd h (by simp)
  · rw [if_neg h1] at h ⊢
    by_cases h2 : s = "LOGOUT"
    · rw [if_pos h2] at h
      exact absurd h (by simp)
    · rw [if_neg h2]

theorem setIp_frame (lib : CLib) (e : Event) (s : String) (h : (e.setIp lib s).1 = false) :
    (e.setIp lib s).2 = e := by
  unfold Event.setIp at h ⊢
  by_cases hv : isValidIpV4Address lib s = true
  · rw [if_pos hv] at h
    exact absurd h (by simp)
  · rw [if_neg hv]

theorem setUser_frame (lib : CLib) (e : Event) (s : String) (h : (e.setUser lib s).1 = false) :
    (e.setUser lib s).2 = e := by
  unfold Event.setUser at h ⊢
  by_cases hv : isStringAlphaNumeric lib s = true
  · rw [if_pos hv] at h
    exact absurd h (by simp)
  · rw [if_neg hv]

theorem setType_fst_iff (e : Event) (s : String) :
    (e.setType s).1 = true ↔ s = "LOGIN" ∨ s = "LOGOUT" := by
  unfold Event.setType
  by_cases h1 : s = "LOGIN"
  · simp [h1]
  · by_cases h2 : s = "LOGOUT"
    · simp [h2]
    · simp [h1, h2]

theorem setType_snd (e : Event) (s : String) :
    (s = "LOGIN" → (e.setType s).2 = { e with eventType := EventType.EVENT_LOGIN }) ∧
    (s = "LOGOUT" → (e.setType s).2 = { e with eventType := EventType.EVENT_LOGOUT }) := by
  unfold Event.setType
  constructor
  · intro h
    rw [if_pos h]
  · intro h
    have h1 : ¬ s = "LOGIN" := by rw [h]; decide
    rw [if_neg h1, if_pos h]

/-- C15: a setter that returns false leaves every field of the event as it was, and
`setType` returns true exactly on `"LOGIN"` and `"LOGOUT"`, storing `EVENT_LOGIN` and
`EVENT_LOGOUT` respectively and nothing else. -/
theorem setters_false_leave_event (lib : CLib) (e : Event) (s : String) :
    ((e.setType s).1 = false → (e.setType s).2 = e) ∧
    ((e.setIp lib s).1 = false → (e.setIp lib s).2 = e) ∧
    ((e.setUser lib s).1 = false → (e.setUser lib s).2 = e) ∧
    ((e.setTime lib s).1 = false → (e.setTime lib s).2 = e) ∧
    ((e.setType s).1 = true ↔ s = "LOGIN" ∨ s = "LOGOUT") ∧
    (s = "LOGIN" → (e.setType s).2 = { e with eventType := EventType.EVENT_LOGIN }) ∧
    (s = "LOGOUT" → (e.setType s).2 = { e with eventType := EventType.EVENT_LOGOUT }) :=
  ⟨setType_frame e s, setIp_frame lib e s, setUser_frame lib e s, setTime_frame lib e s,
    setType_fst_iff e s, (setType_snd e s).1, (setType_snd e s).2⟩

/-- C15, on concrete strings: `"login"`, the address `1.2.3` and the user `a-b` are refused
and the event is unchanged; `"LOGOUT"` is accepted. -/
theorem setters_false_leave_event_example :
    ((freshEvent.setType "login").1 = false ∧ (freshEvent.setType "login").2 = freshEvent) ∧
    ((freshEvent.setIp cLib "1.2.3").1 = false ∧ (freshEvent.setIp cLib "1.2.3").2 = freshEvent) ∧
    ((freshEvent.setUser cLib "a-b").1 = false ∧
      (freshEvent.setUser cLib "a-b").2 = freshEvent) ∧
    ((freshEvent.setTime cLib "9h").1 = false ∧ (freshEvent.setTime cLib "9h").2 = freshEvent) ∧
    ((freshEvent.setType "LOGOUT").1 = true ∧
      (freshEvent.setType "LOGOUT").2 = { freshEvent with eventType := EventType.EVENT_LOGOUT }) :=
  ⟨⟨by decide, (setters_false_leave_event cLib freshEvent "login").1 (by decide)⟩,
    ⟨by decide, (setters_false_leave_event cLib freshEvent "1.2.3").2.1 (by decide)⟩,
    ⟨by decide, (setters_false_leave_event cLib freshEvent "a-b").2.2.1 (by decide)⟩,
    ⟨by decide, (setters_false_leave_event cLib freshEvent "9h").2.2.2.1 (by decide)⟩,
    ⟨by decide, (setters_false_leave_event cLib freshEvent "LOGOUT").2.2.2.2.2.2 rfl⟩⟩

theorem setTime_accept (lib : CLib) (e : Event) (s : String) (h : (e.setTime lib s).1 = true) :
    ∃ t : Tm, lib.scanTime s = some (t.tm_hour, t.tm_min, t.tm_sec) ∧
      (e.setTime lib s).2 = { e with eventTime := t } := by
  unfold Event.setTime at h ⊢
  cases hs : lib.scanTime s with
  | none => rw [hs] at h; exact absurd h (by simp)
  | some t =>
    obtain ⟨hour, min, sec⟩ := t
    rw [hs] at h
    simp only at h ⊢
    by_cases hv : validateTime { tm_sec := sec, tm_min := min, tm_hour := hour } = true
    · rw [if_pos hv]
      exact ⟨{ tm_sec := sec, tm_min := min, tm_hour := hour }, rfl, rfl⟩
    · rw [if_neg hv] at h
      exact absurd h (by simp)

theorem setType_accept (e : Event) (s : String) (h : (e.setType s).1 = true) :
    (s = "LOGIN" ∧ (e.setType s).2 = { e with eventType := EventType.EVENT_LOGIN }) ∨
    (s = "LOGOUT" ∧ (e.setType s).2 = { e with eventType := EventType.EVENT_LOGOUT }) := by
  unfold Event.setType at h ⊢
  by_cases h1 : s = "LOGIN"
  · left
    rw [if_pos h1]
    exact ⟨h1, rfl⟩
  · rw [if_neg h1] at h ⊢
    by_cases h2 : s = "LOGOUT"
    · right
      rw [if_pos h2]
      exact ⟨h2, rfl⟩
    · rw [if_neg h2] at h
      exact absurd h (by simp)

theorem setIp_accept (lib : CLib) (e : Event) (s : String) (h : (e.setIp lib s).1 = true) :
    (e.setIp lib s).2 = { e with ip := s } := by
  unfold Event.setIp at h ⊢
  by_cases hv : isValidIpV4Address lib s = true
  · rw [if_pos hv]
  · rw [if_neg hv] at h
    exact absurd h (by simp)

theorem setUser_accept (lib : CLib) (e : Event) (s : String) (h : (e.setUser lib s).1 = true) :
    (e.setUser lib s).2 = { e with user := s } := by
  unfold Event.setUser at h ⊢
  by_cases hv : isStringAlphaNumeric lib s = true
  · rw [if_pos hv]
  · rw [if_neg hv] at h
    exact absurd h (by simp)

/-! ## More on sorting -/

/-- Two orderings by time of the same events show the same time of day at every
position. -/
theorem secs_eq_of_sorted_perm (l1 l2 : List Event) (hperm : List.Perm l1 l2)
    (h1 : List.Pairwise (fun a b => a.secs ≤ b.secs) l1)
    (h2 : List.Pairwise (fun a b => a.secs ≤ b.secs) l2) :
    l1.map Event.secs = l2.map Event.secs := by
  apply List.eq_of_perm_of_sorted (r := fun a b : Int => a ≤ b) (hperm.map Event.secs)
  · exact List.pairwise_map.2 h1
  · exact List.pairwise_map.2 h2

theorem eq_of_map_eq_of_injOn (l1 l2 : List Event) (hperm : List.Perm l1 l2)
    (hmap : l1.map Event.secs = l2.map Event.secs)
    (hnd : (l1.map Event.secs).Nodup) : l1 = l2 := by
  have hinj : ∀ a ∈ l1, ∀ b ∈ l1, a.secs = b.secs → a = b :=
    fun a ha b hb hab => List.inj_on_of_nodup_map hnd ha hb hab
  have hlen : l1.length = l2.length := hperm.length_eq
  apply List.ext_get hlen
  intro n hn1 hn2
  apply hinj _ (List.get_mem _ _ _) _ (hperm.mem_iff.2 (List.get_mem _ _ _))
  have := congrArg (fun l => l[n]?) hmap
  simp only [List.getElem?_map, List.getElem?_eq_getElem hn1, List.getElem?_eq_getElem hn2,
    Option.map_some', Option.some.injEq] at this
  exact this

/-- C12 fails as stated: `sameTimeLog` holds two events at 09:00:00; with a sorting routine
that meets the contract of `std::sort`, one call of `sortEvents` puts bob's event first
and a second call puts alice's event first again. -/
theorem sortEvents_not_idempotent :
    StdSortContract backwardInsertionSortFn ∧
    (sameTimeLog.sortEvents backwardInsertionSortFn).events.map Event.getUser
      = ["bob", "alice"] ∧
    ((sameTimeLog.sortEvents backwardInsertionSortFn).sortEvents
      backwardInsertionSortFn).events.map Event.getUser = ["alice", "bob"] ∧
    (sameTimeLog.sortEvents backwardInsertionSortFn).sortEvents backwardInsertionSortFn
      ≠ sameTimeLog.sortEvents backwardInsertionSortFn :=
  ⟨backwardInsertionSortFn_contract, by decide, by decide, by decide⟩

/-- C12, amended: calling `sortEvents` twice gives, position by position, the same times
of day as calling it once, and the same events up to their order; when no two events
share a time of day it gives exactly the same order. -/
theorem sortEvents_twice (sort : SortFn) (hsort : StdSortContract sort) (log : EventLog) :
    ((log.sortEvents sort).sortEvents sort).events.map Event.secs
      = (log.sortEvents sort).events.map Event.secs ∧
    List.Perm ((log.sortEvents sort).sortEvents sort).events (log.sortEvents sort).events ∧
    ((log.events.map Event.secs).Nodup →
      (log.sortEvents sort).sortEvents sort = log.sortEvents sort) := by
  have hperm2 : List.Perm ((log.sortEvents sort).sortEvents sort).events
      (log.sortEvents sort).events :=
    (hsort compareEventsByTime compareEventsByTime_strictWeak (log.sortEvents sort).events).1
  have hperm1 : List.Perm (log.sortEvents sort).events log.events :=
    (hsort compareEventsByTime compareEventsByTime_strictWeak log.events).1
  have hsecs := secs_eq_of_sorted_perm _ _ hperm2
    (sortEvents_pairwise sort hsort (log.sortEvents sort)) (sortEvents_pairwise sort hsort log)
  refine ⟨hsecs, hperm2, fun hnd => ?_⟩
  have hnd2 : (((log.sortEvents sort).sortEvents sort).events.map Event.secs).Nodup :=
    ((hperm2.trans hperm1).map Event.secs).nodup_iff.2 hnd
  have := eq_of_map_eq_of_injOn _ _ hperm2 hsecs hnd2
  cases hL : (log.sortEvents sort).sortEvents sort
  cases hR : log.sortEvents sort
  rw [hL, hR] at this
  simp only at this
  rw [this]

/-- C12, amended, at the end-to-end example, whose four times of day are distinct: the
second call changes nothing. -/
theorem sortEvents_twice_example :
    (exampleLog.events.map Event.secs).Nodup ∧
    (exampleLog.sortEvents backwardInsertionSortFn).sortEvents backwardInsertionSortFn
      = exampleLog.sortEvents backwardInsertionSortFn :=
  ⟨by decide,
    (sortEvents_twice backwardInsertionSortFn backwardInsertionSortFn_contract exampleLog).2.2
      (by decide)⟩

/-- C18: `sortEvents` only reorders: the events afterwards are a permutation of the events
before, so the number of `Login` events of every IP, which `getMostDistinctLoginsIp`
counts, is the same before and after. -/
theorem sortEvents_perm (sort : SortFn) (hsort : StdSortContract sort) (log : EventLog) :
    List.Perm (log.sortEvents sort).events log.events ∧
    (∀ e, (log.sortEvents sort).events.count e = log.events.count e) ∧
    (∀ ip, loginCount ip (log.sortEvents sort).events = loginCount ip log.events) ∧
    (∀ ip, UMap.find (loginsPerIp (log.sortEvents sort).events) ip
      = UMap.find (loginsPerIp log.events) ip) := by
  have hperm : List.Perm (log.sortEvents sort).events log.events :=
    (hsort compareEventsByTime compareEventsByTime_strictWeak log.events).1
  have hcount : ∀ ip, loginCount ip (log.sortEvents sort).events = loginCount ip log.events :=
    fun ip => hperm.countP_eq _
  refine ⟨hperm, fun e => hperm.count_eq e, hcount, fun ip => ?_⟩
  rw [find_loginsPerIp, find_loginsPerIp, hcount ip]

/-- C18, at the end-to-end example: the sorted sequence is a rearrangement of the four
events and `192.168.1.1` keeps its two logins. -/
theorem sortEvents_perm_example :
    (exampleLog.sortEvents insertionSortFn).events.map Event.getUser
      = ["alice", "bob", "alice", "bob"] ∧
    List.Perm (exampleLog.sortEvents insertionSortFn).events exampleLog.events ∧
    loginCount "192.168.1.1" (exampleLog.sortEvents insertionSortFn).events = 2 :=
  ⟨by decide, (sortEvents_perm insertionSortFn insertionSortFn_contract exampleLog).1,
    by decide⟩

/-- C20: `compareEventsByTime` is a strict weak ordering on events: irreflexive,
asymmetric, transitive, with transitive incomparability; and two events are incomparable
exactly when their times of day in seconds are equal. -/
theorem compareEventsByTime_strict_weak_ordering :
    (∀ a, compareEventsByTime a a = false) ∧
    (∀ a b, compareEventsByTime a b = true → compareEventsByTime b a = false) ∧
    (∀ a b c, compareEventsByTime a b = true → compareEventsByTime b c = true →
      compareEventsByTime a c = true) ∧
    (∀ a b c, (compareEventsByTime a b = false ∧ compareEventsByTime b a = false) →
      (compareEventsByTime b c = false ∧ compareEventsByTime c b = false) →
      (compareEventsByTime a c = false ∧ compareEventsByTime c a = false)) ∧
    (∀ a b, (compareEventsByTime a b = false ∧ compareEventsByTime b a = false) ↔
      a.secs = b.secs) ∧
    IsStrictWeakOrdering compareEventsByTime := by
  have hinc : ∀ a b : Event,
      (compareEventsByTime a b = false ∧ compareEventsByTime b a = false) ↔ a.secs = b.secs := by
    intro a b
    rw [compareEventsByTime_eq_false_iff, compareEventsByTime_eq_false_iff]
    constructor
    · rintro ⟨h1, h2⟩
      exact le_antisymm h2 h1
    · intro h
      exact ⟨le_of_eq h.symm, le_of_eq h⟩
  refine ⟨fun a => ?_, fun a b hab => ?_, fun a b c hab hbc => ?_, fun a b c hab hbc => ?_,
    hinc, compareEventsByTime_strictWeak⟩
  · rw [compareEventsByTime_eq_false_iff]
  · rw [compareEventsByTime_iff] at hab
    rw [compareEventsByTime_eq_false_iff]
    exact le_of_lt hab
  · rw [compareEventsByTime_iff] at hab hbc ⊢
    exact lt_trans hab hbc
  · rw [hinc] at hab hbc ⊢
    exact hab.trans hbc

/-! ## The scan of `getHighestPeakSessionsUser`, event by event -/

theorem peak_mono (u : String) (q p : List Event) (h : q <+: p) : peak u q ≤ peak u p := by
  obtain ⟨r, hr, hre⟩ := (peak_spec u q).1
  rw [← hre]
  exact (peak_spec u p).2 r (hr.trans h)

theorem stats_of_find (u : String) (p : List Event) (s : UserSessionsStats)
    (hs : UMap.find (userMapScan p) u = some s) :
    s = ⟨runningCount u p, peak u p⟩ := by
  have := userMapScan_stats u p
  rw [hs] at this
  exact this

/-- C14: the map `userMap` after the events `done` have been processed is the state from
which the scan goes on; in it, for every user seen so far, the recorded peak
`maxSessions` is at least 0, at least the running counter `currentSessions`, and at least
what it was after any earlier event. -/
theorem userMapScan_peak_invariant (done rest : List Event) (u : String)
    (s : UserSessionsStats) (hs : UMap.find (userMapScan done) u = some s) :
    userMapScan (done ++ rest) =
      rest.foldl (fun userMap it =>
        userMap.update ⟨0, 0⟩ (updateStats it.getType) it.getUser) (userMapScan done) ∧
    0 ≤ s.maxSessions ∧ s.currentSessions ≤ s.maxSessions ∧
    ∀ (earlier : List Event) (s' : UserSessionsStats), earlier <+: done →
      UMap.find (userMapScan earlier) u = some s' → s'.maxSessions ≤ s.maxSessions := by
  have hs' := stats_of_find u done s hs
  refine ⟨?_, ?_, ?_, ?_⟩
  · unfold userMapScan
    rw [List.foldl_append]
  · rw [hs']
    exact peak_nonneg u done
  · rw [hs']
    exact runningCount_le_peak u done
  · intro earlier s' hpre he
    rw [hs', stats_of_find u earlier s' he]
    exact peak_mono u earlier done hpre

/-- C14, on two unmatched logouts of alice followed by a login: the counter is -1 at the
end and the recorded peak is 0, as it was after the first logout. -/
theorem userMapScan_peak_invariant_example :
    UMap.find (userMapScan unmatchedLog.events) "alice" = some ⟨-1, 0⟩ ∧
    UMap.find (userMapScan (unmatchedLog.events.take 1)) "alice" = some ⟨-1, 0⟩ ∧
    UMap.find (userMapScan (unmatchedLog.events.take 2)) "alice" = some ⟨-2, 0⟩ ∧
    (0 : Int) ≤ (⟨-1, 0⟩ : UserSessionsStats).maxSessions ∧
    (⟨-1, 0⟩ : UserSessionsStats).currentSessions ≤ (⟨-1, 0⟩ : UserSessionsStats).maxSessions :=
  ⟨by decide, by decide, by decide,
    (userMapScan_peak_invariant unmatchedLog.events [] "alice" ⟨-1, 0⟩ (by decide)).2.1,
    (userMapScan_peak_invariant unmatchedLog.events [] "alice" ⟨-1, 0⟩ (by decide)).2.2.1⟩

/-! ## The entries written by `getAvgSessionLengthPerIp` -/

/-- C19: `getAvgSessionLengthPerIp` writes an entry for exactly the IPs that have a
`Login` event: such an IP has an entry afterwards (the sentinel or the average), the
entry of every other IP is as it was in the output map, and from the empty output map the
keys of the result are exactly the IPs with a `Login` event. -/
theorem getAvgSessionLengthPerIp_keys (iter : MapOrder) (hiter : IsIterationOrder iter)
    (log : EventLog) (avgSessionLengths : IpMap) (ip : String) :
    ((∃ e ∈ log.events, e.getType = EventType.EVENT_LOGIN ∧ e.getIp = ip) →
      UMap.find (log.getAvgSessionLengthPerIp iter avgSessionLengths) ip =
        some (if sessionsOfIp ip log.events = 0 then -1
          else Int.tdiv (secondsOfIp ip log.events) (sessionsOfIp ip log.events))) ∧
    ((¬ ∃ e ∈ log.events, e.getType = EventType.EVENT_LOGIN ∧ e.getIp = ip) →
      UMap.find (log.getAvgSessionLengthPerIp iter avgSessionLengths) ip =
        UMap.find avgSessionLengths ip) ∧
    (ip ∈ UMap.keys (log.getAvgSessionLengthPerIp iter []) ↔
      ∃ e ∈ log.events, e.getType = EventType.EVENT_LOGIN ∧ e.getIp = ip) := by
  have hpos := loginCount_pos_iff ip log.events
  refine ⟨fun h => ?_, fun h => ?_, ?_⟩
  · rw [find_getAvgSessionLengthPerIp iter hiter, if_neg]
    have := hpos.2 h
    omega
  · rw [find_getAvgSessionLengthPerIp iter hiter, if_pos]
    by_contra h0
    exact h (hpos.1 (Nat.pos_of_ne_zero h0))
  · constructor
    · intro hmem
      by_contra hno
      have hnone : UMap.find (log.getAvgSessionLengthPerIp iter []) ip = none := by
        rw [find_getAvgSessionLengthPerIp iter hiter, if_pos]
        · rfl
        · by_contra h0
          exact hno (hpos.1 (Nat.pos_of_ne_zero h0))
      exact (UMap.find_eq_none_iff _ ip).1 hnone hmem
    · intro h
      by_contra hnot
      have hnone := (UMap.find_eq_none_iff _ ip).2 hnot
      rw [find_getAvgSessionLengthPerIp iter hiter, if_neg] at hnone
      · exact absurd hnone (by simp)
      · have := hpos.2 h
        omega

/-- C19, on a login from `1.1.1.1` and a logout from `2.2.2.2`, with an output map that
already holds entries for `2.2.2.2` and `3.3.3.3`: `1.1.1.1` is written, the other two
entries stay, and from the empty map the result has the single key `1.1.1.1`. -/
theorem getAvgSessionLengthPerIp_keys_example :
    mixedLog.getAvgSessionLengthPerIp insertionOrder [("2.2.2.2", 7), ("3.3.3.3", 8)]
      = [("2.2.2.2", 7), ("3.3.3.3", 8), ("1.1.1.1", -1)] ∧
    UMap.keys (mixedLog.getAvgSessionLengthPerIp insertionOrder []) = ["1.1.1.1"] ∧
    UMap.find (mixedLog.getAvgSessionLengthPerIp insertionOrder
      [("2.2.2.2", 7), ("3.3.3.3", 8)]) "2.2.2.2" =
        UMap.find [("2.2.2.2", 7), ("3.3.3.3", 8)] "2.2.2.2" :=
  ⟨by decide, by decide,
    (getAvgSessionLengthPerIp_keys insertionOrder insertionOrder_isIterationOrder mixedLog
      [("2.2.2.2", 7), ("3.3.3.3", 8)] "2.2.2.2").2.1 (by decide)⟩

/-! ## One more event at the end of the sequence -/

theorem secsOf_append (ty : EventType) (ip user : String) (events : List Event) (e : Event) :
    secsOf ty ip user (events ++ [e]) =
      secsOf ty ip user events ++
        (if e.getType = ty ∧ e.getIp = ip ∧ e.getUser = user then [e.secs] else []) := by
  unfold secsOf
  rw [List.filter_append, List.map_append]
  by_cases h : e.getType = ty ∧ e.getIp = ip ∧ e.getUser = user
  · rw [if_pos h, List.filter_cons_of_pos (by simpa using h)]
    rfl
  · rw [if_neg h, List.filter_cons_of_neg (by simpa using h)]
    rfl

theorem mem_secsOf (ty : EventType) (ip user : String) (events : List Event) (x : Int)
    (h : x ∈ secsOf ty ip user events) :
    ∃ a ∈ events, a.getType = ty ∧ a.getIp = ip ∧ a.getUser = user ∧ a.secs = x := by
  unfold secsOf at h
  obtain ⟨a, ha, hx⟩ := List.mem_map.1 h
  obtain ⟨hmem, hp⟩ := List.mem_filter.1 ha
  simp only [decide_eq_true_eq] at hp
  exact ⟨a, hmem, hp.1, hp.2.1, hp.2.2, hx⟩

theorem loginCount_append (ip : String) (events : List Event) (e : Event) :
    loginCount ip (events ++ [e]) = loginCount ip events +
      (if e.getType = EventType.EVENT_LOGIN ∧ e.getIp = ip then 1 else 0) := by
  unfold loginCount
  rw [List.countP_append]
  by_cases h : e.getType = EventType.EVENT_LOGIN ∧ e.getIp = ip
  · simp [List.countP_cons, h]
  · rw [if_neg h]
    simp only [List.countP_cons, List.countP_nil, decide_eq_true_eq]
    rw [if_neg h]

theorem usersOfIp_append_perm (ip : String) (events : List Event) (e : Event)
    (h : e.getIp = ip → ∃ a ∈ events, a.getIp = ip ∧ a.getUser = e.getUser) :
    List.Perm (usersOfIp ip (events ++ [e])) (usersOfIp ip events) := by
  have hnd1 : (usersOfIp ip (events ++ [e])).Nodup := List.nodup_dedup _
  have hnd2 : (usersOfIp ip events).Nodup := List.nodup_dedup _
  rw [List.perm_ext_iff_of_nodup hnd1 hnd2]
  intro u
  rw [mem_usersOfIp, mem_usersOfIp]
  constructor
  · rintro ⟨a, ha, hip, hu⟩
    rcases List.mem_append.1 ha with ha | ha
    · exact ⟨a, ha, hip, hu⟩
    · have hae : a = e := by simpa using ha
      subst hae
      obtain ⟨b, hb, hbip, hbu⟩ := h hip
      exact ⟨b, hb, hbip, hbu.trans hu⟩
  · rintro ⟨a, ha, hip, hu⟩
    exact ⟨a, List.mem_append_left _ ha, hip, hu⟩

/-- An unmatched login at the end changes neither the number of pairs nor the sum of their
lengths, for any IP and user. -/
theorem paired_append_login (events : List Event) (e : Event)
    (hty : e.getType = EventType.EVENT_LOGIN)
    (hge : (secsOf EventType.EVENT_LOGOUT e.getIp e.getUser events).length
      ≤ (secsOf EventType.EVENT_LOGIN e.getIp e.getUser events).length)
    (ip user : String) :
    pairedCount ip user (events ++ [e]) = pairedCount ip user events ∧
    pairedSeconds ip user (events ++ [e]) = pairedSeconds ip user events := by
  have hout : secsOf EventType.EVENT_LOGOUT ip user (events ++ [e])
      = secsOf EventType.EVENT_LOGOUT ip user events := by
    rw [secsOf_append, if_neg, List.append_nil]
    rintro ⟨h, _⟩
    rw [hty] at h
    exact absurd h (by decide)
  have hin := secsOf_append EventType.EVENT_LOGIN ip user events e
  have hcount : pairedCount ip user (events ++ [e]) = pairedCount ip user events := by
    unfold pairedCount
    rw [hout, hin]
    by_cases hc : e.getType = EventType.EVENT_LOGIN ∧ e.getIp = ip ∧ e.getUser = user
    · rw [if_pos hc, List.length_append, List.length_singleton]
      obtain ⟨_, hip, hu⟩ := hc
      subst hip hu
      omega
    · rw [if_neg hc, List.append_nil]
  refine ⟨hcount, ?_⟩
  unfold pairedSeconds
  rw [hcount, hout]
  apply congrArg
  apply List.map_congr_left
  intro i hi
  have hi' : i < pairedCount ip user events := List.mem_range.1 hi
  have hlt : i < (secsOf EventType.EVENT_LOGIN ip user events).length := by
    unfold pairedCount at hi'
    omega
  rw [hin, List.getD_append _ _ _ _ hlt]

/-- C13: for an IP and user that have a `Login` event and at least as many `Login` as
`Logout` events, one more `Login` event of that IP and user appended to the sequence, at
whatever time, leaves every entry of the result of `getAvgSessionLengthPerIp` as it
was. -/
theorem getAvgSessionLengthPerIp_append_login (iter : MapOrder) (hiter : IsIterationOrder iter)
    (log : EventLog) (avgSessionLengths : IpMap) (e : Event)
    (hty : e.getType = EventType.EVENT_LOGIN)
    (hone : 0 < (secsOf EventType.EVENT_LOGIN e.getIp e.getUser log.events).length)
    (hge : (secsOf EventType.EVENT_LOGOUT e.getIp e.getUser log.events).length
      ≤ (secsOf EventType.EVENT_LOGIN e.getIp e.getUser log.events).length)
    (ip : String) :
    UMap.find ((log.addEvent e).getAvgSessionLengthPerIp iter avgSessionLengths) ip =
      UMap.find (log.getAvgSessionLengthPerIp iter avgSessionLengths) ip := by
  obtain ⟨x, hx⟩ := List.exists_mem_of_length_pos hone
  obtain ⟨a, ha, haty, haip, hau, _⟩ := mem_secsOf _ _ _ _ _ hx
  rw [find_getAvgSessionLengthPerIp iter hiter, find_getAvgSessionLengthPerIp iter hiter]
  have hev : (log.addEvent e).events = log.events ++ [e] := rfl
  rw [hev]
  have hperm := usersOfIp_append_perm ip log.events e (fun _ => ⟨a, ha, by rw [haip]; assumption, hau⟩)
  have hN : sessionsOfIp ip (log.events ++ [e]) = sessionsOfIp ip log.events := by
    unfold sessionsOfIp
    rw [List.map_congr_left (fun u _ => (paired_append_login log.events e hty hge ip u).1)]
    exact (hperm.map _).sum_eq
  have hS : secondsOfIp ip (log.events ++ [e]) = secondsOfIp ip log.events := by
    unfold secondsOfIp
    rw [List.map_congr_left (fun u _ => (paired_append_login log.events e hty hge ip u).2)]
    exact (hperm.map _).sum_eq
  have hL : loginCount ip (log.events ++ [e]) = 0 ↔ loginCount ip log.events = 0 := by
    rw [loginCount_append]
    by_cases hc : e.getType = EventType.EVENT_LOGIN ∧ e.getIp = ip
    · rw [if_pos hc]
      have : 0 < loginCount ip log.events :=
        (loginCount_pos_iff ip log.events).2 ⟨a, ha, haty, haip.trans hc.2⟩
      omega
    · rw [if_neg hc, Nat.add_zero]
  rw [hN, hS]
  by_cases h0 : loginCount ip log.events = 0
  · rw [if_pos h0, if_pos (hL.2 h0)]
  · rw [if_neg h0, if_neg (fun h => h0 (hL.1 h))]

/-- C13, on logins at 10:00:00 and 10:05:00 with one logout at 10:02:00 for the same IP
and user: one pair is formed and the average is 120, with and without the second
login. -/
theorem getAvgSessionLengthPerIp_append_login_example :
    UMap.find (pairLog.getAvgSessionLengthPerIp insertionOrder []) "1.1.1.1" = some 120 ∧
    pairedCount "1.1.1.1" "alice"
      (pairLog.addEvent (mkEvent 10 5 0 EventType.EVENT_LOGIN "1.1.1.1" "alice")).events = 1 ∧
    UMap.find ((pairLog.addEvent
        (mkEvent 10 5 0 EventType.EVENT_LOGIN "1.1.1.1" "alice")).getAvgSessionLengthPerIp
          insertionOrder []) "1.1.1.1" =
      UMap.find (pairLog.getAvgSessionLengthPerIp insertionOrder []) "1.1.1.1" :=
  ⟨by decide, by decide,
    getAvgSessionLengthPerIp_append_login insertionOrder insertionOrder_isIterationOrder pairLog []
      (mkEvent 10 5 0 EventType.EVENT_LOGIN "1.1.1.1" "alice") (by decide) (by decide)
      (by decide) "1.1.1.1"⟩

/-! ## A sequence in which every logout follows its login -/

/-- No initial segment of `pairLog` holds more logouts than logins of any IP and user. -/
theorem pairLog_balanced (ip user : String) (p : List Event) (hp : p <+: pairLog.events) :
    (secsOf EventType.EVENT_LOGOUT ip user p).length
      ≤ (secsOf EventType.EVENT_LOGIN ip user p).length := by
  have hmem : p ∈ pairLog.events.inits := (List.mem_inits _ _).2 hp
  have hcases : p = [] ∨ p = [mkEvent 10 0 0 EventType.EVENT_LOGIN "1.1.1.1" "alice"] ∨
      p = pairLog.events := by
    simpa [pairLog, List.inits] using hmem
  rcases hcases with rfl | rfl | rfl
  · simp [secsOf]
  · simp [secsOf, mkEvent, Event.getType]
  · by_cases h : "1.1.1.1" = ip ∧ "alice" = user
    · obtain ⟨h1, h2⟩ := h
      subst h1 h2
      decide
    · have hnil : secsOf EventType.EVENT_LOGOUT ip user pairLog.events = [] := by
        unfold secsOf
        rw [List.map_eq_nil_iff, List.filter_eq_nil_iff]
        intro a ha
        have ha' : a.getIp = "1.1.1.1" ∧ a.getUser = "alice" := by
          revert a
          decide
        simp only [decide_eq_true_eq, not_and]
        intro _ hip hu
        exact h ⟨ha'.1.symm.trans hip, ha'.2.symm.trans hu⟩
      rw [hnil]
      exact Nat.zero_le _

/-! ## The tokenizer and the builders on lines that fit the buffers -/

/-- The builder constructed from a line on which the tokenizer returns `tk`: the flag
`isEventValid` says that the tokenizer and the four setters all succeeded, and the member
`event` then is the event after the four setters. -/
theorem new_of_tokenize (lib : CLib) (fresh : Event) (line : String)
    (tk : Bool × EventLogLineTokens)
    (h : tokenizeLogLine lib line ⟨"", "", "", ""⟩ = some tk) :
    ∃ b, EventBuilder.new lib fresh line = some b ∧
      b.isEventValid =
        (tk.1 && (fresh.setTime lib tk.2.timeStr).1 && (fresh.setType tk.2.typeStr).1 &&
          (fresh.setIp lib tk.2.ip).1 && (fresh.setUser lib tk.2.user).1) ∧
      (b.isEventValid = true →
        b.event = ((((fresh.setTime lib tk.2.timeStr).2.setType tk.2.typeStr).2.setIp lib
          tk.2.ip).2.setUser lib tk.2.user).2) := by
  unfold EventBuilder.new
  simp only []
  rw [h]
  refine ⟨_, rfl, ?_, ?_⟩
  · simp only
    rw [setType_fst_indep (fresh.setTime lib tk.2.timeStr).2 fresh,
      setIp_fst_indep lib ((fresh.setTime lib tk.2.timeStr).2.setType tk.2.typeStr).2 fresh,
      setUser_fst_indep lib
        (((fresh.setTime lib tk.2.timeStr).2.setType tk.2.typeStr).2.setIp lib tk.2.ip).2 fresh]
    cases tk.1 <;> cases (fresh.setTime lib tk.2.timeStr).1 <;>
      cases (fresh.setType tk.2.typeStr).1 <;> cases (fresh.setIp lib tk.2.ip).1 <;>
      cases (fresh.setUser lib tk.2.user).1 <;> rfl
  · intro hv
    simp only at hv ⊢
    rw [if_pos hv]

/-- On a line whose four stored strings fit the buffers the tokenizer returns true with
them. -/
theorem tokenizeLogLine_four (lib : CLib) (line : String) (t0 : EventLogLineTokens)
    (a b c d : String) (hs : lib.scanLine line = [a, b, c, d])
    (hfit : fieldsFit (lib.scanLine line) = true) :
    tokenizeLogLine lib line t0 =
      some (true, { timeStr := a, typeStr := b, ip := c, user := d }) := by
  unfold tokenizeLogLine
  simp only [hfit, if_true]
  rw [hs]

/-- On a line whose stored strings fit the buffers the tokenizer returns. -/
theorem tokenizeLogLine_of_fit (lib : CLib) (line : String) (t0 : EventLogLineTokens)
    (hfit : fieldsFit (lib.scanLine line) = true) :
    ∃ tk, tokenizeLogLine lib line t0 = some tk := by
  unfold tokenizeLogLine
  simp only [hfit, if_true]
  split
  · exact ⟨_, rfl⟩
  · exact ⟨_, rfl⟩

/-- The tokenizer returns true only with four stored strings that fit the buffers. -/
theorem tokenizeLogLine_true (lib : CLib) (line : String) (t0 tok : EventLogLineTokens)
    (h : tokenizeLogLine lib line t0 = some (true, tok)) :
    fieldsFit (lib.scanLine line) = true ∧
      lib.scanLine line = [tok.timeStr, tok.typeStr, tok.ip, tok.user] := by
  unfold tokenizeLogLine at h
  by_cases hfit : fieldsFit (lib.scanLine line) = true
  · refine ⟨hfit, ?_⟩
    simp only [hfit, if_true] at h
    split at h
    · rename_i heq
      simp only [Option.some.injEq, Prod.mk.injEq, true_and] at h
      rw [heq, ← h]
    · simp at h
  · simp [hfit] at h

theorem tokenizeLogLine_overrun (lib : CLib) (line : String) (t0 : EventLogLineTokens)
    (hfit : fieldsFit (lib.scanLine line) = false) : tokenizeLogLine lib line t0 = none := by
  unfold tokenizeLogLine
  simp [hfit]

/-- Whether the tokenizer succeeds, and with which tokens, does not depend on the tokens
passed in. -/
theorem tokenizeLogLine_true_indep (lib : CLib) (line : String) (t0 t1 : EventLogLineTokens)
    (tok : EventLogLineTokens) (h : tokenizeLogLine lib line t0 = some (true, tok)) :
    tokenizeLogLine lib line t1 = some (true, tok) := by
  unfold tokenizeLogLine at h ⊢
  by_cases hfit : fieldsFit (lib.scanLine line) = true
  · simp only [hfit, if_true] at h ⊢
    split at h
    · exact h
    · simp at h
  · simp [hfit] at h

theorem getEvent_eq (b : EventBuilder) (e : Event) :
    (b.getEvent e).1 = b.isEventValid ∧
    (b.isEventValid = true → (b.getEvent e).2 = b.event) ∧
    (b.isEventValid = false → (b.getEvent e).2 = e) := by
  unfold EventBuilder.getEvent
  cases b.isEventValid <;> simp

/-- C11, for lines whose scanned fields fit the buffers of `tokenizeLogLine`: the
constructor of `EventBuilder` returns, and `getEvent` returns true exactly when the line
tokenizes into four fields and `setTime`, `setType`, `setIp` and `setUser` each accept
their token; the event delivered then has the type, the IP and the user (and the time) of
the tokens; and when it returns false the caller's event is not written. -/
theorem getEvent_true_iff (lib : CLib) (fresh : Event) (line : String) (e : Event)
    (hfit : fieldsFit (lib.scanLine line) = true) :
    ∃ b : EventBuilder, EventBuilder.new lib fresh line = some b ∧
      ((b.getEvent e).1 = true ↔
        ∃ tok : EventLogLineTokens,
          (∀ t0, tokenizeLogLine lib line t0 = some (true, tok)) ∧
          (∀ ev : Event, (ev.setTime lib tok.timeStr).1 = true) ∧
          (∀ ev : Event, (ev.setType tok.typeStr).1 = true) ∧
          (∀ ev : Event, (ev.setIp lib tok.ip).1 = true) ∧
          (∀ ev : Event, (ev.setUser lib tok.user).1 = true)) ∧
      ((b.getEvent e).1 = true →
        ∀ tok t0, tokenizeLogLine lib line t0 = some (true, tok) →
          ((tok.typeStr = "LOGIN" ∧ (b.getEvent e).2.getType = EventType.EVENT_LOGIN) ∨
            (tok.typeStr = "LOGOUT" ∧ (b.getEvent e).2.getType = EventType.EVENT_LOGOUT)) ∧
          (b.getEvent e).2.getIp = tok.ip ∧
          (b.getEvent e).2.getUser = tok.user ∧
          lib.scanTime tok.timeStr =
            some ((b.getEvent e).2.getTime.tm_hour, (b.getEvent e).2.getTime.tm_min,
              (b.getEvent e).2.getTime.tm_sec)) ∧
      ((b.getEvent e).1 = false → (b.getEvent e).2 = e) := by
  obtain ⟨tk, htk⟩ := tokenizeLogLine_of_fit lib line ⟨"", "", "", ""⟩ hfit
  obtain ⟨b, hb, hvalid, hevent⟩ := new_of_tokenize lib fresh line tk htk
  obtain ⟨hfst, hsnd, hframe⟩ := getEvent_eq b e
  refine ⟨b, hb, ?_, ?_, fun h => hframe (by rw [← hfst]; exact h)⟩
  · rw [hfst, hvalid]
    constructor
    · intro h
      simp only [Bool.and_eq_true] at h
      obtain ⟨⟨⟨⟨h0, h1⟩, h2⟩, h3⟩, h4⟩ := h
      have htk' : tokenizeLogLine lib line ⟨"", "", "", ""⟩ = some (true, tk.2) := by
        rw [htk, ← h0]
      refine ⟨tk.2, fun t0 => tokenizeLogLine_true_indep lib line _ t0 tk.2 htk', ?_, ?_, ?_, ?_⟩
      · intro ev; rw [setTime_fst_indep lib ev fresh]; exact h1
      · intro ev; rw [setType_fst_indep ev fresh]; exact h2
      · intro ev; rw [setIp_fst_indep lib ev fresh]; exact h3
      · intro ev; rw [setUser_fst_indep lib ev fresh]; exact h4
    · rintro ⟨tok, h0, h1, h2, h3, h4⟩
      have := h0 ⟨"", "", "", ""⟩
      rw [htk] at this
      have htk2 : tk = (true, tok) := Option.some.inj this
      rw [htk2]
      simp only [Bool.and_eq_true]
      exact ⟨⟨⟨⟨trivial, h1 fresh⟩, h2 fresh⟩, h3 fresh⟩, h4 fresh⟩
  · intro h tok t0 htok
    have hv : b.isEventValid = true := by rw [← hfst]; exact h
    have htok0 := tokenizeLogLine_true_indep lib line t0 ⟨"", "", "", ""⟩ tok htok
    rw [htk] at htok0
    have htk2 : tk = (true, tok) := Option.some.inj htok0
    subst htk2
    rw [hsnd hv, hevent hv]
    rw [hvalid] at hv
    simp only [Bool.and_eq_true] at hv
    obtain ⟨⟨⟨⟨_, h1⟩, h2⟩, h3⟩, h4⟩ := hv
    obtain ⟨t, hscan, ht⟩ := setTime_accept lib fresh tok.timeStr h1
    have h2' : ((fresh.setTime lib tok.timeStr).2.setType tok.typeStr).1 = true := by
      rw [setType_fst_indep _ fresh]; exact h2
    have h3' : (((fresh.setTime lib tok.timeStr).2.setType tok.typeStr).2.setIp lib tok.ip).1
        = true := by
      rw [setIp_fst_indep lib _ fresh]; exact h3
    have h4' : ((((fresh.setTime lib tok.timeStr).2.setType tok.typeStr).2.setIp lib
        tok.ip).2.setUser lib tok.user).1 = true := by
      rw [setUser_fst_indep lib _ fresh]; exact h4
    rw [setUser_accept lib _ _ h4', setIp_accept lib _ _ h3']
    simp only [Event.getType, Event.getIp, Event.getUser, Event.getTime]
    refine ⟨?_, trivial, trivial, ?_⟩
    · rcases setType_accept _ _ h2' with ⟨hs, he⟩ | ⟨hs, he⟩
      · left; rw [he]; exact ⟨hs, rfl⟩
      · right; rw [he]; exact ⟨hs, rfl⟩
    · rcases setType_accept _ _ h2' with ⟨_, he⟩ | ⟨_, he⟩ <;>
      · rw [he, ht]
        exact hscan

/-- C11, on two lines whose fields fit: a well-formed line is accepted and delivers its
event; a line with the type `LOGIM` is refused and the caller's event stays as it
was. -/
theorem getEvent_true_iff_example :
    (fieldsFit (cLib.scanLine "09:00:00, LOGIN, 192.168.1.1, alice") = true ∧
      (EventBuilder.new cLib freshEvent "09:00:00, LOGIN, 192.168.1.1, alice").map
          (fun b => b.getEvent freshEvent) =
        some (true, mkEvent 9 0 0 EventType.EVENT_LOGIN "192.168.1.1" "alice")) ∧
    (fieldsFit (cLib.scanLine "09:00:00, LOGIM, 192.168.1.1, alice") = true ∧
      ∃ b : EventBuilder,
        EventBuilder.new cLib freshEvent "09:00:00, LOGIM, 192.168.1.1, alice" = some b ∧
        (b.getEvent freshEvent).1 = false ∧ (b.getEvent freshEvent).2 = freshEvent) := by
  refine ⟨⟨by decide, by decide⟩, by decide, ?_⟩
  obtain ⟨b, hb, _, _, hframe⟩ :=
    getEvent_true_iff cLib freshEvent "09:00:00, LOGIM, 192.168.1.1, alice" freshEvent
      (by decide)
  have hb' : EventBuilder.new cLib freshEvent "09:00:00, LOGIM, 192.168.1.1, alice" =
      some { event := freshEvent, isEventValid := false } := by decide
  have hbeq : b = { event := freshEvent, isEventValid := false } :=
    Option.some.inj (hb.symm.trans hb')
  have hfalse : (b.getEvent freshEvent).1 = false := by rw [hbeq]; decide
  exact ⟨b, hb, hfalse, hframe hfalse⟩

/-- C11 fails on a line with a field longer than its buffer: `longUserLine` splits into
four fields, `setTime`, `setType`, `setIp` and `setUser` each accept their field, but the
user field has 104 characters where the buffer `userChar` holds 20 and the terminating
zero; `sscanf` writes past the end of the buffer and the constructor of `EventBuilder`
yields no builder, so `getEvent` does not return true. -/
theorem getEvent_overrun :
    cLib.scanLine longUserLine =
      ["09:00:00", "LOGIN", "192.168.1.1", String.mk (List.replicate 104 'a')] ∧
    (∀ ev : Event, (ev.setTime cLib "09:00:00").1 = true) ∧
    (∀ ev : Event, (ev.setType "LOGIN").1 = true) ∧
    (∀ ev : Event, (ev.setIp cLib "192.168.1.1").1 = true) ∧
    (∀ ev : Event, (ev.setUser cLib (String.mk (List.replicate 104 'a'))).1 = true) ∧
    fieldsFit (cLib.scanLine longUserLine) = false ∧
    (∀ t0, tokenizeLogLine cLib longUserLine t0 = none) ∧
    EventBuilder.new cLib freshEvent longUserLine = none := by
  refine ⟨by decide, ?_, ?_, ?_, ?_, by decide, ?_, by decide⟩
  · intro ev; rw [setTime_fst_indep cLib ev freshEvent]; decide
  · intro ev; rw [setType_fst_indep ev freshEvent]; decide
  · intro ev; rw [setIp_fst_indep cLib ev freshEvent]; decide
  · intro ev; rw [setUser_fst_indep cLib ev freshEvent]; decide
  · intro t0; exact tokenizeLogLine_overrun cLib longUserLine t0 (by decide)

theorem addLengths_append (conv : IntConv) (l1 l2 : List Int) (st : Int × Int) :
    addLengths conv (l1 ++ l2) st = addLengths conv l2 (addLengths conv l1 st) := by
  unfold addLengths
  rw [List.foldl_append]

/-- With enough iterations allowed, the `while` loop adds the lengths of the positional
pairs from position `i` on, one after the other. -/
theorem pairLoop32_eq (conv : IntConv) (mk : Tm → Int) (a b : LogTimes) (fuel i : Nat)
    (st : Int × Int) (hfuel : a.length - i ≤ fuel) :
    pairLoop32 conv mk a b fuel i st =
      addLengths conv (pairLengthsBy mk (a.drop i) (b.drop i)) st := by
  induction fuel generalizing i st with
  | zero =>
    have : a.drop i = [] := List.drop_eq_nil_of_le (by omega)
    simp [pairLoop32, pairLengthsBy, addLengths, this]
  | succ fuel ih =>
    unfold pairLoop32
    by_cases h : i < a.length ∧ i < b.length
    · rw [dif_pos h]
      simp only
      rw [ih (i + 1) _ (by omega)]
      have ha : a.drop i = a.get ⟨i, h.1⟩ :: a.drop (i + 1) := by
        simp
      have hb : b.drop i = b.get ⟨i, h.2⟩ :: b.drop (i + 1) := by
        simp
      rw [ha, hb]
      simp only [pairLengthsBy, List.zipWith_cons_cons, addLengths, List.foldl_cons]
    · rw [dif_neg h]
      have : pairLengthsBy mk (a.drop i) (b.drop i) = [] := by
        unfold pairLengthsBy
        rcases not_and_or.1 h with h | h
        · have ha : a.drop i = [] := List.drop_eq_nil_of_le (by omega)
          rw [ha]; simp
        · have hb : b.drop i = [] := List.drop_eq_nil_of_le (by omega)
          rw [hb]; simp
      simp [this, addLengths]

theorem pairLoop32_zero (conv : IntConv) (mk : Tm → Int) (a b : LogTimes) (st : Int × Int) :
    pairLoop32 conv mk a b a.length 0 st = addLengths conv (pairLengthsBy mk a b) st := by
  rw [pairLoop32_eq conv mk a b a.length 0 st (by omega)]
  simp

theorem calc32_fold (conv : IntConv) (mk : Tm → Int) (l : UserLogTimesMap)
    (lo : UserLogTimesMap) :
    ∀ (st : Int × Int) (lo' : UserLogTimesMap),
      (∀ u, (UMap.find lo' u).getD [] = (UMap.find lo u).getD []) →
      (l.foldl
        (fun (st : (Int × Int) × UserLogTimesMap) it =>
          (pairLoop32 conv mk it.2 (UMap.index [] st.2 it.1).1 it.2.length 0 st.1,
            (UMap.index [] st.2 it.1).2))
        (st, lo')).1 = addLengths conv (entryLengths mk l lo) st ∧
      ∀ u, (UMap.find (l.foldl
        (fun (st : (Int × Int) × UserLogTimesMap) it =>
          (pairLoop32 conv mk it.2 (UMap.index [] st.2 it.1).1 it.2.length 0 st.1,
            (UMap.index [] st.2 it.1).2))
        (st, lo')).2 u).getD [] = (UMap.find lo u).getD [] := by
  induction l with
  | nil =>
    intro st lo' h
    exact ⟨by simp [entryLengths, addLengths], h⟩
  | cons kv l ih =>
    intro st lo' h
    rw [List.foldl_cons]
    have hequiv : ∀ u, (UMap.find (UMap.index [] lo' kv.1).2 u).getD [] =
        (UMap.find lo u).getD [] := by
      intro u
      unfold UMap.index
      rw [getD_find_update]
      split
      · rename_i hk
        subst hk
        exact h _
      · exact h u
    obtain ⟨h1, h2⟩ :=
      ih (pairLoop32 conv mk kv.2 (UMap.index [] lo' kv.1).1 kv.2.length 0 st) _ hequiv
    refine ⟨?_, h2⟩
    rw [h1, pairLoop32_zero]
    have hval : (UMap.index [] lo' kv.1).1 = (UMap.find lo kv.1).getD [] := h kv.1
    rw [hval]
    have : entryLengths mk (kv :: l) lo =
        pairLengthsBy mk kv.2 ((UMap.find lo kv.1).getD []) ++ entryLengths mk l lo := by
      simp [entryLengths, List.flatMap_cons]
    rw [this, addLengths_append]

/-- `calcAvgSessionLengthForIp32` returns the sentinel or the quotient of the totals that
the additions leave, and leaves every lookup in the logout map as it was. -/
theorem calcAvgSessionLengthForIp32_eq (conv : IntConv) (mk : Tm → Int) (iter : MapOrder)
    (loginU lo lo' : UserLogTimesMap)
    (h : ∀ u, (UMap.find lo' u).getD [] = (UMap.find lo u).getD []) :
    (calcAvgSessionLengthForIp32 conv mk iter loginU lo').1 =
      avgOfTotals32 conv (addLengths conv (entryLengths mk (iter LogTimes loginU) lo) (0, 0)) ∧
    ∀ u, (UMap.find (calcAvgSessionLengthForIp32 conv mk iter loginU lo').2 u).getD []
      = (UMap.find lo u).getD [] := by
  unfold calcAvgSessionLengthForIp32
  obtain ⟨h1, h2⟩ := calc32_fold conv mk (iter LogTimes loginU) lo (0, 0) lo' h
  refine ⟨?_, h2⟩
  simp only
  rw [h1]
  rfl

theorem avg32_fold (conv : IntConv) (mk : Tm → Int) (iter : MapOrder) (LO : IpLogTimesMap)
    (l : IpLogTimesMap) (hnd : (UMap.keys l).Nodup) :
    ∀ (out : IpMap) (LO' : IpLogTimesMap),
      (∀ ip u, timesAt LO' ip u = timesAt LO ip u) →
      ∀ ip₀, UMap.find (l.foldl
        (fun (st : IpMap × IpLogTimesMap) it =>
          (st.1.update 0 (fun _ => (calcAvgSessionLengthForIp32 conv mk iter it.2
              (UMap.index [] st.2 it.1).1).1) it.1,
            (UMap.index [] st.2 it.1).2.update []
              (fun _ => (calcAvgSessionLengthForIp32 conv mk iter it.2
                (UMap.index [] st.2 it.1).1).2)
              it.1))
        (out, LO')).1 ip₀ =
      match UMap.find l ip₀ with
      | some U => some (avgOfTotals32 conv (addLengths conv
          (entryLengths mk (iter LogTimes U) ((UMap.find LO ip₀).getD [])) (0, 0)))
      | none => UMap.find out ip₀ := by
  induction l with
  | nil => intro out LO' _ ip₀; rfl
  | cons kv l ih =>
    intro out LO' h ip₀
    obtain ⟨ip, U⟩ := kv
    simp only [UMap.keys, List.map_cons, List.nodup_cons] at hnd
    rw [List.foldl_cons]
    have hlo : ∀ u, (UMap.find (UMap.index [] LO' ip).1 u).getD []
        = (UMap.find ((UMap.find LO ip).getD []) u).getD [] := fun u => h ip u
    obtain ⟨hres1, hres2⟩ := calcAvgSessionLengthForIp32_eq conv mk iter U
      ((UMap.find LO ip).getD []) (UMap.index [] LO' ip).1 hlo
    have hequiv : ∀ ip' u, timesAt ((UMap.index [] LO' ip).2.update []
        (fun _ => (calcAvgSessionLengthForIp32 conv mk iter U (UMap.index [] LO' ip).1).2) ip)
          ip' u = timesAt LO ip' u := by
      intro ip' u
      unfold timesAt
      rw [getD_find_update]
      by_cases hip : ip = ip'
      · subst hip
        rw [if_pos rfl]
        exact hres2 u
      · rw [if_neg hip]
        unfold UMap.index
        simp only
        rw [getD_find_update, if_neg hip]
        exact h ip' u
    rw [ih hnd.2 _ _ hequiv ip₀]
    by_cases hip : ip = ip₀
    · subst hip
      have hnone : UMap.find l ip = none := (UMap.find_eq_none_iff l ip).2 hnd.1
      rw [hnone]
      simp [UMap.find, UMap.find_update, hres1]
    · simp [UMap.find, UMap.find_update, hip]

/-- What `getAvgSessionLengthPerIp32` leaves in the output map for any IP: the entry is
untouched when the IP has no `Login` event; otherwise it is what
`calcAvgSessionLengthForIp32` returns for the totals left by the additions of the session
lengths of the IP, made one after the other in the order of `addedLengths`. -/
theorem find_getAvgSessionLengthPerIp32 (conv : IntConv) (mk : Tm → Int) (iter : MapOrder)
    (hiter : IsIterationOrder iter) (log : EventLog) (out : IpMap) (ip : String) :
    UMap.find (log.getAvgSessionLengthPerIp32 conv mk iter out) ip =
      if loginCount ip log.events = 0 then UMap.find out ip
      else some (avgOfTotals32 conv
        (addLengths conv (addedLengths mk iter ip log.events) (0, 0))) := by
  unfold EventLog.getAvgSessionLengthPerIp32 addedLengths
  simp only
  rw [classifyEvents_eq]
  simp only
  have hnd0 := nodup_keys_timesMapOf EventType.EVENT_LOGIN log.events [] (by simp [UMap.keys])
  have hperm := hiter UserLogTimesMap (timesMapOf EventType.EVENT_LOGIN log.events [])
  have hnd : (UMap.keys (iter UserLogTimesMap
      (timesMapOf EventType.EVENT_LOGIN log.events []))).Nodup :=
    (hperm.map Prod.fst).nodup_iff.2 hnd0
  rw [avg32_fold conv mk iter (timesMapOf EventType.EVENT_LOGOUT log.events []) _ hnd out _
    (fun _ _ => rfl) ip]
  rw [← UMap.find_perm _ _ hperm.symm hnd0 ip]
  have hkey := mem_keys_timesMapOf EventType.EVENT_LOGIN ip log.events []
  by_cases h0 : loginCount ip log.events = 0
  · rw [if_pos h0]
    have hnone : UMap.find (timesMapOf EventType.EVENT_LOGIN log.events []) ip = none := by
      rw [UMap.find_eq_none_iff, hkey]
      rintro (h | ⟨e, he, hty, hip⟩)
      · simp [UMap.keys] at h
      · have := (loginCount_pos_iff ip log.events).2 ⟨e, he, hty, hip⟩
        omega
    rw [hnone]
  · rw [if_neg h0]
    have hmem : ip ∈ UMap.keys (timesMapOf EventType.EVENT_LOGIN log.events []) := by
      rw [hkey]
      exact Or.inr ((loginCount_pos_iff ip log.events).1 (Nat.pos_of_ne_zero h0))
    cases hf : UMap.find (timesMapOf EventType.EVENT_LOGIN log.events []) ip with
    | none => exact absurd hmem ((UMap.find_eq_none_iff _ ip).1 hf)
    | some U => rfl

/-- While every running total is a value of `int`, the totals stored are the exact
ones. -/
theorem addLengths_exact (conv : IntConv) (hconv : IsIntConv conv) (D : List Int) :
    ∀ (s n : Int), (∀ p, p <+: D → InIntRange (s + p.sum)) → INT_MIN ≤ n →
      n + (D.length : Int) ≤ INT_MAX →
      addLengths conv D (s, n) = (s + D.sum, n + (D.length : Int)) := by
  induction D with
  | nil => intro s n _ _ _; simp [addLengths]
  | cons d D ih =>
    intro s n hs hn0 hn
    have hsd : InIntRange (s + d) := by
      have := hs [d] (by simp [List.prefix_cons_inj, List.nil_prefix])
      simpa using this
    have hn1 : InIntRange (n + 1) := by
      simp only [List.length_cons, Nat.cast_add, Nat.cast_one] at hn
      have : (0 : Int) ≤ (D.length : Int) := Int.ofNat_nonneg _
      constructor
      · omega
      · omega
    have hstep : addLengths conv (d :: D) (s, n) = addLengths conv D (s + d, n + 1) := by
      simp only [addLengths, List.foldl_cons]
      rw [hconv _ hsd, hconv _ hn1]
    rw [hstep, ih (s + d) (n + 1)]
    · simp only [List.sum_cons, List.length_cons, Nat.cast_add, Nat.cast_one]
      refine Prod.ext ?_ ?_ <;> simp only <;> omega
    · intro p hp
      have := hs (d :: p) ((List.prefix_cons_inj d).2 hp)
      simp only [List.sum_cons] at this
      rw [add_assoc]
      exact this
    · unfold INT_MIN at hn0 ⊢
      omega
    · simp only [List.length_cons, Nat.cast_add, Nat.cast_one] at hn
      omega

/-- The quotient of a value of `int` by a positive number is a value of `int`. -/
theorem inIntRange_tdiv (a b : Int) (ha : InIntRange a) (hb : 0 < b) :
    InIntRange (Int.tdiv a b) := by
  unfold InIntRange INT_MIN INT_MAX at *
  rcases le_total 0 a with h | h
  · have h1 : 0 ≤ Int.tdiv a b := Int.tdiv_nonneg h hb.le
    have h2 : Int.tdiv a b ≤ a := by
      rw [Int.tdiv_eq_ediv h hb.le]
      exact Int.ediv_le_self b h
    constructor <;> omega
  · have h1 : Int.tdiv a b = -Int.tdiv (-a) b := by
      rw [Int.neg_tdiv, neg_neg]
    have h2 : 0 ≤ Int.tdiv (-a) b := Int.tdiv_nonneg (by omega) hb.le
    have h3 : Int.tdiv (-a) b ≤ -a := by
      rw [Int.tdiv_eq_ediv (by omega) hb.le]
      exact Int.ediv_le_self b (by omega)
    constructor <;> omega

theorem entryLengths_sum (mk : Tm → Int) (l lo : UserLogTimesMap) :
    (entryLengths mk l lo).sum =
      (l.map (fun it => (pairLengthsBy mk it.2 ((UMap.find lo it.1).getD [])).sum)).sum := by
  induction l with
  | nil => rfl
  | cons kv l ih =>
    simp only [entryLengths, List.flatMap_cons, List.sum_append, List.map_cons,
      List.sum_cons] at ih ⊢
    rw [ih]

theorem entryLengths_length (mk : Tm → Int) (l lo : UserLogTimesMap) :
    (entryLengths mk l lo).length =
      (l.map (fun it => (pairLengthsBy mk it.2 ((UMap.find lo it.1).getD [])).length)).sum := by
  induction l with
  | nil => rfl
  | cons kv l ih =>
    simp only [entryLengths, List.flatMap_cons, List.length_append, List.map_cons,
      List.sum_cons] at ih ⊢
    rw [ih]

theorem libSecsOf_eq (mk : Tm → Int) (ty : EventType) (ip user : String)
    (events : List Event) :
    libSecsOf mk ty ip user events = (timesOf ty ip user events).map mk := by
  unfold libSecsOf timesOf
  rw [List.map_map]
  rfl

/-- The pairs formed by the loop for `(ip, user)` are as many as `pairedCount` says and
their lengths add up to `pairedSecondsBy`. -/
theorem pairLengthsBy_timesOf (mk : Tm → Int) (ip user : String) (events : List Event) :
    ((pairLengthsBy mk (timesOf EventType.EVENT_LOGIN ip user events)
        (timesOf EventType.EVENT_LOGOUT ip user events)).length = pairedCount ip user events) ∧
    (pairLengthsBy mk (timesOf EventType.EVENT_LOGIN ip user events)
        (timesOf EventType.EVENT_LOGOUT ip user events)).sum =
      pairedSecondsBy mk ip user events := by
  constructor
  · simp [pairLengthsBy, pairedCount, secsOf_eq]
  · unfold pairedSecondsBy pairedCount
    rw [secsOf_eq, secsOf_eq, List.length_map, List.length_map]
    have h := sum_range_getD_sub (libSecsOf mk EventType.EVENT_LOGIN ip user events)
      (libSecsOf mk EventType.EVENT_LOGOUT ip user events)
    rw [libSecsOf_eq, libSecsOf_eq, List.length_map, List.length_map] at h
    rw [libSecsOf_eq, libSecsOf_eq, h, List.zipWith_map]
    rfl

/-- A sum over the entries of the login map of `ip` is the sum over the users of `ip`,
for a summand that vanishes on a user without login. -/
theorem sum_entries_eq {M : Type} [AddCommMonoid M] (F : LogTimes → LogTimes → M)
    (hF : ∀ b, F [] b = 0) (ip : String) (events : List Event) :
    (((UMap.find (timesMapOf EventType.EVENT_LOGIN events []) ip).getD []).map
      (fun it => F it.2
        ((UMap.find ((UMap.find (timesMapOf EventType.EVENT_LOGOUT events []) ip).getD [])
          it.1).getD []))).sum =
    ((usersOfIp ip events).map (fun u =>
      F (timesOf EventType.EVENT_LOGIN ip u events)
        (timesOf EventType.EVENT_LOGOUT ip u events))).sum := by
  obtain ⟨hnd, hkeys⟩ := inner_timesMapOf EventType.EVENT_LOGIN ip events []
    (by simp [UMap.find, UMap.keys])
  have hentry : ∀ kv ∈ (UMap.find (timesMapOf EventType.EVENT_LOGIN events []) ip).getD [],
      F kv.2 ((UMap.find ((UMap.find (timesMapOf EventType.EVENT_LOGOUT events [])
          ip).getD []) kv.1).getD [])
        = F (timesOf EventType.EVENT_LOGIN ip kv.1 events)
            (timesOf EventType.EVENT_LOGOUT ip kv.1 events) := by
    intro kv hkv
    have h1 := timesAt_timesMapOf EventType.EVENT_LOGIN ip kv.1 events []
    have h2 := timesAt_timesMapOf EventType.EVENT_LOGOUT ip kv.1 events []
    have hf := UMap.find_eq_some_of_mem _ kv.1 kv.2 hnd hkv
    simp only [timesAt, UMap.find, Option.getD_none, List.nil_append] at h1 h2
    rw [hf] at h1
    simp only [Option.getD_some] at h1
    rw [h1, h2]
  have hsub : ∀ u ∈ UMap.keys ((UMap.find (timesMapOf EventType.EVENT_LOGIN events []) ip).getD []),
      u ∈ usersOfIp ip events := by
    intro u hu
    rcases hkeys u hu with h | ⟨e, he, _, hip, hu'⟩
    · simp [UMap.find, UMap.keys] at h
    · exact (mem_usersOfIp ip u events).2 ⟨e, he, hip, hu'⟩
  have hnd2 : (usersOfIp ip events).Nodup := List.nodup_dedup _
  rw [List.map_congr_left hentry]
  have : List.map (fun kv : String × LogTimes =>
        F (timesOf EventType.EVENT_LOGIN ip kv.1 events)
          (timesOf EventType.EVENT_LOGOUT ip kv.1 events))
      ((UMap.find (timesMapOf EventType.EVENT_LOGIN events []) ip).getD [])
      = List.map (fun u => F (timesOf EventType.EVENT_LOGIN ip u events)
          (timesOf EventType.EVENT_LOGOUT ip u events))
        (UMap.keys ((UMap.find (timesMapOf EventType.EVENT_LOGIN events []) ip).getD [])) := by
    simp [UMap.keys, List.map_map, Function.comp_def]
  rw [this]
  apply sum_map_eq_of_subset _ _ _ hnd hnd2 hsub
  intro u _ hnu
  have h0 := timesOf_nil_of_no_key ip u events hnu
  rw [h0, hF]

/-- The session lengths added for `ip` add up to `S`. -/
theorem addedLengths_sum (mk : Tm → Int) (iter : MapOrder) (hiter : IsIterationOrder iter)
    (ip : String) (events : List Event) :
    (addedLengths mk iter ip events).sum = secondsOfIpBy mk ip events := by
  unfold addedLengths
  rw [classifyEvents_eq, entryLengths_sum]
  rw [((hiter LogTimes _).map _).sum_eq]
  rw [sum_entries_eq (fun a b => (pairLengthsBy mk a b).sum) (by intro b; simp [pairLengthsBy])]
  unfold secondsOfIpBy
  apply congrArg
  apply List.map_congr_left
  intro u _
  exact (pairLengthsBy_timesOf mk ip u events).2

/-- The session lengths added for `ip` are `N` in number. -/
theorem addedLengths_length (mk : Tm → Int) (iter : MapOrder) (hiter : IsIterationOrder iter)
    (ip : String) (events : List Event) :
    (addedLengths mk iter ip events).length = sessionsOfIp ip events := by
  unfold addedLengths
  rw [classifyEvents_eq, entryLengths_length]
  rw [((hiter LogTimes _).map _).sum_eq]
  rw [sum_entries_eq (fun a b => (pairLengthsBy mk a b).length)
    (by intro b; simp [pairLengthsBy])]
  unfold sessionsOfIp
  apply congrArg
  apply List.map_congr_left
  intro u _
  exact (pairLengthsBy_timesOf mk ip u events).1

theorem x86Conv_isIntConv : IsIntConv x86Conv := by
  intro x hx
  unfold x86Conv
  rw [if_pos hx]

/-- When every running total is a value of `int`, the entry stored for an IP with a paired
session is the exact quotient. -/
theorem find_getAvgSessionLengthPerIp32_exact (conv : IntConv) (hconv : IsIntConv conv)
    (mk : Tm → Int) (iter : MapOrder) (hiter : IsIterationOrder iter) (log : EventLog)
    (out : IpMap) (ip : String) (hpaired : 0 < sessionsOfIp ip log.events)
    (hsum : ∀ p, p <+: addedLengths mk iter ip log.events → InIntRange p.sum)
    (hcount : (sessionsOfIp ip log.events : Int) ≤ INT_MAX) :
    UMap.find (log.getAvgSessionLengthPerIp32 conv mk iter out) ip =
      some (Int.tdiv (secondsOfIpBy mk ip log.events) (sessionsOfIp ip log.events)) := by
  rw [find_getAvgSessionLengthPerIp32 conv mk iter hiter]
  have h0 : loginCount ip log.events ≠ 0 := by
    intro h
    have := sessionsOfIp_eq_zero_of_no_login ip log.events h
    omega
  rw [if_neg h0]
  have hlen := addedLengths_length mk iter hiter ip log.events
  have hS := addedLengths_sum mk iter hiter ip log.events
  have hex := addLengths_exact conv hconv (addedLengths mk iter ip log.events) 0 0
    (fun p hp => by rw [zero_add]; exact hsum p hp) (by unfold INT_MIN; omega)
    (by rw [hlen, zero_add]; exact hcount)
  rw [hex, hlen, hS, zero_add, zero_add]
  unfold avgOfTotals32
  simp only
  have hN : ((sessionsOfIp ip log.events : Nat) : Int) ≠ 0 := by omega
  rw [if_neg hN]
  have hSr : InIntRange (secondsOfIpBy mk ip log.events) := by
    rw [← hS]
    exact hsum _ (List.prefix_refl _)
  rw [hconv _ (inIntRange_tdiv _ _ hSr (by omega))]

/-! ## Many sessions of one user -/

theorem pushTime_single (ip user : String) (L : LogTimes) (t : Tm) :
    pushTime [(ip, [(user, L)])] ip user t = [(ip, [(user, L ++ [t])])] := by
  simp [pushTime, UMap.update]

theorem timesMapOf_replicate (ty : EventType) (e : Event) (hty : e.getType = ty) (n : Nat)
    (L : LogTimes) :
    timesMapOf ty (List.replicate n e) [(e.getIp, [(e.getUser, L)])] =
      [(e.getIp, [(e.getUser, L ++ List.replicate n e.getTime)])] := by
  induction n generalizing L with
  | zero => simp [timesMapOf]
  | succ n ih =>
    have hstep : timesMapOf ty (List.replicate (n + 1) e) [(e.getIp, [(e.getUser, L)])] =
        timesMapOf ty (List.replicate n e) [(e.getIp, [(e.getUser, L ++ [e.getTime])])] := by
      simp only [timesMapOf, List.replicate_succ, List.foldl_cons, hty, if_true, pushTime_single]
    rw [hstep, ih, List.append_assoc]
    rfl

theorem timesMapOf_replicate_nil (ty : EventType) (e : Event) (hty : e.getType = ty) (n : Nat) :
    timesMapOf ty (List.replicate (n + 1) e) [] =
      [(e.getIp, [(e.getUser, List.replicate (n + 1) e.getTime)])] := by
  have hstep : timesMapOf ty (List.replicate (n + 1) e) [] =
      timesMapOf ty (List.replicate n e) [(e.getIp, [(e.getUser, [e.getTime])])] := by
    simp only [timesMapOf, List.replicate_succ, List.foldl_cons, hty, if_true]
    rfl
  rw [hstep, timesMapOf_replicate ty e hty]
  rfl

theorem timesMapOf_replicate_other (ty : EventType) (e : Event) (hty : e.getType ≠ ty) (n : Nat)
    (m : IpLogTimesMap) : timesMapOf ty (List.replicate n e) m = m := by
  induction n with
  | zero => rfl
  | succ n ih =>
    have hstep : timesMapOf ty (List.replicate (n + 1) e) m =
        timesMapOf ty (List.replicate n e) m := by
      simp only [timesMapOf, List.replicate_succ, List.foldl_cons, hty, if_false]
    rw [hstep, ih]

theorem timesMapOf_append (ty : EventType) (es1 es2 : List Event) (m : IpLogTimesMap) :
    timesMapOf ty (es1 ++ es2) m = timesMapOf ty es2 (timesMapOf ty es1 m) := by
  unfold timesMapOf
  rw [List.foldl_append]

/-- The session lengths added for the IP of `sessionsLog`: `n` times the same length. -/
theorem addedLengths_sessionsLog (mk : Tm → Int) (n : Nat) (login logout : Tm) :
    addedLengths mk insertionOrder "1.1.1.1" (sessionsLog (n + 1) login logout).events =
      List.replicate (n + 1) (mk logout - mk login) := by
  unfold addedLengths
  rw [classifyEvents_eq]
  simp only [sessionsLog]
  rw [timesMapOf_append, timesMapOf_append]
  rw [timesMapOf_replicate_nil EventType.EVENT_LOGIN
      { eventTime := login, eventType := EventType.EVENT_LOGIN, ip := "1.1.1.1",
        user := "alice" } rfl n,
    timesMapOf_replicate_other EventType.EVENT_LOGIN
      { eventTime := logout, eventType := EventType.EVENT_LOGOUT, ip := "1.1.1.1",
        user := "alice" } (by simp [Event.getType]) (n + 1),
    timesMapOf_replicate_other EventType.EVENT_LOGOUT
      { eventTime := login, eventType := EventType.EVENT_LOGIN, ip := "1.1.1.1",
        user := "alice" } (by simp [Event.getType]) (n + 1),
    timesMapOf_replicate_nil EventType.EVENT_LOGOUT
      { eventTime := logout, eventType := EventType.EVENT_LOGOUT, ip := "1.1.1.1",
        user := "alice" } rfl n]
  simp only [Event.getIp, Event.getUser, Event.getTime, UMap.find, if_true, Option.getD_some,
    insertionOrder, entryLengths, List.flatMap_cons, List.flatMap_nil, List.append_nil,
    pairLengthsBy, difftime]
  rw [List.zipWith_replicate]
  simp

theorem loginCount_sessionsLog (n : Nat) (login logout : Tm) :
    loginCount "1.1.1.1" (sessionsLog n login logout).events = n := by
  unfold loginCount sessionsLog
  simp only [List.countP_append, List.countP_replicate]
  simp [Event.getType, Event.getIp]

theorem sum_replicate_int (n : Nat) (d : Int) : (List.replicate n d).sum = n * d := by
  induction n with
  | zero => simp
  | succ n ih =>
    rw [List.replicate_succ, List.sum_cons, ih]
    push_cast
    ring

theorem prefix_replicate (n : Nat) (d : Int) (p : List Int) (hp : p <+: List.replicate n d) :
    ∃ k, k ≤ n ∧ p = List.replicate k d := by
  refine ⟨p.length, ?_, ?_⟩
  · have := hp.length_le
    simpa using this
  · apply List.eq_replicate_iff.2
    refine ⟨rfl, ?_⟩
    intro x hx
    exact List.eq_of_mem_replicate (hp.subset hx)

/-- Equal lengths `d ≥ 0` added `n` times give the exact totals as long as `n * d` is a
value of `int`. -/
theorem addLengths_replicate (conv : IntConv) (hconv : IsIntConv conv) (n : Nat) (d : Int)
    (hd : 0 ≤ d) (hsum : (n : Int) * d ≤ INT_MAX) (hn : (n : Int) ≤ INT_MAX) :
    addLengths conv (List.replicate n d) (0, 0) = ((n : Int) * d, (n : Int)) := by
  have h := addLengths_exact conv hconv (List.replicate n d) 0 0 ?_ (by unfold INT_MIN; omega)
    (by simpa using hn)
  · rw [h, sum_replicate_int]
    simp
  · intro p hp
    obtain ⟨k, hk, rfl⟩ := prefix_replicate n d p hp
    rw [sum_replicate_int, zero_add]
    have hk' : (k : Int) ≤ (n : Int) := by exact_mod_cast hk
    have h0 : (0 : Int) ≤ (k : Int) * d := mul_nonneg (Int.ofNat_nonneg _) hd
    have h1 : (k : Int) * d ≤ (n : Int) * d := mul_le_mul_of_nonneg_right hk' hd
    unfold InIntRange INT_MIN
    unfold INT_MAX at hsum ⊢
    constructor <;> omega

/-- What the x86-64 build stores for the IP of `overflowLog`: the 5439th addition leaves
the range of `int`, the total becomes `INT_MIN`, and the quotient by 5439 is -394830. -/
theorem find_overflowLog :
    UMap.find (overflowLog.getAvgSessionLengthPerIp32 x86Conv mktime insertionOrder [])
      "1.1.1.1" = some (-394830) := by
  rw [find_getAvgSessionLengthPerIp32 x86Conv mktime insertionOrder
    insertionOrder_isIterationOrder]
  have hlc : loginCount "1.1.1.1" overflowLog.events = 5439 := loginCount_sessionsLog _ _ _
  rw [hlc, if_neg (by decide)]
  have hD : addedLengths mktime insertionOrder "1.1.1.1" overflowLog.events =
      List.replicate 5438 (394839 : Int) ++ [394839] := by
    unfold overflowLog
    rw [addedLengths_sessionsLog mktime 5438]
    have hd : mktime { tm_sec := 99, tm_min := 99, tm_hour := 99 } -
        mktime { tm_sec := 0, tm_min := 0, tm_hour := -9 } = 394839 := by decide
    rw [hd, List.replicate_succ']
  rw [hD, addLengths_append,
    addLengths_replicate x86Conv x86Conv_isIntConv 5438 394839 (by decide) (by decide)
      (by decide)]
  decide

theorem sessionsOfIp_overflowLog : sessionsOfIp "1.1.1.1" overflowLog.events = 5439 := by
  rw [← addedLengths_length mktime insertionOrder insertionOrder_isIterationOrder]
  unfold overflowLog
  rw [addedLengths_sessionsLog mktime 5438, List.length_replicate]

theorem secondsOfIpBy_overflowLog :
    secondsOfIpBy mktime "1.1.1.1" overflowLog.events = 2147529321 := by
  rw [← addedLengths_sum mktime insertionOrder insertionOrder_isIterationOrder]
  unfold overflowLog
  rw [addedLengths_sessionsLog mktime 5438, sum_replicate_int]
  decide

/-- C1, with the range of `int`: for every IP with at least one paired session, the entry
that `getAvgSessionLengthPerIp` stores for the IP is `S / N` truncated toward zero (also
when `S` is negative), where `N` is the sum over the users of the IP of
`min(loginCount, logoutCount)` and `S` the sum over the users and over
`i < min(loginCount, logoutCount)` of the `i`-th logout time minus the `i`-th login time,
in sequence order and in seconds of the library's `mktime`; provided that `lengthSum`
stays a value of `int` after each of the additions that the loops make, in their order,
and that `N` is a value of `int`. -/
theorem getAvgSessionLengthPerIp32_avg (conv : IntConv) (hconv : IsIntConv conv)
    (mk : Tm → Int) (iter : MapOrder) (hiter : IsIterationOrder iter) (log : EventLog)
    (avgSessionLengths : IpMap) (ip : String)
    (hpaired : 0 < sessionsOfIp ip log.events)
    (hsum : ∀ p ∈ (addedLengths mk iter ip log.events).inits, InIntRange p.sum)
    (hcount : (sessionsOfIp ip log.events : Int) ≤ INT_MAX) :
    UMap.find (log.getAvgSessionLengthPerIp32 conv mk iter avgSessionLengths) ip =
      some (Int.tdiv (secondsOfIpBy mk ip log.events) (sessionsOfIp ip log.events)) :=
  find_getAvgSessionLengthPerIp32_exact conv hconv mk iter hiter log avgSessionLengths ip
    hpaired (fun p hp => hsum p ((List.mem_inits p _).2 hp)) hcount

/-- C1, at the end-to-end example and at a sequence with a negative sum, for the x86-64
build and `mktime` in UTC: the example gives `(600 + 900) / 2 = 750` for `192.168.1.1`,
and `S = -3`, `N = 2` give `-1`, the quotient truncated toward zero. -/
theorem getAvgSessionLengthPerIp32_avg_example :
    (secondsOfIpBy mktime "192.168.1.1" exampleLog.events = 1500 ∧
      sessionsOfIp "192.168.1.1" exampleLog.events = 2 ∧
      Int.tdiv (secondsOfIpBy mktime "192.168.1.1" exampleLog.events)
        (sessionsOfIp "192.168.1.1" exampleLog.events) = 750 ∧
      UMap.find (exampleLog.getAvgSessionLengthPerIp32 x86Conv mktime reverseOrder [])
          "192.168.1.1" =
        some (Int.tdiv (secondsOfIpBy mktime "192.168.1.1" exampleLog.events)
          (sessionsOfIp "192.168.1.1" exampleLog.events))) ∧
    (secondsOfIpBy mktime "1.1.1.1" backwardLog.events = -3 ∧
      sessionsOfIp "1.1.1.1" backwardLog.events = 2 ∧
      Int.tdiv (secondsOfIpBy mktime "1.1.1.1" backwardLog.events)
        (sessionsOfIp "1.1.1.1" backwardLog.events) = -1 ∧
      UMap.find (backwardLog.getAvgSessionLengthPerIp32 x86Conv mktime insertionOrder [])
          "1.1.1.1" =
        some (Int.tdiv (secondsOfIpBy mktime "1.1.1.1" backwardLog.events)
          (sessionsOfIp "1.1.1.1" backwardLog.events))) :=
  ⟨⟨by decide, by decide, by decide,
      getAvgSessionLengthPerIp32_avg x86Conv x86Conv_isIntConv mktime reverseOrder
        reverseOrder_isIterationOrder exampleLog [] "192.168.1.1" (by decide) (by decide)
        (by decide)⟩,
    ⟨by decide, by decide, by decide,
      getAvgSessionLengthPerIp32_avg x86Conv x86Conv_isIntConv mktime insertionOrder
        insertionOrder_isIterationOrder backwardLog [] "1.1.1.1" (by decide) (by decide)
        (by decide)⟩⟩

/-- C1 fails when `lengthSum` leaves the range of `int`: `overflowLog` has `N = 5439`
paired sessions for `1.1.1.1` with the sum `S = 2147529321`, which is above `INT_MAX`;
`S / N` is 394839, and the x86-64 build stores -394830. -/
theorem getAvgSessionLengthPerIp32_overflow :
    sessionsOfIp "1.1.1.1" overflowLog.events = 5439 ∧
    secondsOfIpBy mktime "1.1.1.1" overflowLog.events = 2147529321 ∧
    INT_MAX < secondsOfIpBy mktime "1.1.1.1" overflowLog.events ∧
    Int.tdiv (secondsOfIpBy mktime "1.1.1.1" overflowLog.events)
      (sessionsOfIp "1.1.1.1" overflowLog.events) = 394839 ∧
    UMap.find (overflowLog.getAvgSessionLengthPerIp32 x86Conv mktime insertionOrder [])
      "1.1.1.1" = some (-394830) := by
  refine ⟨sessionsOfIp_overflowLog, secondsOfIpBy_overflowLog, ?_, ?_, find_overflowLog⟩
  · rw [secondsOfIpBy_overflowLog]; decide
  · rw [secondsOfIpBy_overflowLog, sessionsOfIp_overflowLog]; decide

/-! ## Sequences in which every logout follows its login, with `int` totals -/

theorem libSecsOf_append (mk : Tm → Int) (ty : EventType) (ip user : String)
    (events : List Event) (e : Event) :
    libSecsOf mk ty ip user (events ++ [e]) =
      libSecsOf mk ty ip user events ++
        (if e.getType = ty ∧ e.getIp = ip ∧ e.getUser = user then [mk e.getTime] else []) := by
  unfold libSecsOf
  rw [List.filter_append, List.map_append]
  by_cases h : e.getType = ty ∧ e.getIp = ip ∧ e.getUser = user
  · rw [if_pos h, List.filter_cons_of_pos (by simpa using h)]
    rfl
  · rw [if_neg h, List.filter_cons_of_neg (by simpa using h)]
    rfl

theorem mem_libSecsOf (mk : Tm → Int) (ty : EventType) (ip user : String)
    (events : List Event) (x : Int) (h : x ∈ libSecsOf mk ty ip user events) :
    ∃ a ∈ events, a.getType = ty ∧ a.getIp = ip ∧ a.getUser = user ∧ mk a.getTime = x := by
  unfold libSecsOf at h
  obtain ⟨a, ha, hx⟩ := List.mem_map.1 h
  obtain ⟨hmem, hp⟩ := List.mem_filter.1 ha
  simp only [decide_eq_true_eq] at hp
  exact ⟨a, hmem, hp.1, hp.2.1, hp.2.2, hx⟩

theorem libSecsOf_length (mk : Tm → Int) (ty : EventType) (ip user : String)
    (events : List Event) :
    (libSecsOf mk ty ip user events).length = (secsOf ty ip user events).length := by
  simp [libSecsOf, secsOf]

/-- In a sequence sorted by the library's time in which no initial segment holds more
logouts than logins of `(ip, user)`, the `i`-th logout is not earlier than the `i`-th
login. -/
theorem login_le_logout_by (mk : Tm → Int) (ip user : String) (events : List Event)
    (hsorted : List.Pairwise (fun a b => mk a.getTime ≤ mk b.getTime) events)
    (hbal : ∀ p, p <+: events →
      (libSecsOf mk EventType.EVENT_LOGOUT ip user p).length
        ≤ (libSecsOf mk EventType.EVENT_LOGIN ip user p).length) :
    ∀ i, i < (libSecsOf mk EventType.EVENT_LOGOUT ip user events).length →
      (libSecsOf mk EventType.EVENT_LOGIN ip user events).getD i 0
        ≤ (libSecsOf mk EventType.EVENT_LOGOUT ip user events).getD i 0 := by
  induction events using List.reverseRecOn with
  | nil => intro i hi; simp [libSecsOf] at hi
  | append_singleton es e ih =>
    have hs := List.pairwise_append.1 hsorted
    have hbal' : ∀ p, p <+: es →
        (libSecsOf mk EventType.EVENT_LOGOUT ip user p).length
          ≤ (libSecsOf mk EventType.EVENT_LOGIN ip user p).length :=
      fun p hp => hbal p (hp.trans (List.prefix_append es [e]))
    have ih' := ih hs.1 hbal'
    have hfull := hbal (es ++ [e]) (List.prefix_refl _)
    have hes := hbal' es (List.prefix_refl _)
    rw [libSecsOf_append, libSecsOf_append] at hfull ⊢
    intro i hi
    by_cases hout : e.getType = EventType.EVENT_LOGOUT ∧ e.getIp = ip ∧ e.getUser = user
    · have hin : ¬ (e.getType = EventType.EVENT_LOGIN ∧ e.getIp = ip ∧ e.getUser = user) := by
        rintro ⟨h, _⟩
        rw [hout.1] at h
        exact absurd h (by decide)
      rw [if_pos hout] at hfull hi ⊢
      rw [if_neg hin] at hfull ⊢
      rw [List.append_nil] at hfull ⊢
      rw [List.length_append, List.length_singleton] at hfull hi
      by_cases hlt : i < (libSecsOf mk EventType.EVENT_LOGOUT ip user es).length
      · rw [List.getD_append _ _ _ _ hlt]
        exact ih' i hlt
      · have hi_eq : (libSecsOf mk EventType.EVENT_LOGOUT ip user es).length ≤ i := by omega
        rw [List.getD_append_right _ _ _ _ hi_eq]
        have hzero : i - (libSecsOf mk EventType.EVENT_LOGOUT ip user es).length = 0 := by omega
        rw [hzero, List.getD_cons_zero]
        have hiL : i < (libSecsOf mk EventType.EVENT_LOGIN ip user es).length := by omega
        rw [List.getD_eq_getElem _ _ hiL]
        obtain ⟨a, ha, _, _, _, hax⟩ := mem_libSecsOf mk _ _ _ _ _ (List.getElem_mem hiL)
        rw [← hax]
        exact hs.2.2 a ha e (List.mem_singleton_self e)
    · rw [if_neg hout] at hi ⊢
      rw [List.append_nil] at hi ⊢
      have hiL : i < (libSecsOf mk EventType.EVENT_LOGIN ip user es).length := by omega
      rw [List.getD_append _ _ _ _ hiL]
      exact ih' i hi

/-- An entry of the login map of `ip` holds the login times of its user, and the lookup
of the user in the logout map of `ip` gives the logout times. -/
theorem entry_timesOf (ip : String) (events : List Event) (kv : String × LogTimes)
    (hkv : kv ∈ (UMap.find (timesMapOf EventType.EVENT_LOGIN events []) ip).getD []) :
    kv.2 = timesOf EventType.EVENT_LOGIN ip kv.1 events ∧
    (UMap.find ((UMap.find (timesMapOf EventType.EVENT_LOGOUT events []) ip).getD [])
      kv.1).getD [] = timesOf EventType.EVENT_LOGOUT ip kv.1 events := by
  obtain ⟨hnd, _⟩ := inner_timesMapOf EventType.EVENT_LOGIN ip events []
    (by simp [UMap.find, UMap.keys])
  have h1 := timesAt_timesMapOf EventType.EVENT_LOGIN ip kv.1 events []
  have h2 := timesAt_timesMapOf EventType.EVENT_LOGOUT ip kv.1 events []
  have hf := UMap.find_eq_some_of_mem _ kv.1 kv.2 hnd hkv
  simp only [timesAt, UMap.find, Option.getD_none, List.nil_append] at h1 h2
  rw [hf] at h1
  simp only [Option.getD_some] at h1
  exact ⟨h1, h2⟩

/-- Every session length added for `ip` is the length of a positional pair of one of its
users. -/
theorem mem_addedLengths (mk : Tm → Int) (iter : MapOrder) (hiter : IsIterationOrder iter)
    (ip : String) (events : List Event) (d : Int)
    (hd : d ∈ addedLengths mk iter ip events) :
    ∃ user i, i < pairedCount ip user events ∧
      d = (libSecsOf mk EventType.EVENT_LOGOUT ip user events).getD i 0
        - (libSecsOf mk EventType.EVENT_LOGIN ip user events).getD i 0 := by
  unfold addedLengths entryLengths at hd
  rw [classifyEvents_eq] at hd
  obtain ⟨kv, hkv, hdkv⟩ := List.mem_flatMap.1 hd
  have hkv' := (hiter LogTimes _).mem_iff.1 hkv
  obtain ⟨e1, e2⟩ := entry_timesOf ip events kv hkv'
  rw [e2, e1] at hdkv
  unfold pairLengthsBy at hdkv
  obtain ⟨i, hi, hget⟩ := List.getElem_of_mem hdkv
  rw [List.length_zipWith] at hi
  refine ⟨kv.1, i, ?_, ?_⟩
  · unfold pairedCount
    rw [secsOf_eq, secsOf_eq, List.length_map, List.length_map]
    exact hi
  · rw [← hget, List.getElem_zipWith, libSecsOf_eq, libSecsOf_eq]
    have h1 : i < (timesOf EventType.EVENT_LOGIN ip kv.1 events).length := by omega
    have h2 : i < (timesOf EventType.EVENT_LOGOUT ip kv.1 events).length := by omega
    rw [List.getD_eq_getElem _ _ (by rw [List.length_map]; exact h2),
      List.getD_eq_getElem _ _ (by rw [List.length_map]; exact h1)]
    simp [difftime]

theorem prefix_sum_bounds (D p : List Int) (hD : ∀ d ∈ D, 0 ≤ d) (hp : p <+: D) :
    0 ≤ p.sum ∧ p.sum ≤ D.sum := by
  obtain ⟨t, rfl⟩ := hp
  have h1 : 0 ≤ p.sum := List.sum_nonneg (fun d hd => hD d (List.mem_append.2 (Or.inl hd)))
  have h2 : 0 ≤ t.sum := List.sum_nonneg (fun d hd => hD d (List.mem_append.2 (Or.inr hd)))
  rw [List.sum_append]
  constructor <;> omega

/-- In a sorted and balanced sequence every positionally paired duration is at least
0. -/
theorem paired_nonneg (mk : Tm → Int) (events : List Event)
    (hsorted : List.Pairwise (fun a b => mk a.getTime ≤ mk b.getTime) events)
    (hbal : ∀ ip user p, p <+: events →
      (secsOf EventType.EVENT_LOGOUT ip user p).length
        ≤ (secsOf EventType.EVENT_LOGIN ip user p).length) :
    ∀ ip user i, i < pairedCount ip user events →
      0 ≤ (libSecsOf mk EventType.EVENT_LOGOUT ip user events).getD i 0
        - (libSecsOf mk EventType.EVENT_LOGIN ip user events).getD i 0 := by
  intro ip user i hi
  have hi' : i < (libSecsOf mk EventType.EVENT_LOGOUT ip user events).length := by
    unfold pairedCount at hi
    rw [libSecsOf_length]
    omega
  have := login_le_logout_by mk ip user events hsorted
    (fun p hp => by rw [libSecsOf_length, libSecsOf_length]; exact hbal ip user p hp) i hi'
  omega

/-- In a sorted and balanced sequence whose sum `S` and number `N` of paired sessions of
`ip` are values of `int`, the entry stored for `ip` is the exact quotient, which is not
negative. -/
theorem find_getAvgSessionLengthPerIp32_nonneg (conv : IntConv) (hconv : IsIntConv conv)
    (mk : Tm → Int) (iter : MapOrder) (hiter : IsIterationOrder iter) (log : EventLog)
    (out : IpMap)
    (hsorted : List.Pairwise (fun a b => mk a.getTime ≤ mk b.getTime) log.events)
    (hbal : ∀ ip user p, p <+: log.events →
      (secsOf EventType.EVENT_LOGOUT ip user p).length
        ≤ (secsOf EventType.EVENT_LOGIN ip user p).length)
    (ip : String) (hN : 0 < sessionsOfIp ip log.events)
    (hS : secondsOfIpBy mk ip log.events ≤ INT_MAX)
    (hcount : (sessionsOfIp ip log.events : Int) ≤ INT_MAX) :
    UMap.find (log.getAvgSessionLengthPerIp32 conv mk iter out) ip =
        some (Int.tdiv (secondsOfIpBy mk ip log.events) (sessionsOfIp ip log.events)) ∧
      0 ≤ Int.tdiv (secondsOfIpBy mk ip log.events) (sessionsOfIp ip log.events) := by
  have hD : ∀ d ∈ addedLengths mk iter ip log.events, 0 ≤ d := by
    intro d hd
    obtain ⟨user, i, hi, rfl⟩ := mem_addedLengths mk iter hiter ip log.events d hd
    exact paired_nonneg mk log.events hsorted hbal ip user i hi
  have hsum := addedLengths_sum mk iter hiter ip log.events
  constructor
  · apply find_getAvgSessionLengthPerIp32_exact conv hconv mk iter hiter log out ip hN _ hcount
    intro p hp
    obtain ⟨h1, h2⟩ := prefix_sum_bounds _ p hD hp
    rw [hsum] at h2
    unfold InIntRange INT_MIN
    constructor
    · omega
    · exact le_trans h2 hS
  · apply Int.tdiv_nonneg _ (Int.ofNat_nonneg _)
    rw [← hsum]
    exact List.sum_nonneg hD

/-- C17, with the range of `int`: for a sequence sorted by time in which, for every IP
and user, no initial segment holds more `Logout` than `Login` events of that IP and user,
every positionally paired duration is at least 0, and every IP with a paired session
whose sum `S` of durations and number `N` of sessions are values of `int` gets an average
that is at least 0, hence different from the sentinel -1. -/
theorem getAvgSessionLengthPerIp32_nonneg (conv : IntConv) (hconv : IsIntConv conv)
    (mk : Tm → Int) (iter : MapOrder) (hiter : IsIterationOrder iter) (log : EventLog)
    (avgSessionLengths : IpMap)
    (hsorted : List.Pairwise (fun a b => mk a.getTime ≤ mk b.getTime) log.events)
    (hbal : ∀ ip user p, p <+: log.events →
      (secsOf EventType.EVENT_LOGOUT ip user p).length
        ≤ (secsOf EventType.EVENT_LOGIN ip user p).length) :
    (∀ ip user i, i < pairedCount ip user log.events →
      0 ≤ (libSecsOf mk EventType.EVENT_LOGOUT ip user log.events).getD i 0
        - (libSecsOf mk EventType.EVENT_LOGIN ip user log.events).getD i 0) ∧
    ∀ ip, 0 < sessionsOfIp ip log.events →
      secondsOfIpBy mk ip log.events ≤ INT_MAX →
      (sessionsOfIp ip log.events : Int) ≤ INT_MAX →
      ∃ avg : Int,
        UMap.find (log.getAvgSessionLengthPerIp32 conv mk iter avgSessionLengths) ip
          = some avg ∧
        0 ≤ avg ∧ avg ≠ -1 := by
  refine ⟨paired_nonneg mk log.events hsorted hbal, fun ip hN hS hcount => ?_⟩
  obtain ⟨h1, h2⟩ := find_getAvgSessionLengthPerIp32_nonneg conv hconv mk iter hiter log
    avgSessionLengths hsorted hbal ip hN hS hcount
  exact ⟨_, h1, h2, by omega⟩

/-- C17, on a login at 10:00:00 and its logout at 10:02:00, for the x86-64 build and
`mktime` in UTC: the sequence is sorted and balanced and the average 120 is not negative.
Without the balance a real average can be -1: a logout at 10:00:00 followed by the login
at 10:00:01 is sorted, forms one pair, and gets the average -1. -/
theorem getAvgSessionLengthPerIp32_nonneg_example :
    UMap.find (pairLog.getAvgSessionLengthPerIp32 x86Conv mktime insertionOrder []) "1.1.1.1"
      = some 120 ∧
    (∃ avg : Int,
      UMap.find (pairLog.getAvgSessionLengthPerIp32 x86Conv mktime insertionOrder [])
        "1.1.1.1" = some avg ∧ 0 ≤ avg ∧ avg ≠ -1) ∧
    (List.Pairwise (fun a b => mktime a.getTime ≤ mktime b.getTime) earlyLogoutLog.events ∧
      sessionsOfIp "1.1.1.1" earlyLogoutLog.events = 1 ∧
      UMap.find (earlyLogoutLog.getAvgSessionLengthPerIp32 x86Conv mktime insertionOrder [])
        "1.1.1.1" = some (-1)) :=
  ⟨by decide,
    (getAvgSessionLengthPerIp32_nonneg x86Conv x86Conv_isIntConv mktime insertionOrder
      insertionOrder_isIterationOrder pairLog [] (by decide) pairLog_balanced).2 "1.1.1.1"
      (by decide) (by decide) (by decide),
    by decide, by decide, by decide⟩

theorem sessionsLog_sorted (mk : Tm → Int) (n : Nat) (login logout : Tm)
    (h : mk login ≤ mk logout) :
    List.Pairwise (fun a b => mk a.getTime ≤ mk b.getTime)
      (sessionsLog n login logout).events := by
  unfold sessionsLog
  simp only
  rw [List.pairwise_append]
  refine ⟨?_, ?_, ?_⟩
  · rw [List.pairwise_replicate]
    exact Or.inr (le_refl _)
  · rw [List.pairwise_replicate]
    exact Or.inr (le_refl _)
  · intro a ha b hb
    rw [List.eq_of_mem_replicate ha, List.eq_of_mem_replicate hb]
    exact h

theorem sessionsLog_balanced (n : Nat) (login logout : Tm) (ip user : String)
    (p : List Event) (hp : p <+: (sessionsLog n login logout).events) :
    (secsOf EventType.EVENT_LOGOUT ip user p).length
      ≤ (secsOf EventType.EVENT_LOGIN ip user p).length := by
  rw [List.prefix_iff_eq_take] at hp
  unfold sessionsLog at hp
  simp only [List.take_append_eq_append_take, List.take_replicate, List.length_replicate] at hp
  rw [hp]
  unfold secsOf
  simp only [List.length_map, ← List.countP_eq_length_filter, List.countP_append,
    List.countP_replicate, Event.getType, Event.getIp, Event.getUser]
  by_cases hc : "1.1.1.1" = ip ∧ "alice" = user
  · simp [hc]
  · simp [hc]

/-- C17 fails when `lengthSum` leaves the range of `int`: `overflowLog` is sorted by time
and every initial segment of it holds at least as many logins as logouts; `1.1.1.1` has
5439 paired sessions, each 394839 seconds long; and the x86-64 build stores the average
-394830 for it. -/
theorem getAvgSessionLengthPerIp32_overflow_negative :
    List.Pairwise (fun a b => mktime a.getTime ≤ mktime b.getTime) overflowLog.events ∧
    (∀ ip user p, p <+: overflowLog.events →
      (secsOf EventType.EVENT_LOGOUT ip user p).length
        ≤ (secsOf EventType.EVENT_LOGIN ip user p).length) ∧
    0 < sessionsOfIp "1.1.1.1" overflowLog.events ∧
    (∀ d ∈ addedLengths mktime insertionOrder "1.1.1.1" overflowLog.events, d = 394839) ∧
    INT_MAX < secondsOfIpBy mktime "1.1.1.1" overflowLog.events ∧
    UMap.find (overflowLog.getAvgSessionLengthPerIp32 x86Conv mktime insertionOrder [])
      "1.1.1.1" = some (-394830) ∧
    ¬ (0 : Int) ≤ -394830 := by
  refine ⟨sessionsLog_sorted mktime _ _ _ (by decide),
    fun ip user p hp => sessionsLog_balanced _ _ _ ip user p hp, ?_, ?_, ?_, find_overflowLog,
    by decide⟩
  · rw [sessionsOfIp_overflowLog]; decide
  · intro d hd
    unfold overflowLog at hd
    rw [addedLengths_sessionsLog mktime 5438] at hd
    rw [List.eq_of_mem_replicate hd]
    decide
  · rw [secondsOfIpBy_overflowLog]; decide

theorem pairLoop32_id (a b : LogTimes) (fuel i : Nat) (st : Int × Int) :
    pairLoop32 (fun x => x) mktime a b fuel i st = pairLoop a b fuel i st := by
  induction fuel generalizing i st with
  | zero => rfl
  | succ fuel ih =>
    unfold pairLoop32 pairLoop
    by_cases h : i < a.length ∧ i < b.length
    · rw [dif_pos h, dif_pos h]
      exact ih _ _
    · rw [dif_neg h, dif_neg h]

theorem calcAvgSessionLengthForIp32_id (iter : MapOrder) (loginU lo : UserLogTimesMap) :
    calcAvgSessionLengthForIp32 (fun x => x) mktime iter loginU lo =
      calcAvgSessionLengthForIp iter loginU lo := by
  unfold calcAvgSessionLengthForIp32 calcAvgSessionLengthForIp
  simp only [pairLoop32_id]

/-- With exact totals and `mktime` in UTC, the functions with the arithmetic of the
machine are `pairLoop`, `calcAvgSessionLengthForIp` and `getAvgSessionLengthPerIp`. -/
theorem getAvgSessionLengthPerIp32_id (iter : MapOrder) (log : EventLog) (out : IpMap) :
    log.getAvgSessionLengthPerIp32 (fun x => x) mktime iter out =
      log.getAvgSessionLengthPerIp iter out := by
  unfold EventLog.getAvgSessionLengthPerIp32 EventLog.getAvgSessionLengthPerIp
  simp only [calcAvgSessionLengthForIp32_id]

end EventLogRepo
